import Mathlib

/-!
# Portfolio importer and viewer: filename parser, grouper, id allocation, store, media dispatch

A shallow embedding of `src/admin/importer.js` and of the media normalization
and renderer dispatch of `src/js/viewer.js` (namespace `Viewer`).

JavaScript strings are modelled as lists of characters (`Str`).  Every regular
expression of the source works on ASCII classes only, so the difference between
UTF-16 code units and code points is invisible to it; lone surrogates are the
only JavaScript strings without a counterpart here.

`String.prototype.toLowerCase` is a platform function.  On ASCII it is the
usual map `A-Z ↦ a-z`, unconditionally.  What it does to a non-ASCII character
(possibly depending on the surrounding text, possibly yielding several
characters) is given by a parameter `U : LowerMap`; every theorem below holds
for all `U`.

`JSON.stringify(value, null, 2)` and `JSON.parse` are embedded from their
ECMAScript definitions (`serializeJSONProperty`, `parseValue`).  The conversion
between a number and its token is floating-point arithmetic of the platform
and is a parameter `F : NumberFormat`.  What `render()` does with the page is
not embedded; whether it throws on a state is a parameter `render` of the two
load paths.
-/

namespace Importer

/-- A JavaScript string. -/
abbrev Str := List Char

/-- The platform's lower-casing of a non-ASCII character: the whole string and
the position of the character give its replacement. -/
abbrev LowerMap := Str → Nat → Str

/-- A lower-casing table that leaves every non-ASCII character as it is. -/
def keepNonAscii : LowerMap := fun w i => (w.get? i).toList

/-! ## Character classes of the regular expressions -/

/-- Class `[a-z]`. -/
def isLowerAZ (c : Char) : Bool := decide (97 ≤ c.toNat) && decide (c.toNat ≤ 122)

/-- Class `[A-Z]`. -/
def isUpperAZ (c : Char) : Bool := decide (65 ≤ c.toNat) && decide (c.toNat ≤ 90)

/-- Class `\d`, that is `[0-9]`. -/
def isDigit (c : Char) : Bool := decide (48 ≤ c.toNat) && decide (c.toNat ≤ 57)

/-- Class `[a-z0-9]` without the `i` flag. -/
def isAlnum (c : Char) : Bool := isLowerAZ c || isDigit c

/-- Class `[a-z0-9]` under the `i` flag: `[A-Za-z0-9]`. -/
def isAlnumI (c : Char) : Bool := isLowerAZ c || isUpperAZ c || isDigit c

/-- Class `\w`: `[A-Za-z0-9_]`. -/
def isWord (c : Char) : Bool := isAlnumI c || decide (c = '_')

/-- WhiteSpace and LineTerminator code points, the ones `trim` removes. -/
def isWhiteSpace (c : Char) : Bool :=
  let n := c.toNat
  decide (9 ≤ n ∧ n ≤ 13) || decide (n = 32) || decide (n = 160) || decide (n = 0x1680) ||
  decide (0x2000 ≤ n ∧ n ≤ 0x200A) || decide (n = 0x2028) || decide (n = 0x2029) ||
  decide (n = 0x202F) || decide (n = 0x205F) || decide (n = 0x3000) || decide (n = 0xFEFF)

/-! ## String built-ins -/

/-- ASCII lower-casing of one character. -/
def asciiLower (c : Char) : Char :=
  if isUpperAZ c then Char.ofNat (c.toNat + 32) else c

/-- ASCII upper-casing of one character. -/
def asciiUpper (c : Char) : Char :=
  if isLowerAZ c then Char.ofNat (c.toNat - 32) else c

/-- Worker of `toLowerCase`: `i` is the position of the head of the remaining
text inside `whole`. -/
def lowerFrom (U : LowerMap) (whole : Str) : Nat → Str → Str
  | _, [] => []
  | i, c :: cs =>
    (if c.toNat < 128 then [asciiLower c] else U whole i) ++ lowerFrom U whole (i + 1) cs

/-- Method `s.toLowerCase()`. -/
def toLowerCase (U : LowerMap) (s : Str) : Str := lowerFrom U s 0 s

/-- Method `s.trim()`. -/
def trim (s : Str) : Str :=
  ((s.dropWhile isWhiteSpace).reverse.dropWhile isWhiteSpace).reverse

/-! ## slugify -/

/-- Step `.replace(/\.([a-z0-9]+)$/i, "")`: the leftmost `.` that is followed, up
to the end of the text, by one or more letters or digits is cut off with
everything after it. -/
def stripAlnumExt : Str → Str
  | [] => []
  | c :: cs =>
    if c = '.' ∧ cs ≠ [] ∧ cs.all isAlnumI = true then [] else c :: stripAlnumExt cs

/-- Step `.replace(/[^a-z0-9]+/g, "-")`: every maximal run of characters outside
`[a-z0-9]` becomes one hyphen.  The flag `inRun` says that the character just
before the remaining text was outside `[a-z0-9]`, so the hyphen of the current
run is already written. -/
def hyphenateFrom : Bool → Str → Str
  | _, [] => []
  | inRun, c :: cs =>
    if isAlnum c then c :: hyphenateFrom false cs
    else if inRun then hyphenateFrom true cs
    else '-' :: hyphenateFrom true cs

/-- Step `.replace(/[^a-z0-9]+/g, "-")`. -/
def hyphenateRuns (s : Str) : Str := hyphenateFrom false s

/-- Step five of `slugify`, the replace of each run of hyphens (regex `-+`, flag g)
by one hyphen.  The flag `inRun` says that the character just before the
remaining text was a hyphen. -/
def squeezeFrom : Bool → Str → Str
  | _, [] => []
  | inRun, c :: cs =>
    if c = '-' then (if inRun then squeezeFrom true cs else '-' :: squeezeFrom true cs)
    else c :: squeezeFrom false cs

/-- Step five of `slugify`: each run of hyphens becomes one hyphen. -/
def squeezeHyphens (s : Str) : Str := squeezeFrom false s

/-- Last step of `slugify`, the replace of regex `^-|-$` (flag g) by the empty
text: a hyphen at the very start is removed, then a hyphen at the very end of
what is left. -/
def stripEdgeHyphens (s : Str) : Str :=
  let t := if s.head? = some '-' then s.tail else s
  if t.getLast? = some '-' then t.dropLast else t

/-- Function `slugify(s)` on a string argument. -/
def slugify (U : LowerMap) (s : Str) : Str :=
  stripEdgeHyphens (squeezeHyphens (hyphenateRuns (stripAlnumExt (trim (toLowerCase U s)))))

/-- Function `slugify` on an argument that may be missing (`undefined`, `null`):
`(s || "")` supplies the empty text. -/
def slugifyArg (U : LowerMap) (s : Option Str) : Str := slugify U (s.getD [])

/-! ## Slug shape -/

/-- A character a slug may hold: `[a-z0-9-]`. -/
def SlugChar (c : Char) : Prop := isAlnum c = true ∨ c = '-'

/-- No two hyphens stand next to each other. -/
def NoDoubleHyphen (s : Str) : Prop := List.Chain' (fun a b => ¬ (a = '-' ∧ b = '-')) s

/-- The shape of a slug: characters of `[a-z0-9-]`, no hyphen at either end. -/
def SlugShaped (s : Str) : Prop :=
  (∀ c ∈ s, SlugChar c) ∧ s.head? ≠ some '-' ∧ s.getLast? ≠ some '-'

/-! ## titleize -/

/-- Step `.replace(/[_-]+/g, " ")` of `titleize`: every maximal run of underscores
and hyphens becomes one space.  The flag `inRun` says that the character just
before the remaining text belonged to such a run. -/
def spaceRunsFrom : Bool → Str → Str
  | _, [] => []
  | inRun, c :: cs =>
    if c = '_' ∨ c = '-' then (if inRun then spaceRunsFrom true cs else ' ' :: spaceRunsFrom true cs)
    else c :: spaceRunsFrom false cs

/-- Step `.replace(/\b\w/g, c => c.toUpperCase())` of `titleize`: a word character
that follows a non-word character, or starts the text, is upper-cased.  The flag
`prevWord` says that the character just before the remaining text is a word
character. -/
def capitalizeFrom : Bool → Str → Str
  | _, [] => []
  | prevWord, c :: cs =>
    (if isWord c && !prevWord then asciiUpper c else c) :: capitalizeFrom (isWord c) cs

/-- Function `titleize(s)` on a string argument. -/
def titleize (s : Str) : Str :=
  let clean := trim (spaceRunsFrom false s)
  if clean ≠ [] then capitalizeFrom false clean else []

/-! ## Splitting -/

/-- Worker of `s.split("__")`: `acc` holds, reversed, the piece being read. -/
def splitDunderFrom : Str → Str → List Str
  | acc, [] => [acc.reverse]
  | acc, [c] => [(c :: acc).reverse]
  | acc, c :: d :: rest =>
    if c = '_' ∧ d = '_' then acc.reverse :: splitDunderFrom [] rest
    else splitDunderFrom (c :: acc) (d :: rest)

/-- Method `s.split("__")`. -/
def splitDunder (s : Str) : List Str := splitDunderFrom [] s

/-- Worker of `s.split(sep)` for a one-character separator. -/
def splitCharFrom (sep : Char) : Str → Str → List Str
  | acc, [] => [acc.reverse]
  | acc, c :: cs =>
    if c = sep then acc.reverse :: splitCharFrom sep [] cs
    else splitCharFrom sep (c :: acc) cs

/-- Method `s.split(sep)` for a one-character separator. -/
def splitChar (sep : Char) (s : Str) : List Str := splitCharFrom sep [] s

/-- Chain `.map(p => p.trim()).filter(Boolean)` on a list of strings. -/
def trimmedNonEmpty (ps : List Str) : List Str :=
  (ps.map trim).filter (fun p => !p.isEmpty)

/-- The `parts` of `parseTemplate`: the trimmed non-empty `__` segments. -/
def templateParts (nameNoExt : Str) : List Str := trimmedNonEmpty (splitDunder nameNoExt)

/-! ## The regular expressions of parseTemplate -/

/-- Assertion `\b` between the character `prev` before a position and the
character `next` after it (`none` at an end of the text). -/
def wordBoundary (prev next : Option Char) : Bool :=
  (prev.any isWord) != (next.any isWord)

/-- Prefix `(19|20)\d{2}` at the head of a text. -/
def yearPrefix : Str → Option Str
  | a :: b :: c :: d :: _ =>
    if ((a = '1' ∧ b = '9') ∨ (a = '2' ∧ b = '0')) ∧ isDigit c = true ∧ isDigit d = true
    then some [a, b, c, d] else none
  | _ => none

/-- Regex `\b(19|20)\d{2}\b` tried at the head of a text that `prev` precedes. -/
def yearAt (prev : Option Char) (s : Str) : Option Str :=
  match yearPrefix s with
  | some y =>
    if wordBoundary prev s.head? && wordBoundary y.getLast? (s.drop 4).head? then some y
    else none
  | none => none

/-- Leftmost match of `\b(19|20)\d{2}\b` in a text that `prev` precedes. -/
def findYearFrom : Option Char → Str → Option Str
  | _, [] => none
  | prev, c :: cs =>
    match yearAt prev (c :: cs) with
    | some y => some y
    | none => findYearFrom (some c) cs

/-- Expression `text.match(/\b(19|20)\d{2}\b/)`, the matched text. -/
def matchYear (text : Str) : Option Str := findYearFrom none text

/-- Exactly `n` digits at the head of a text followed by `\b`. -/
def digitsThenBoundary (n : Nat) (s : Str) : Option Str :=
  let ds := s.take n
  if ds.length = n ∧ ds.all isDigit = true ∧ wordBoundary ds.getLast? (s.drop n).head? = true
  then some ds else none

/-- Regex `\b(\d{1,3})\b` tried at the head of a text that `prev` precedes: the
greedy quantifier tries three digits, then two, then one. -/
def seqAt (prev : Option Char) (s : Str) : Option Str :=
  if wordBoundary prev s.head? then
    (digitsThenBoundary 3 s).orElse fun _ =>
    (digitsThenBoundary 2 s).orElse fun _ => digitsThenBoundary 1 s
  else none

/-- Leftmost match of `\b(\d{1,3})\b` in a text that `prev` precedes. -/
def findSeqFrom : Option Char → Str → Option Str
  | _, [] => none
  | prev, c :: cs =>
    match seqAt prev (c :: cs) with
    | some y => some y
    | none => findSeqFrom (some c) cs

/-- Expression `text.match(/\b(\d{1,3})\b/)`, the captured digits. -/
def matchSeq (text : Str) : Option Str := findSeqFrom none text

/-- Expression `name.replace(/^(19|20)\d{2}[-_ ]*/, "")` of the fallback path. -/
def stripLeadingYear (name : Str) : Str :=
  match yearPrefix name with
  | some _ => (name.drop 4).dropWhile (fun c => decide (c = '-' ∨ c = '_' ∨ c = ' '))
  | none => name

/-! ## parseTemplate -/

/-- The record `parseTemplate` returns. -/
structure Parsed where
  slug : Str
  title : Str
  tags : List Str
  year : Str
  seq : Str
  hasTemplate : Bool
  deriving DecidableEq, Repr

/-- Function `parseTemplate(nameNoExt)`. -/
def parseTemplate (U : LowerMap) (nameNoExt : Str) : Parsed :=
  match templateParts nameNoExt with
  | p0 :: p1 :: rest =>
    let slug := slugify U p0
    let title := if p1 ≠ [] then p1 else titleize p0
    let tags := trimmedNonEmpty (splitChar ',' (rest.head?.getD []))
    let joined := List.intercalate [' '] rest
    let year := (matchYear joined).getD []
    let seq := (matchSeq joined).getD []
    { slug := slug, title := title, tags := tags, year := year, seq := seq, hasTemplate := true }
  | _ =>
    let yearStart := (yearPrefix nameNoExt).getD []
    let slug := slugify U (stripLeadingYear nameNoExt)
    { slug := if slug ≠ [] then slug else slugify U nameNoExt,
      title := titleize nameNoExt, tags := [], year := yearStart, seq := [],
      hasTemplate := false }

/-! ## Data model of the importer -/

/-- The four categories, the keys of `DEFAULT_STATE`. -/
inductive Cat where
  | animation
  | cad
  | prints
  | code
  deriving DecidableEq, Repr

/-- The key of a category, as it is written in the store and in asset paths. -/
def Cat.key : Cat → Str
  | .animation => "animation".toList
  | .cad => "cad".toList
  | .prints => "prints".toList
  | .code => "code".toList

/-- An uploaded file; only its name is read. -/
structure File where
  name : Str
  deriving DecidableEq, Repr

/-- A media descriptor as `mediaFromFile` builds it; `label` is present on the
`file` variant only. -/
structure MediaDescriptor where
  type : Str
  src : Str
  label : Option Str
  deriving DecidableEq, Repr

/-- The `media` field of a project: one descriptor, or an array of them. -/
inductive Media where
  | single (d : MediaDescriptor)
  | gallery (ds : List MediaDescriptor)
  deriving DecidableEq, Repr

/-- The descriptors a `media` field holds, in order. -/
def Media.items : Media → List MediaDescriptor
  | .single d => [d]
  | .gallery ds => ds

/-- A project record. -/
structure Project where
  id : Str
  title : Str
  subtitle : Str
  year : Str
  tools : List Str
  description : Str
  links : List (Str × Str)
  media : Media
  deriving DecidableEq, Repr

/-- The importer's `state`: one ordered project list per category. -/
structure State where
  animation : List Project
  cad : List Project
  prints : List Project
  code : List Project
  deriving DecidableEq, Repr

/-- Expression `state[cat]`. -/
def State.get (st : State) : Cat → List Project
  | .animation => st.animation
  | .cad => st.cad
  | .prints => st.prints
  | .code => st.code

/-- Assignment of a new list to `state[cat]`. -/
def State.set (st : State) (cat : Cat) (ps : List Project) : State :=
  match cat with
  | .animation => { st with animation := ps }
  | .cad => { st with cad := ps }
  | .prints => { st with prints := ps }
  | .code => { st with code := ps }

/-- Constant `DEFAULT_STATE`, the store the importer starts from. -/
def DEFAULT_STATE : State := { animation := [], cad := [], prints := [], code := [] }

/-! ## mediaFromFile -/

/-- Expression `name.split(".").pop()`: the text after the last dot, the whole
name when it has no dot. -/
def lastDotPiece (name : Str) : Str := ((splitChar '.' name).getLast?).getD []

/-- Template literal `../assets/${category}/${name}`. -/
def assetPath (cat : Cat) (name : Str) : Str :=
  "../assets/".toList ++ cat.key ++ '/' :: name

/-- Function `mediaFromFile(file, category)`. -/
def mediaFromFile (U : LowerMap) (file : File) (cat : Cat) : MediaDescriptor :=
  let name := file.name
  let ext := toLowerCase U (lastDotPiece name)
  if ext ∈ ["mp4".toList, "webm".toList, "mov".toList] then
    { type := "video".toList, src := assetPath cat name, label := none }
  else if ext ∈ ["png".toList, "jpg".toList, "jpeg".toList, "webp".toList, "gif".toList] then
    { type := "image".toList, src := assetPath cat name, label := none }
  else if ext ∈ ["glb".toList, "gltf".toList, "stl".toList] then
    { type := "model".toList, src := assetPath cat name, label := none }
  else
    { type := "file".toList, src := assetPath cat name, label := some name }

/-! ## uniqueId -/

/-- Template literal `${base}-${i}`.  The counter `i` is a natural number written
in decimal, as JavaScript writes an integer number below `2^53`; the loop would
need more than `2^53` projects in one category to count further. -/
def suffixed (base : Str) (i : Nat) : Str := base ++ '-' :: Nat.toDigits 10 i

/-- The `while (existing.has(id))` loop of `uniqueId`, run for at most `fuel`
tests of the condition; `none` when the fuel runs out before the loop ends. -/
def uniqueIdLoop (existing : List Str) (base : Str) : Nat → Nat → Str → Option Str
  | 0, _, _ => none
  | fuel + 1, i, id =>
    if id ∈ existing then uniqueIdLoop existing base fuel (i + 1) (suffixed base i)
    else some id

/-- Function `uniqueId(base, cat)` run with a bound on the tests of its loop. -/
def uniqueIdFuel (fuel : Nat) (st : State) (base : Str) (cat : Cat) : Option Str :=
  let existing := (st.get cat).map (fun p => p.id)
  let id := if base ≠ [] then base else "project".toList
  uniqueIdLoop existing base fuel 2 id

/-- Function `uniqueId(base, cat)`.  One more test than there are projects in
the category always ends the loop (`uniqueIdFuel_eq_some`). -/
def uniqueId (st : State) (base : Str) (cat : Cat) : Str :=
  (uniqueIdFuel ((st.get cat).length + 1) st base cat).getD []

/-- Function `addProjects(cat, projects)`: the projects are pushed onto the
category's list. -/
def addProjects (st : State) (cat : Cat) (projects : List Project) : State :=
  st.set cat (st.get cat ++ projects)

/-! ## filesToProjects -/

/-- An entry of the `groups` map of `filesToProjects`. -/
structure Group where
  idBase : Str
  title : Str
  tools : List Str
  year : Str
  items : List MediaDescriptor
  previews : List File
  hasTemplate : Bool
  deriving DecidableEq, Repr, Inhabited

/-- A JavaScript `Map` from strings to groups: its entries in insertion order. -/
abbrev GroupMap := List (Str × Group)

/-- Method `groups.get(key)`. -/
def GroupMap.get (m : GroupMap) (key : Str) : Option Group :=
  match m with
  | [] => none
  | (k, g) :: rest => if k = key then some g else GroupMap.get rest key

/-- Method `groups.set(key, entry)`: an existing key keeps its place, a new key
goes to the end. -/
def GroupMap.set (m : GroupMap) (key : Str) (entry : Group) : GroupMap :=
  match m with
  | [] => [(key, entry)]
  | (k, g) :: rest =>
    if k = key then (k, entry) :: rest else (k, g) :: GroupMap.set rest key entry

/-- Expression `file.name.replace(/\.[^/.]+$/, "")`: the leftmost dot that is
followed, up to the end of the name, by one or more characters other than `/`
and `.` is cut off with everything after it. -/
def stripFileExt : Str → Str
  | [] => []
  | c :: cs =>
    if c = '.' ∧ cs ≠ [] ∧ cs.all (fun d => decide (d ≠ '/' ∧ d ≠ '.')) = true then []
    else c :: stripFileExt cs

/-- The grouping key of a file: `t.slug || slugify(nameNoExt)`. -/
def groupKey (U : LowerMap) (file : File) : Str :=
  let nameNoExt := stripFileExt file.name
  let t := parseTemplate U nameNoExt
  if t.slug ≠ [] then t.slug else slugify U nameNoExt

/-- The reading of "the name without its extension": `name` ends in a dot and an
extension, one or more characters other than `/` and `.`, and `stem` is what
stands before that dot; a name with no such ending is its own stem. -/
def IsStemOf (stem name : Str) : Prop :=
  (∃ ext : Str, name = stem ++ '.' :: ext ∧ ext ≠ [] ∧ '.' ∉ ext ∧ '/' ∉ ext) ∨
  (stem = name ∧
    ¬ ∃ (pre ext : Str), name = pre ++ '.' :: ext ∧ ext ≠ [] ∧ '.' ∉ ext ∧ '/' ∉ ext)

/-- The reading of the grouping key of a stem: the slug parsed from it, or
`slugify` of the stem when the parsed slug is empty. -/
def keyOfStem (U : LowerMap) (stem : Str) : Str :=
  if (parseTemplate U stem).slug ≠ [] then (parseTemplate U stem).slug else slugify U stem

/-- One turn of the first loop of `filesToProjects`. -/
def groupStep (U : LowerMap) (cat : Cat) (groups : GroupMap) (file : File) : GroupMap :=
  let nameNoExt := stripFileExt file.name
  let t := parseTemplate U nameNoExt
  let key := if t.slug ≠ [] then t.slug else slugify U nameNoExt
  let entry := (groups.get key).getD
    { idBase := key,
      title := if t.title ≠ [] then t.title else titleize key,
      tools := t.tags,
      year := t.year,
      items := [],
      previews := [],
      hasTemplate := t.hasTemplate }
  let entry := { entry with items := entry.items ++ [mediaFromFile U file cat],
                            previews := entry.previews ++ [file] }
  groups.set key entry

/-- The first loop of `filesToProjects`: the `groups` map after all files. -/
def groupFiles (U : LowerMap) (cat : Cat) (files : List File) : GroupMap :=
  files.foldl (groupStep U cat) []

/-- Expression `g.items.length === 1 ? g.items[0] : g.items`. -/
def mediaOfItems : List MediaDescriptor → Media
  | [d] => .single d
  | ds => .gallery ds

/-- One turn of the second loop of `filesToProjects`: the record of a group. -/
def projectOfGroup (st : State) (cat : Cat) (g : Group) : Project :=
  let id := uniqueId st g.idBase cat
  { id := id,
    title := if g.title ≠ [] then g.title else titleize id,
    subtitle := [],
    year := g.year,
    tools := g.tools,
    description := [],
    links := [],
    media := mediaOfItems g.items }

/-- Function `filesToProjects(cat, files)`. -/
def filesToProjects (U : LowerMap) (st : State) (cat : Cat) (files : List File) : List Project :=
  (groupFiles U cat files).map (fun kg => projectOfGroup st cat kg.2)

/-- The keys of the `groups` map of `filesToProjects`, in the order the second
loop visits them. -/
def groupOrder (U : LowerMap) (cat : Cat) (files : List File) : List Str :=
  (groupFiles U cat files).map (fun kg => kg.1)

/-! ## Loading a store -/

/-- A JavaScript value as `JSON.parse` or `res.json()` can hand it to
`ensureKeys`, or `undefined`.  An object lists its own properties; a key is
looked up at its first entry. -/
inductive JSValue where
  | undefined
  | null
  | bool (b : Bool)
  | num (q : ℚ)
  | str (s : Str)
  | arr (items : List JSValue)
  | obj (props : List (Str × JSValue))

/-- Lookup of an own property in the property list of an object. -/
def lookupProp (k : Str) : List (Str × JSValue) → JSValue
  | [] => .undefined
  | (k1, v) :: rest => if k1 = k then v else lookupProp k rest

/-- Expression `obj?.[k]` for a category key `k`, and the reads `m.type`, `m.src`,
`m.label`, `p.media`, `p.id` of the viewer on a value that is not `undefined` or
`null`.
On `undefined` and `null` the optional chaining gives `undefined`; a boolean, a
number, a string and an array have no property of such a name; an object gives
its own property, or `undefined`. -/
def getProp (obj : JSValue) (k : Str) : JSValue :=
  match obj with
  | .obj props => lookupProp k props
  | _ => .undefined

/-- Expression `Object.keys(out)` for a clone of `DEFAULT_STATE`: its four keys,
in the order they are written. -/
def categoryKeys : List Str := [Cat.animation, Cat.cad, Cat.prints, Cat.code].map Cat.key

/-- Expression `Array.isArray(v) ? v : []`. -/
def arrayOrEmpty : JSValue → JSValue
  | .arr items => .arr items
  | _ => .arr []

/-- Function `ensureKeys(obj)`. -/
def ensureKeys (obj : JSValue) : JSValue :=
  .obj (categoryKeys.map (fun k => (k, arrayOrEmpty (getProp obj k))))

/-- The keys of an object, in order (none for other values). -/
def JSValue.keys : JSValue → List Str
  | .obj props => props.map (fun kv => kv.1)
  | _ => []

/-- The platform's `JSON.parse`: the parsed value, or `none` when it throws a
`SyntaxError`. -/
abbrev JsonParse := Str → Option JSValue

/-- What a handler leaves behind: the importer's `state`, and whether an
exception escaped from it. -/
structure Outcome where
  state : JSValue
  raised : Bool

/-- Function `render()` as a handler sees it: `true` when it throws on the
given `state`.  It rebuilds the page from `state` and `currentCat`: `renderList`
writes texts made from the records of the current category into `innerHTML`
and reads nodes back from what the browser parsed, and it throws, for one, when
a record is `null` (`p.title`).  Which states make it throw depends on the
records and on the browser, so it is a parameter of the handlers. -/
abbrev RenderThrows := JSValue → Bool

/-- The `change` handler of the "load JSON" control.  `file` is the text of the
chosen file, `none` when no file is chosen.  The call `JSON.parse(text)` is not
inside a `try`: when it throws, the handler stops there and `state` keeps its
value.  Else `state = ensureKeys(json)` is assigned and `render()` runs, outside
a `try` as well: when it throws the exception escapes, the assignment done. -/
def loadJsonChange (parse : JsonParse) (render : RenderThrows) (state : JSValue)
    (file : Option Str) : Outcome :=
  match file with
  | none => { state := state, raised := false }
  | some text =>
    match parse text with
    | none => { state := state, raised := true }
    | some json => { state := ensureKeys json, raised := render (ensureKeys json) }

/-- Function `loadFromSiteIfPossible()`.  `fetched` is the value `res.json()`
gives, `none` when the fetch fails, the response is not ok or its body is not
JSON: each of these throws inside the `try`, and the `catch` calls `render()` on
the state as it was.  With a value, `state = ensureKeys(json)` is assigned and
`render()` runs inside the `try`; when it throws, the `catch` calls `render()`
once more, on the state just assigned, and what that call throws escapes. -/
def loadFromSiteIfPossible (render : RenderThrows) (state : JSValue)
    (fetched : Option JSValue) : Outcome :=
  match fetched with
  | some json =>
    { state := ensureKeys json,
      raised := if render (ensureKeys json) then render (ensureKeys json) else false }
  | none => { state := state, raised := render state }

/-- A stand-in for `render()` on a page that shows the category `animation`, the
one current at start: it throws exactly when `state.animation` is not an array
(`arr.length`) or holds a record that is `null` or `undefined` (`p.title`). -/
def renderThrowsOnNullRecord : RenderThrows := fun state =>
  match getProp state "animation".toList with
  | .arr items => items.any (fun p => match p with
      | .null => true
      | .undefined => true
      | _ => false)
  | _ => true

/-- A stand-in platform parser that accepts the text `{}` only. -/
def parseEmptyObjectOnly : JsonParse :=
  fun text => if text = "\x7b\x7d".toList then some (.obj []) else none

/-! ## The store as a JavaScript object -/

/-- Assignment `obj[k] = v` on the property list of an object: a key that is
present keeps its place, a new key goes to the end. -/
def setPropList (k : Str) (v : JSValue) : List (Str × JSValue) → List (Str × JSValue)
  | [] => [(k, v)]
  | (k1, v1) :: rest => if k1 = k then (k1, v) :: rest else (k1, v1) :: setPropList k v rest

/-- Expression `arr[i]` on an array: `undefined` past the end. -/
def arrayGet (arr : List JSValue) (i : Nat) : JSValue := arr.getD i .undefined

/-- Assignment `arr[i] = v` on an array: past the end the array grows, the
positions in between reading as `undefined`. -/
def arraySet (arr : List JSValue) (i : Nat) (v : JSValue) : List JSValue :=
  if i < arr.length then arr.set i v
  else arr ++ List.replicate (i - arr.length) .undefined ++ [v]

/-- The own enumerable properties an object spread `{...v}` copies: those of an
object; the elements of an array and the characters of a string under their
indices; none for `undefined`, `null`, booleans and numbers.  Properties are
listed in insertion order; that engines list integer-like keys first is not
modelled, no statement here depends on the order of the keys of a record. -/
def ownProps : JSValue → List (Str × JSValue)
  | .obj props => props
  | .arr items => items.enum.map (fun iv => (Nat.toDigits 10 iv.1, iv.2))
  | .str s => s.enum.map (fun ic => (Nat.toDigits 10 ic.1, JSValue.str [ic.2]))
  | _ => []

/-- Expression `{ ...old, ...patch }`. -/
def objectSpread (old patch : JSValue) : JSValue :=
  .obj ((ownProps old ++ ownProps patch).foldl (fun acc kv => setPropList kv.1 kv.2 acc) [])

/-- The body of `move` on the array `arr = state[cat]`: nothing when the target
index is out of range, else the destructuring swap
`[arr[idx], arr[ni]] = [arr[ni], arr[idx]]`. -/
def moveList (arr : List JSValue) (idx : Nat) (dir : Int) : List JSValue :=
  let ni : Int := (idx : Int) + dir
  if ni < 0 ∨ ni ≥ (arr.length : Int) then arr
  else
    let first := arrayGet arr ni.toNat
    let second := arrayGet arr idx
    arraySet (arraySet arr idx first) ni.toNat second

namespace Store

/-- The initial `state`, `structuredClone(DEFAULT_STATE)`: the four keys, each
with an empty array. -/
def initial : JSValue := .obj (categoryKeys.map (fun k => (k, JSValue.arr [])))

/-- An in-place change `f` of the array `state[cat]`.  The result is `none` when
`state` is not an object or `state[cat]` is not an array: what the operations
do then is not described here. -/
def modify (state : JSValue) (cat : Cat) (f : List JSValue → List JSValue) : Option JSValue :=
  match state with
  | .obj props =>
    match lookupProp cat.key props with
    | .arr items => some (.obj (setPropList cat.key (.arr (f items)) props))
    | _ => none
  | _ => none

/-- Step `state = ensureKeys(json)` of both load paths. -/
def load (json : JSValue) : JSValue := ensureKeys json

/-- Function `addProjects(cat, projects)` on the store object:
`state[cat].push(...projects)`. -/
def addProjects (state : JSValue) (cat : Cat) (projects : List JSValue) : Option JSValue :=
  modify state cat (fun items => items ++ projects)

/-- Function `move(cat, idx, dir)`. -/
def move (state : JSValue) (cat : Cat) (idx : Nat) (dir : Int) : Option JSValue :=
  modify state cat (fun items => moveList items idx dir)

/-- Function `remove(cat, idx)`: `state[cat].splice(idx, 1)`. -/
def remove (state : JSValue) (cat : Cat) (idx : Nat) : Option JSValue :=
  modify state cat (fun items => items.eraseIdx idx)

/-- Function `updateProject(cat, idx, patch)`:
`state[cat][idx] = { ...state[cat][idx], ...patch }`. -/
def updateProject (state : JSValue) (cat : Cat) (idx : Nat) (patch : JSValue) : Option JSValue :=
  modify state cat (fun items => arraySet items idx (objectSpread (arrayGet items idx) patch))

/-- The states of the importer: the initial store, and what `load`,
`addProjects`, `move`, `remove` and `updateProject` make of a state. -/
inductive Reachable : JSValue → Prop where
  | initial : Reachable initial
  | load (s json : JSValue) : Reachable s → Reachable (load json)
  | addProjects (s t : JSValue) (cat : Cat) (projects : List JSValue) :
      Reachable s → addProjects s cat projects = some t → Reachable t
  | move (s t : JSValue) (cat : Cat) (idx : Nat) (dir : Int) :
      Reachable s → move s cat idx dir = some t → Reachable t
  | remove (s t : JSValue) (cat : Cat) (idx : Nat) :
      Reachable s → remove s cat idx = some t → Reachable t
  | updateProject (s t : JSValue) (cat : Cat) (idx : Nat) (patch : JSValue) :
      Reachable s → updateProject s cat idx patch = some t → Reachable t

end Store

/-- The store object with the given four lists. -/
def storeOf (a c p d : List JSValue) : JSValue :=
  .obj [("animation".toList, .arr a), ("cad".toList, .arr c),
        ("prints".toList, .arr p), ("code".toList, .arr d)]

/-- The shape of the store: an object with exactly the keys `animation`, `cad`,
`prints`, `code`, in this order, each holding an array. -/
def CanonicalStore (s : JSValue) : Prop :=
  ∃ a c p d : List JSValue, s =
    .obj [("animation".toList, .arr a), ("cad".toList, .arr c),
          ("prints".toList, .arr p), ("code".toList, .arr d)]

/-- A schema-valid store: an object whose keys are the four category keys, each
once, in any order, each holding an array. -/
def SchemaValid (s : JSValue) : Prop :=
  s.keys.Nodup ∧ (∀ k, k ∈ s.keys ↔ k ∈ categoryKeys) ∧
  ∀ cat : Cat, ∃ items : List JSValue, getProp s cat.key = .arr items

/-! ## The importer's records as JavaScript objects -/

/-- A media descriptor as the object literal of `mediaFromFile`. -/
def MediaDescriptor.toJS (d : MediaDescriptor) : JSValue :=
  .obj ([("type".toList, .str d.type), ("src".toList, .str d.src)] ++
    match d.label with
    | some l => [("label".toList, JSValue.str l)]
    | none => [])

/-- The `media` field as a value: one descriptor object, or an array of them. -/
def Media.toJS : Media → JSValue
  | .single d => d.toJS
  | .gallery ds => .arr (ds.map MediaDescriptor.toJS)

/-- A project record as the object literal of `filesToProjects`. -/
def Project.toJS (p : Project) : JSValue :=
  .obj [("id".toList, .str p.id), ("title".toList, .str p.title),
        ("subtitle".toList, .str p.subtitle), ("year".toList, .str p.year),
        ("tools".toList, .arr (p.tools.map JSValue.str)),
        ("description".toList, .str p.description),
        ("links".toList, .arr (p.links.map (fun l =>
          JSValue.obj [("label".toList, .str l.1), ("url".toList, .str l.2)]))),
        ("media".toList, p.media.toJS)]

/-- A typed store as the store object. -/
def State.toJS (st : State) : JSValue :=
  .obj [("animation".toList, .arr (st.animation.map Project.toJS)),
        ("cad".toList, .arr (st.cad.map Project.toJS)),
        ("prints".toList, .arr (st.prints.map Project.toJS)),
        ("code".toList, .arr (st.code.map Project.toJS))]

/-! ## The viewer: media normalization and renderer dispatch -/

namespace Viewer

/-- Truthiness of a value: what `!v` negates. -/
def isTruthy : JSValue → Bool
  | .undefined => false
  | .null => false
  | .bool b => b
  | .num q => decide (q ≠ 0)
  | .str s => !s.isEmpty
  | .arr _ => true
  | .obj _ => true

/-- Test `v === text` against a string literal. -/
def isString (v : JSValue) (text : Str) : Bool :=
  match v with
  | .str s => decide (s = text)
  | _ => false

/-- The descriptor literal `{ type: "placeholder" }`. -/
def placeholderDescriptor : JSValue := .obj [("type".toList, .str "placeholder".toList)]

/-- Function `normalizeMedia(p)`.  The result is `none` when `p` is `undefined`
or `null`, where reading `p.media` throws. -/
def normalizeMedia (p : JSValue) : Option (List JSValue) :=
  match p with
  | .undefined => none
  | .null => none
  | _ =>
    let m := getProp p "media".toList
    if !isTruthy m then some [placeholderDescriptor]
    else
      match m with
      | .arr items => some items
      | _ => some [m]

/-- The first piece of `s.split(sep)`, the expression `s.split(sep)[0]`. -/
def firstPiece (sep : Char) (s : Str) : Str := ((splitChar sep s).head?).getD []

/-- Function `extFromSrc(src)` on a string. -/
def extFromSrc (U : LowerMap) (src : Str) : Str :=
  let clean := firstPiece '#' (firstPiece '?' src)
  let e := lastDotPiece clean
  toLowerCase U e

/-- The element builder `singleMediaEl` hands the descriptor to, with the
arguments it passes. -/
inductive Renderer where
  | placeholder
  | video (src : JSValue)
  | image (src : JSValue)
  | iframe (src : JSValue)
  | model (src : JSValue)
  | codeDemo (m : JSValue)
  | file (src : JSValue) (label : JSValue)

/-- Function `singleMediaEl(m, p)`: the builder it selects.  The result is `none`
when the inference branch calls `extFromSrc` on a truthy `src` that is not a
string, where `src.split` throws. -/
def singleMediaEl (U : LowerMap) (m : JSValue) : Option Renderer :=
  let type := getProp m "type".toList
  let src := getProp m "src".toList
  if !isTruthy m || isString type "placeholder".toList then some .placeholder
  else if isString type "video".toList && isTruthy src then some (.video src)
  else if isString type "image".toList && isTruthy src then some (.image src)
  else if isString type "iframe".toList && isTruthy src then some (.iframe src)
  else if isString type "model".toList && isTruthy src then some (.model src)
  else if isString type "code-demo".toList then some (.codeDemo m)
  else if isString type "file".toList && isTruthy src then
    some (.file src (if isTruthy (getProp m "label".toList) then getProp m "label".toList
                     else .str "file".toList))
  else if isTruthy src then
    match src with
    | .str s =>
      let e := extFromSrc U s
      if e ∈ ["mp4".toList, "webm".toList, "mov".toList] then some (.video src)
      else if e ∈ ["png".toList, "jpg".toList, "jpeg".toList, "webp".toList, "gif".toList] then
        some (.image src)
      else if e ∈ ["glb".toList, "gltf".toList, "stl".toList] then some (.model src)
      else some (.iframe src)
    | _ => none
  else some .placeholder

/-- The seven media types the dispatch names. -/
def knownTypes : List Str :=
  ["image".toList, "video".toList, "iframe".toList, "model".toList, "code-demo".toList,
   "file".toList, "placeholder".toList]

/-- The descriptor object `{ src }`, with no `type`. -/
def srcOnly (src : Str) : JSValue := .obj [("src".toList, .str src)]

/-- The descriptor object `{ type, src }`. -/
def typed (type src : Str) : JSValue := .obj [("type".toList, .str type), ("src".toList, .str src)]

/-- The builder of a kind of media, as the viewer infers it: `video`, `image` and
`model` have their own, everything else goes to the iframe. -/
def rendererOfKind (kind : Str) (src : JSValue) : Renderer :=
  if kind = "video".toList then .video src
  else if kind = "image".toList then .image src
  else if kind = "model".toList then .model src
  else .iframe src

end Viewer

/-- A descriptor of the importer with its `type` removed. -/
def MediaDescriptor.toJSWithoutType (d : MediaDescriptor) : JSValue :=
  .obj ([("src".toList, JSValue.str d.src)] ++
    match d.label with
    | some l => [("label".toList, JSValue.str l)]
    | none => [])

/-- The kind the extension lists give to a lower-cased extension: `video`,
`image` or `model`, and `file` for an extension in none of the three lists. -/
def kindOfExt (e : Str) : Str :=
  if e ∈ ["mp4".toList, "webm".toList, "mov".toList] then "video".toList
  else if e ∈ ["png".toList, "jpg".toList, "jpeg".toList, "webp".toList, "gif".toList] then
    "image".toList
  else if e ∈ ["glb".toList, "gltf".toList, "stl".toList] then "model".toList
  else "file".toList

/-- A file name as a reader of URLs sees it: what stands before its first `?`
or `#`. -/
def cutAtQueryOrHash (name : Str) : Str :=
  name.takeWhile (fun c => decide (c ≠ '?' ∧ c ≠ '#'))

/-- The kind of a file by the extension of its name as a reader of URLs sees it:
the extension lists applied to the lower-cased text after the last dot of the
name cut before `?` and `#`; `file` when the cut name has no dot. -/
def kindOfCutName (U : LowerMap) (name : Str) : Str :=
  if '.' ∈ cutAtQueryOrHash name then
    kindOfExt (toLowerCase U (lastDotPiece (cutAtQueryOrHash name)))
  else "file".toList

/-! ## The viewer: the current index -/

namespace Viewer

/-- Test `p.id === pid` of the initial `findIndex`; `pid` is
`url.searchParams.get("p")`, a string, or `null` (here `none`) when the URL has
no `p` parameter. -/
def idMatches (pid : Option Str) (p : JSValue) : Bool :=
  match pid with
  | some s => isString (getProp p "id".toList) s
  | none =>
    match getProp p "id".toList with
    | .null => true
    | _ => false

/-- Expression `projects.findIndex((p) => p.id === pid)`.  The outer `none` says
that reading `p.id` threw, on an element that is `undefined` or `null`; the
inner `none` is the result `-1`. -/
def findIndex (pid : Option Str) : List JSValue → Option (Option Nat)
  | [] => some none
  | p :: ps =>
    match p with
    | .undefined => none
    | .null => none
    | _ =>
      if idMatches pid p then some (some 0)
      else (findIndex pid ps).map (fun r => r.map (fun k => k + 1))

/-- The first value of `index`: the result of `findIndex`, with 0 in place of
`-1`. -/
def initialIndex (pid : Option Str) (projects : List JSValue) : Option Int :=
  (findIndex pid projects).map (fun r => ((r.getD 0 : Nat) : Int))

/-- The remainder `a % b` of JavaScript on integers: it has the sign of the
dividend. -/
def jsMod (a b : Int) : Int := Int.tmod a b

/-- Assignment `index = (index - 1 + projects.length) % projects.length`, for a
list of length `n`. -/
def prevIndex (n : Nat) (index : Int) : Int := jsMod (index - 1 + (n : Int)) (n : Int)

/-- Assignment `index = (index + 1) % projects.length`, for a list of length `n`. -/
def nextIndex (n : Nat) (index : Int) : Int := jsMod (index + 1) (n : Int)

/-- The events that change `index`: a click on the previous or the next arrow, a
click on button `i` of the carousel, a key press, and the end of a touch; `dx`
is the difference `endX - startX` the handler computes, `none` when `startX` is
`null`. -/
inductive NavEvent where
  | prevClick
  | nextClick
  | carouselClick (i : Nat)
  | keydown (key : Str)
  | touchend (dx : Option ℚ)

/-- An event the page can deliver: the carousel has one button per project. -/
def NavEvent.valid (n : Nat) : NavEvent → Prop
  | .carouselClick i => i < n
  | _ => True

/-- The value of `index` after an event, for a list of length `n`. -/
def step (n : Nat) (index : Int) : NavEvent → Int
  | .prevClick => prevIndex n index
  | .nextClick => nextIndex n index
  | .carouselClick i => (i : Int)
  | .keydown key =>
    let afterLeft := if key = "ArrowLeft".toList then prevIndex n index else index
    if key = "ArrowRight".toList then nextIndex n afterLeft else afterLeft
  | .touchend none => index
  | .touchend (some dx) =>
    if |dx| < 40 then index
    else if dx > 0 then prevIndex n index
    else nextIndex n index

/-- The value of `index` after a sequence of events. -/
def run (n : Nat) (index : Int) (events : List NavEvent) : Int :=
  events.foldl (step n) index

end Viewer

/-! ## Reference reading of the sequence-number search -/

/-- The text `q` is a sequence-number token at offset `j` of `text`: one to three
digits, not preceded and not followed by a word character. -/
def SeqTokenAt (text : Str) (j : Nat) (q : Str) : Prop :=
  ∃ (pre post : Str), text = pre ++ q ++ post ∧ pre.length = j ∧
    1 ≤ q.length ∧ q.length ≤ 3 ∧ (∀ c ∈ q, isDigit c = true) ∧
    (∀ p, pre.getLast? = some p → isWord p = false) ∧
    (∀ r, post.head? = some r → isWord r = false)

/-- The positions `i` and `j` of `text` lie in the same run of digits: every
position from the smaller to the larger holds a digit. -/
def SameDigitRun (text : Str) (i j : Nat) : Prop :=
  ∀ k, min i j ≤ k → k ≤ max i j → ∃ c, text[k]? = some c ∧ isDigit c = true

/-- The segments of a name from index 2 on, joined by a space: the text in which
`parseTemplate` searches the year and the sequence number. -/
def joinedRest (name : Str) : Str := List.intercalate [' '] ((templateParts name).drop 2)

/-! ## Reference reading of the slug -/

/-- Reference transformation, first half: every maximal run of characters
outside `a-z` and `0-9` is replaced by a single hyphen.  At a character outside
the class the whole run is skipped at once; `fuel` bounds the number of steps. -/
def referenceHyphenateFuel : Nat → Str → Str
  | 0, _ => []
  | _ + 1, [] => []
  | fuel + 1, c :: cs =>
    if isAlnum c then c :: referenceHyphenateFuel fuel cs
    else '-' :: referenceHyphenateFuel fuel (cs.dropWhile (fun d => !isAlnum d))

/-- Reference transformation, first half, with fuel for the whole text. -/
def referenceHyphenate (s : Str) : Str := referenceHyphenateFuel s.length s

/-- Reference transformation, second half: all leading and all trailing
hyphens are removed. -/
def referenceStripHyphens (s : Str) : Str :=
  ((s.dropWhile (fun c => decide (c = '-'))).reverse.dropWhile
    (fun c => decide (c = '-'))).reverse

/-- The reference transformation of the specification: runs of characters
outside `a-z0-9` collapsed to single hyphens, no leading or trailing hyphen. -/
def referenceSlug (s : Str) : Str := referenceStripHyphens (referenceHyphenate s)

/-- The name with its first four characters and the separators (hyphens,
underscores, spaces) that follow them removed. -/
def dropYearAndSeparators (name : Str) : Str :=
  (name.drop 4).dropWhile (fun c => decide (c = '-' ∨ c = '_' ∨ c = ' '))

/-! ## Reference reading of the grouping -/

/-- The number a decimal text denotes. -/
def decimalValue (ds : Str) : Nat := ds.foldl (fun v c => 10 * v + (c.toNat - 48)) 0

/-- The descriptors of the files of a batch that have the grouping key `k`, in
batch order. -/
def descriptorsOfKey (U : LowerMap) (cat : Cat) (files : List File) (k : Str) :
    List MediaDescriptor :=
  (files.filter (fun f => decide (groupKey U f = k))).map (fun f => mediaFromFile U f cat)

/-- The position at which the key `k` first appears in a list of keys (the
length of the list when it does not appear). -/
def firstIndex (k : Str) : List Str → Nat
  | [] => 0
  | x :: xs => if x = k then 0 else firstIndex k xs + 1

/-- What the first loop of `filesToProjects` maintains: after the files `fs`,
the map has one entry per key seen, in the order of first appearance, and each
entry holds the descriptors of the files of its key. -/
def GroupInv (U : LowerMap) (cat : Cat) (fs : List File) (m : GroupMap) : Prop :=
  (m.map (fun kg => kg.1)).Nodup ∧
  (∀ k, k ∈ m.map (fun kg => kg.1) ↔ k ∈ fs.map (groupKey U)) ∧
  (m.map (fun kg => kg.1)).Pairwise
    (fun a b => firstIndex a (fs.map (groupKey U)) < firstIndex b (fs.map (groupKey U))) ∧
  (∀ kg ∈ m, kg.2.idBase = kg.1 ∧ kg.2.items = descriptorsOfKey U cat fs kg.1)

/-! ## Reference reading of the year search -/

/-- The text `y` is a year token at offset `i` of `text`: four characters, `19`
or `20` followed by two digits, not preceded and not followed by a word
character. -/
def YearTokenAt (text : Str) (i : Nat) (y : Str) : Prop :=
  ∃ (pre post : Str) (a b c d : Char),
    text = pre ++ [a, b, c, d] ++ post ∧ pre.length = i ∧ y = [a, b, c, d] ∧
    ((a = '1' ∧ b = '9') ∨ (a = '2' ∧ b = '0')) ∧ isDigit c = true ∧ isDigit d = true ∧
    (∀ p, pre.getLast? = some p → isWord p = false) ∧
    (∀ q, post.head? = some q → isWord q = false)

/-- The text `y` is the first year token of `text`, or empty when `text` has
none. -/
def FirstYearToken (text : Str) (y : Str) : Prop :=
  (∃ i, YearTokenAt text i y ∧ ∀ j, j < i → ∀ z, ¬ YearTokenAt text j z) ∨
  (y = [] ∧ ∀ j z, ¬ YearTokenAt text j z)

/-- The name begins with `19` or `20` followed by two digits. -/
def StartsWithYear (name : Str) : Prop :=
  ∃ (a b c d : Char) (rest : Str), name = a :: b :: c :: d :: rest ∧
    ((a = '1' ∧ b = '9') ∨ (a = '2' ∧ b = '0')) ∧ isDigit c = true ∧ isDigit d = true

/-! ## JSON text: `JSON.stringify` and `JSON.parse` -/

/-- The platform's writing and reading of numbers.  `toText` is `Number::toString`
on a finite number, the text `JSON.stringify` writes for it; `value` is the
Number value `JSON.parse` gives to a number token, its decimal value rounded to
a double.  Both are floating-point functions of the platform and are given as
parameters; which texts are number tokens is the grammar `isJsonNumber`. -/
structure NumberFormat where
  toText : ℚ → Str
  value : Str → ℚ

/-- One hexadecimal digit, in lower case. -/
def hexDigit (n : Nat) : Char := Char.ofNat (if n < 10 then 48 + n else 87 + n)

/-- Escape `\uXXXX` of a code unit, as `UnicodeEscape` writes it. -/
def unicodeEscape (n : Nat) : Str :=
  ['\\', 'u', hexDigit (n / 4096 % 16), hexDigit (n / 256 % 16), hexDigit (n / 16 % 16),
   hexDigit (n % 16)]

/-- The characters `QuoteJSONString` writes with a one-letter escape, and the
letter: backspace, tab, line feed, form feed, carriage return, the double
quote and the backslash. -/
def shortEscape (c : Char) : Option Char :=
  if c.toNat = 8 then some 'b'
  else if c.toNat = 9 then some 't'
  else if c.toNat = 10 then some 'n'
  else if c.toNat = 12 then some 'f'
  else if c.toNat = 13 then some 'r'
  else if c = '"' then some '"'
  else if c = '\\' then some '\\'
  else none

/-- What `QuoteJSONString` writes for one character: a one-letter escape, the
escape `\u00XX` for the other characters below the space, the character itself
in all other cases. -/
def quoteChar (c : Char) : Str :=
  match shortEscape c with
  | some e => ['\\', e]
  | none => if c.toNat < 32 then unicodeEscape c.toNat else [c]

/-- The characters of a string between the quotes of `QuoteJSONString`. -/
def quoteChars : Str → Str
  | [] => []
  | c :: cs => quoteChar c ++ quoteChars cs

/-- Operation `QuoteJSONString(value)`. -/
def quoteJSONString (s : Str) : Str := '"' :: (quoteChars s ++ ['"'])

/-- The indentation of nesting depth `n / 2` under the gap of two spaces. -/
def indentation (n : Nat) : Str := List.replicate n ' '

/-- The texts `parts` joined with `sep` between them. -/
def joinWith (sep : Str) : List Str → Str
  | [] => []
  | [x] => x
  | x :: y :: rest => x ++ sep ++ joinWith sep (y :: rest)

/-- The text of an array or object from the texts of its elements or members,
at indentation `ind`: the brackets alone when there is none, else one part per
line, indented by two more spaces, with commas between them. -/
def wrapItems (lb rb : Char) (ind : Nat) (parts : List Str) : Str :=
  match parts with
  | [] => [lb, rb]
  | _ :: _ =>
    lb :: '\n' :: (indentation (ind + 2) ++
      (joinWith (',' :: '\n' :: indentation (ind + 2)) parts ++
        '\n' :: (indentation ind ++ [rb])))

/-- A property key that is an array index: the canonical decimal text of an
integer from 0 to 2^32 - 2. -/
def isArrayIndex (k : Str) : Bool :=
  !k.isEmpty && k.all isDigit && (decide (k = ['0']) || decide (k.head? ≠ some '0')) &&
  decide (decimalValue k < 4294967295)

/-- The order in which an object lists its own property keys: the array indices
in ascending order, then the other keys in the order they were created. -/
def jsOrder {α : Type} (props : List (Str × α)) : List (Str × α) :=
  (props.filter (fun kv => isArrayIndex kv.1)).insertionSort
      (fun a b => decimalValue a.1 ≤ decimalValue b.1) ++
    props.filter (fun kv => !isArrayIndex kv.1)

mutual
/-- Operation `SerializeJSONProperty` under the gap of two spaces, at
indentation `ind`; `none` is the result `undefined`. -/
def serializeJSONProperty (F : NumberFormat) (ind : Nat) : JSValue → Option Str
  | .undefined => none
  | .null => some "null".toList
  | .bool b => some (if b then "true".toList else "false".toList)
  | .num q => some (F.toText q)
  | .str s => some (quoteJSONString s)
  | .arr items => some (wrapItems '[' ']' ind (serializeElements F (ind + 2) items))
  | .obj props =>
    some (wrapItems '\x7b' '\x7d' ind
      ((jsOrder (serializeMembers F (ind + 2) props)).map
        (fun kt => quoteJSONString kt.1 ++ ':' :: ' ' :: kt.2)))
/-- The texts of the elements of an array: `null` for an element that is
`undefined`. -/
def serializeElements (F : NumberFormat) (ind : Nat) : List JSValue → List Str
  | [] => []
  | x :: xs =>
    (serializeJSONProperty F ind x).getD "null".toList :: serializeElements F ind xs
/-- The keys and texts of the members of an object: a property whose value is
`undefined` is left out. -/
def serializeMembers (F : NumberFormat) (ind : Nat) : List (Str × JSValue) → List (Str × Str)
  | [] => []
  | (k, v) :: rest =>
    match serializeJSONProperty F ind v with
    | none => serializeMembers F ind rest
    | some t => (k, t) :: serializeMembers F ind rest
end

/-- Call `JSON.stringify(value, null, 2)`; `none` is the result `undefined`. -/
def jsonStringify (F : NumberFormat) (value : JSValue) : Option Str :=
  serializeJSONProperty F 0 value

/-- The white space of JSON text: space, tab, line feed, carriage return. -/
def isJsonWhiteSpace (c : Char) : Bool :=
  decide (c = ' ') || decide (c.toNat = 9) || decide (c.toNat = 10) || decide (c.toNat = 13)

/-- The text after its leading white space. -/
def skipWhiteSpace (s : Str) : Str := s.dropWhile isJsonWhiteSpace

/-- The value of a hexadecimal digit, in either case. -/
def hexValue (c : Char) : Option Nat :=
  if isDigit c then some (c.toNat - 48)
  else if 97 ≤ c.toNat ∧ c.toNat ≤ 102 then some (c.toNat - 87)
  else if 65 ≤ c.toNat ∧ c.toNat ≤ 70 then some (c.toNat - 55)
  else none

/-- The code unit of the four hexadecimal digits of an escape `\uXXXX`. -/
def hexValue4 (a b c d : Char) : Option Nat :=
  match hexValue a, hexValue b, hexValue c, hexValue d with
  | some x, some y, some z, some w => some (4096 * x + 256 * y + 16 * z + w)
  | _, _, _, _ => none

/-- The character of a one-letter escape of a JSON string. -/
def unescape (e : Char) : Option Char :=
  if e = '"' then some '"'
  else if e = '\\' then some '\\'
  else if e = '/' then some '/'
  else if e = 'b' then some (Char.ofNat 8)
  else if e = 'f' then some (Char.ofNat 12)
  else if e = 'n' then some (Char.ofNat 10)
  else if e = 'r' then some (Char.ofNat 13)
  else if e = 't' then some (Char.ofNat 9)
  else none

/-- A character put in front of the string of a result. -/
def consChar (c : Char) (r : Option (Str × Str)) : Option (Str × Str) :=
  match r with
  | some (t, rest) => some (c :: t, rest)
  | none => none

/-- Four hexadecimal digits at the head of a text: their value and the text
after them. -/
def parseHex4 (s : Str) : Option (Nat × Str) :=
  match s with
  | a :: b :: c :: d :: rest =>
    match hexValue4 a b c d with
    | some n => some (n, rest)
    | none => none
  | _ => none

/-- An escape of a JSON string after its backslash: the character it denotes
and the text after it.  An escaped surrogate pair is one character.  An
escaped lone surrogate denotes a string that `Str` does not hold: the result
is `none` there as well. -/
def parseEscape (s : Str) : Option (Char × Str) :=
  match s with
  | [] => none
  | e :: rest =>
    if e = 'u' then
      match parseHex4 rest with
      | none => none
      | some (n, rest2) =>
        if n < 0xD800 ∨ 0xDFFF < n then some (Char.ofNat n, rest2)
        else if n ≤ 0xDBFF then
          match rest2 with
          | b :: u :: rest3 =>
            if b = '\\' ∧ u = 'u' then
              match parseHex4 rest3 with
              | some (m, rest4) =>
                if 0xDC00 ≤ m ∧ m ≤ 0xDFFF then
                  some (Char.ofNat (0x10000 + (n - 0xD800) * 0x400 + (m - 0xDC00)), rest4)
                else none
              | none => none
            else none
          | _ => none
        else none
    else
      match unescape e with
      | some ch => some (ch, rest)
      | none => none

/-- Worker of `parseStringChars`, one unit of `fuel` per character of the
string. -/
def parseStringCharsFuel : Nat → Str → Option (Str × Str)
  | 0, _ => none
  | _ + 1, [] => none
  | fuel + 1, c :: rest =>
    if c = '"' then some ([], rest)
    else if c = '\\' then
      match parseEscape rest with
      | some (ch, r) => consChar ch (parseStringCharsFuel fuel r)
      | none => none
    else if c.toNat < 32 then none
    else consChar c (parseStringCharsFuel fuel rest)

/-- The characters of a JSON string after its opening quote: the string they
denote and the text after the closing quote; `none` when the text is not a
JSON string. -/
def parseStringChars (s : Str) : Option (Str × Str) := parseStringCharsFuel s.length s

/-- The characters a number token is made of. -/
def isNumberChar (c : Char) : Bool :=
  isDigit c || decide (c = '-') || decide (c = '+') || decide (c = '.') || decide (c = 'e') ||
  decide (c = 'E')

/-- The text after one or more digits; `none` when the text starts with no
digit. -/
def afterDigits (s : Str) : Option Str :=
  if (s.takeWhile isDigit).isEmpty then none else some (s.dropWhile isDigit)

/-- The text after the integer part of a number: `0`, or digits that do not
start with `0`. -/
def afterIntegerPart (s : Str) : Option Str :=
  match s with
  | [] => none
  | c :: rest =>
    if c = '0' then some rest
    else if isDigit c then some (rest.dropWhile isDigit)
    else none

/-- The text after an optional fraction: a dot and one or more digits. -/
def afterFraction (s : Str) : Option Str :=
  match s with
  | c :: rest => if c = '.' then afterDigits rest else some s
  | [] => some s

/-- The text after an optional exponent: `e` or `E`, an optional sign, and one
or more digits. -/
def afterExponent (s : Str) : Option Str :=
  match s with
  | c :: rest =>
    if c = 'e' ∨ c = 'E' then
      match rest with
      | d :: rest2 => if d = '+' ∨ d = '-' then afterDigits rest2 else afterDigits rest
      | [] => none
    else some s
  | [] => some s

/-- The grammar of a JSON number: an optional minus, an integer part, an
optional fraction and an optional exponent. -/
def isJsonNumber (t : Str) : Bool :=
  let t1 := match t with
    | c :: rest => if c = '-' then rest else t
    | [] => t
  match afterIntegerPart t1 with
  | none => false
  | some r1 =>
    match afterFraction r1 with
    | none => false
    | some r2 =>
      match afterExponent r2 with
      | some [] => true
      | _ => false

/-- The text after the literal `lit`, when the text starts with it. -/
def matchLiteral : Str → Str → Option Str
  | [], s => some s
  | _ :: _, [] => none
  | p :: ps, c :: cs => if p = c then matchLiteral ps cs else none

/-- The object `JSON.parse` builds from the members of an object text, in text
order: a key that comes again overwrites the value and keeps its place, and
the keys are listed as an object lists them. -/
def objectOfMembers (members : List (Str × JSValue)) : JSValue :=
  .obj (jsOrder (members.foldl (fun acc kv => setPropList kv.1 kv.2 acc) []))

mutual
/-- A JSON value at the head of a text, after white space: the value and the
text after it; `none` when the text does not start with a JSON value, or the
`fuel`, one unit per nested call, runs out. -/
def parseValue (F : NumberFormat) : Nat → Str → Option (JSValue × Str)
  | 0, _ => none
  | fuel + 1, s =>
    match skipWhiteSpace s with
    | [] => none
    | c :: rest =>
      if c = '"' then
        match parseStringChars rest with
        | some (t, r) => some (.str t, r)
        | none => none
      else if c = '[' then
        match skipWhiteSpace rest with
        | d :: r =>
          if d = ']' then some (.arr [], r)
          else
            match parseElements F fuel rest with
            | some (items, r2) => some (.arr items, r2)
            | none => none
        | [] => none
      else if c = '\x7b' then
        match skipWhiteSpace rest with
        | d :: r =>
          if d = '\x7d' then some (.obj [], r)
          else
            match parseMembers F fuel rest with
            | some (members, r2) => some (objectOfMembers members, r2)
            | none => none
        | [] => none
      else if c = 't' then
        match matchLiteral "rue".toList rest with
        | some r => some (.bool true, r)
        | none => none
      else if c = 'f' then
        match matchLiteral "alse".toList rest with
        | some r => some (.bool false, r)
        | none => none
      else if c = 'n' then
        match matchLiteral "ull".toList rest with
        | some r => some (.null, r)
        | none => none
      else if c = '-' ∨ isDigit c = true then
        if isJsonNumber ((c :: rest).takeWhile isNumberChar) then
          some (.num (F.value ((c :: rest).takeWhile isNumberChar)),
                (c :: rest).dropWhile isNumberChar)
        else none
      else none
/-- The elements of an array text after the opening bracket, up to the closing
bracket: one or more values with commas between them. -/
def parseElements (F : NumberFormat) : Nat → Str → Option (List JSValue × Str)
  | 0, _ => none
  | fuel + 1, s =>
    match parseValue F fuel s with
    | none => none
    | some (v, r) =>
      match skipWhiteSpace r with
      | c :: r2 =>
        if c = ',' then
          match parseElements F fuel r2 with
          | some (vs, r3) => some (v :: vs, r3)
          | none => none
        else if c = ']' then some ([v], r2)
        else none
      | [] => none
/-- The members of an object text after the opening brace, up to the closing
brace: one or more pairs of a string, a colon and a value, with commas between
them. -/
def parseMembers (F : NumberFormat) : Nat → Str → Option (List (Str × JSValue) × Str)
  | 0, _ => none
  | fuel + 1, s =>
    match skipWhiteSpace s with
    | q :: r0 =>
      if q = '"' then
        match parseStringChars r0 with
        | none => none
        | some (k, r1) =>
          match skipWhiteSpace r1 with
          | colon :: r2 =>
            if colon = ':' then
              match parseValue F fuel r2 with
              | none => none
              | some (v, r3) =>
                match skipWhiteSpace r3 with
                | c :: r4 =>
                  if c = ',' then
                    match parseMembers F fuel r4 with
                    | some (ms, r5) => some ((k, v) :: ms, r5)
                    | none => none
                  else if c = '\x7d' then some ([(k, v)], r4)
                  else none
                | [] => none
            else none
          | [] => none
      else none
    | [] => none
end

/-- Call `JSON.parse(text)`: the value of the text, `none` when it throws a
`SyntaxError`.  The text is one JSON value between optional white space; a
text of `n` characters nests at most `n` values, so the fuel is enough. -/
def jsonParse (F : NumberFormat) : JsonParse := fun text =>
  match parseValue F (text.length + 1) text with
  | some (v, rest) => if skipWhiteSpace rest = [] then some v else none
  | none => none

/-- A stand-in number format, right on the integers: a whole number is written
in decimal digits, with a minus when negative, and such a text is read
back as its value. -/
def integerFormat : NumberFormat where
  toText := fun q =>
    if q.num < 0 then '-' :: Nat.toDigits 10 q.num.natAbs else Nat.toDigits 10 q.num.natAbs
  value := fun t =>
    match t with
    | c :: rest =>
      if c = '-' then -((decimalValue rest : Nat) : ℚ) else ((decimalValue t : Nat) : ℚ)
    | [] => 0

/-- A value `JSON.stringify` writes and `JSON.parse` reads back: `null`, a
boolean, a string, a number the platform reads back from the text it writes for
it, an array of such values, or an object with such values under distinct keys
that stand in the order an object lists them.  The value `undefined` is not
one: an array turns it into `null` and an object leaves the property out. -/
inductive JsonRepresentable (F : NumberFormat) : JSValue → Prop where
  | null : JsonRepresentable F .null
  | bool (b : Bool) : JsonRepresentable F (.bool b)
  | num (q : ℚ) : isJsonNumber (F.toText q) = true → F.value (F.toText q) = q →
      JsonRepresentable F (.num q)
  | str (s : Str) : JsonRepresentable F (.str s)
  | arr (items : List JSValue) : (∀ x ∈ items, JsonRepresentable F x) →
      JsonRepresentable F (.arr items)
  | obj (props : List (Str × JSValue)) : (props.map (fun kv => kv.1)).Nodup →
      jsOrder props = props → (∀ kv ∈ props, JsonRepresentable F kv.2) →
      JsonRepresentable F (.obj props)

/-- The text `JSON.stringify` writes for a value at an indentation; empty for
`undefined`. -/
def textOf (F : NumberFormat) (ind : Nat) (v : JSValue) : Str :=
  (serializeJSONProperty F ind v).getD []

/-- What may follow a number in a text: no character of a number token. -/
def NoNumberCharAhead (rest : Str) : Prop := ∀ c r, rest = c :: r → isNumberChar c = false

/-- A value whose text, at every indentation and before every continuation, is
read back as the value, the continuation left over. -/
def RoundTrips (F : NumberFormat) (v : JSValue) : Prop :=
  ∀ ind : Nat, serializeJSONProperty F ind v = some (textOf F ind v) ∧
    ∀ (rest : Str) (fuel : Nat), NoNumberCharAhead rest → (textOf F ind v).length ≤ fuel →
      parseValue F fuel (textOf F ind v ++ rest) = some (v, rest)

/-- The fuel the elements or members of the given texts take. -/
def cost (parts : List Str) : Nat := (parts.map (fun t => t.length + 1)).sum

/-- The text of a member of an object: the quoted key, a colon, a space and the
text of the value. -/
def memberText (F : NumberFormat) (ind : Nat) (kv : Str × JSValue) : Str :=
  quoteJSONString kv.1 ++ ':' :: ' ' :: textOf F ind kv.2

/-- The text `downloadJson` and `copyJson` export, `JSON.stringify(state, null, 2)`;
`none` is the result `undefined`, which a `state` that is an object never gives. -/
def downloadJsonData (F : NumberFormat) (state : JSValue) : Option Str := jsonStringify F state

/-- A store with one hand-written record in `animation`: a string with a quote, a
number, and an array of `null`, a boolean and a string with a line feed. -/
def exampleStore : JSValue :=
  storeOf
    [.obj [("id".toList, .str "a\"b".toList), ("year".toList, .num 2020),
           ("tags".toList, .arr [.null, .bool true, .str "x\ny".toList])]]
    [] [] []

/-- The text `JSON.stringify(exampleStore, null, 2)`. -/
def exampleStoreText : Str :=
  ("\x7b\n  \"animation\": [\n    \x7b\n      \"id\": \"a\\\"b\",\n      \"year\": 2020,\n" ++
   "      \"tags\": [\n        null,\n        true,\n        \"x\\ny\"\n      ]\n    \x7d\n  ],\n" ++
   "  \"cad\": [],\n  \"prints\": [],\n  \"code\": []\n\x7d").toList

/-! # Theorems -/

/-! ## slugify -/

theorem hyphenateFrom_chars (b : Bool) (s : Str) : ∀ c ∈ hyphenateFrom b s, SlugChar c := by
  induction s generalizing b with
  | nil => simp [hyphenateFrom]
  | cons a s ih =>
    intro c hc
    unfold hyphenateFrom at hc
    split_ifs at hc with h1 h2
    · rcases List.mem_cons.1 hc with rfl | hc
      · exact Or.inl h1
      · exact ih _ c hc
    · exact ih _ c hc
    · rcases List.mem_cons.1 hc with rfl | hc
      · exact Or.inr rfl
      · exact ih _ c hc

theorem squeezeFrom_subset (b : Bool) (s : Str) : ∀ c ∈ squeezeFrom b s, c ∈ s := by
  induction s generalizing b with
  | nil => simp [squeezeFrom]
  | cons a s ih =>
    intro c hc
    unfold squeezeFrom at hc
    split_ifs at hc with h1 h2
    · exact List.mem_cons_of_mem _ (ih _ c hc)
    · rcases List.mem_cons.1 hc with rfl | hc
      · simp [h1]
      · exact List.mem_cons_of_mem _ (ih _ c hc)
    · rcases List.mem_cons.1 hc with rfl | hc
      · simp
      · exact List.mem_cons_of_mem _ (ih _ c hc)

theorem squeezeFrom_noDouble (b : Bool) (s : Str) :
    NoDoubleHyphen (squeezeFrom b s) ∧ (b = true → (squeezeFrom b s).head? ≠ some '-') := by
  induction s generalizing b with
  | nil => simp [squeezeFrom, NoDoubleHyphen]
  | cons a s ih =>
    unfold squeezeFrom
    split_ifs with h1 h2
    · exact ⟨(ih true).1, fun _ => (ih true).2 rfl⟩
    · refine ⟨?_, fun hb => absurd hb h2⟩
      refine List.Chain'.cons' (ih true).1 ?_
      intro y hy
      have := (ih true).2 rfl
      rintro ⟨-, rfl⟩
      exact this (by simpa using hy)
    · refine ⟨?_, fun _ => by simpa using h1⟩
      refine List.Chain'.cons' (ih false).1 ?_
      intro y _
      rintro ⟨rfl, -⟩
      exact h1 rfl

theorem dropLast_getLast_ne_hyphen (l : Str) (h : NoDoubleHyphen l)
    (hl : l.getLast? = some '-') : l.dropLast.getLast? ≠ some '-' := by
  rcases List.eq_nil_or_concat l with rfl | ⟨l1, a, rfl⟩
  · simp
  · have hl1 : a = '-' := by simpa [Option.or] using hl
    subst hl1
    rw [List.concat_eq_append, List.dropLast_concat]
    rcases List.eq_nil_or_concat l1 with rfl | ⟨l2, b, rfl⟩
    · simp
    · intro hb
      have hb1 : b = '-' := by simpa [Option.or] using hb
      subst hb1
      have h2 : NoDoubleHyphen (l2 ++ ['-', '-']) := by
        simpa [List.concat_eq_append, List.append_assoc] using h
      have h3 := (List.chain'_append.1 h2).2.1
      simp at h3

theorem stripEdgeHyphens_shape (s : Str) (hs : NoDoubleHyphen s) :
    (stripEdgeHyphens s).head? ≠ some '-' ∧ (stripEdgeHyphens s).getLast? ≠ some '-' ∧
    ∀ c ∈ stripEdgeHyphens s, c ∈ s := by
  have key : ∀ t : Str, NoDoubleHyphen t → t.head? ≠ some '-' →
      ((if t.getLast? = some '-' then t.dropLast else t).head? ≠ some '-' ∧
       (if t.getLast? = some '-' then t.dropLast else t).getLast? ≠ some '-' ∧
       ∀ c ∈ (if t.getLast? = some '-' then t.dropLast else t), c ∈ t) := by
    intro t ht hh
    split_ifs with h
    · refine ⟨?_, dropLast_getLast_ne_hyphen t ht h, fun c hc => List.mem_of_mem_dropLast hc⟩
      match t, hh with
      | [], _ => simp
      | [a], _ => simp
      | a :: b :: l, hh => simpa using hh
    · exact ⟨hh, h, fun c hc => hc⟩
  unfold stripEdgeHyphens
  simp only
  by_cases h0 : s.head? = some '-'
  · rw [if_pos h0]
    match s, h0, hs with
    | a :: l, h0, hs =>
      have ha : a = '-' := by simpa using h0
      subst ha
      have hl : NoDoubleHyphen l := List.Chain'.tail hs
      have hh : l.head? ≠ some '-' := by
        intro hx
        match l, hx, hs with
        | b :: l2, hx, hs =>
          have hb : b = '-' := by simpa using hx
          subst hb
          have := List.chain'_cons.1 hs
          simp at this
      obtain ⟨k1, k2, k3⟩ := key l hl hh
      exact ⟨k1, k2, fun c hc => List.mem_cons_of_mem _ (k3 c hc)⟩
  · rw [if_neg h0]
    exact key s hs h0

theorem stripEdgeHyphens_noDouble (s : Str) (hs : NoDoubleHyphen s) :
    NoDoubleHyphen (stripEdgeHyphens s) := by
  have key : ∀ t : Str, NoDoubleHyphen t →
      NoDoubleHyphen (if t.getLast? = some '-' then t.dropLast else t) := by
    intro t ht
    split_ifs
    · exact List.Chain'.infix ht ( List.dropLast_prefix t).isInfix
    · exact ht
  unfold stripEdgeHyphens
  simp only
  split_ifs
  · exact List.Chain'.infix (List.Chain'.tail hs) ( List.dropLast_prefix _).isInfix
  · exact List.Chain'.tail hs
  · exact List.Chain'.infix hs ( List.dropLast_prefix _).isInfix
  · exact hs

theorem slugify_slugShaped (U : LowerMap) (s : Str) :
    SlugShaped (slugify U s) ∧ NoDoubleHyphen (slugify U s) := by
  unfold slugify
  set t := hyphenateRuns (stripAlnumExt (trim (toLowerCase U s))) with ht
  have h1 : ∀ c ∈ squeezeHyphens t, SlugChar c := fun c hc =>
    hyphenateFrom_chars false _ c (squeezeFrom_subset false t c hc)
  have h2 : NoDoubleHyphen (squeezeHyphens t) := (squeezeFrom_noDouble false t).1
  obtain ⟨k1, k2, k3⟩ := stripEdgeHyphens_shape _ h2
  exact ⟨⟨fun c hc => h1 c (k3 c hc), k1, k2⟩, stripEdgeHyphens_noDouble _ h2⟩

theorem slugChar_bounds {c : Char} (h : SlugChar c) :
    c.toNat < 128 ∧ isUpperAZ c = false ∧ isWhiteSpace c = false ∧ c ≠ '.' := by
  rcases h with h | rfl
  · simp only [isAlnum, isLowerAZ, isDigit, Bool.or_eq_true, Bool.and_eq_true,
      decide_eq_true_eq] at h
    refine ⟨by omega, ?_, ?_, ?_⟩
    · simp only [isUpperAZ, Bool.and_eq_false_iff, decide_eq_false_iff_not]
      omega
    · simp only [isWhiteSpace, Bool.or_eq_false_iff, decide_eq_false_iff_not]
      omega
    · rintro rfl
      revert h
      decide
  · decide

theorem lowerFrom_slug (U : LowerMap) (w : Str) (i : Nat) (s : Str)
    (h : ∀ c ∈ s, SlugChar c) : lowerFrom U w i s = s := by
  induction s generalizing i with
  | nil => rfl
  | cons a s ih =>
    have ha := slugChar_bounds (h a (List.mem_cons_self _ _))
    unfold lowerFrom
    rw [if_pos ha.1, ih _ (fun c hc => h c (List.mem_cons_of_mem _ hc))]
    simp [asciiLower, ha.2.1]

theorem trim_slug (s : Str) (h : ∀ c ∈ s, SlugChar c) : trim s = s := by
  have key : ∀ l : Str, (∀ c ∈ l, SlugChar c) → l.dropWhile isWhiteSpace = l := by
    intro l hl
    cases l with
    | nil => rfl
    | cons a l =>
      have := (slugChar_bounds (hl a (List.mem_cons_self _ _))).2.2.1
      simp [List.dropWhile, this]
  unfold trim
  rw [key s h, key s.reverse (fun c hc => h c (List.mem_reverse.1 hc)), List.reverse_reverse]

theorem stripAlnumExt_slug (s : Str) (h : ∀ c ∈ s, SlugChar c) : stripAlnumExt s = s := by
  induction s with
  | nil => rfl
  | cons a s ih =>
    have ha := (slugChar_bounds (h a (List.mem_cons_self _ _))).2.2.2
    unfold stripAlnumExt
    rw [if_neg (fun hx => ha hx.1), ih (fun c hc => h c (List.mem_cons_of_mem _ hc))]

theorem hyphenateFrom_slug (b : Bool) (s : Str) (h : ∀ c ∈ s, SlugChar c)
    (hd : NoDoubleHyphen s) (hb : b = true → s.head? ≠ some '-') :
    hyphenateFrom b s = s := by
  induction s generalizing b with
  | nil => rfl
  | cons a s ih =>
    have hs : ∀ c ∈ s, SlugChar c := fun c hc => h c (List.mem_cons_of_mem _ hc)
    have hds : NoDoubleHyphen s := List.Chain'.tail hd
    unfold hyphenateFrom
    by_cases h1 : isAlnum a = true
    · rw [if_pos h1, ih false hs hds (by simp)]
    · have ha : a = '-' := (h a (List.mem_cons_self _ _)).resolve_left h1
      subst ha
      have hbf : b = false := by
        cases b
        · rfl
        · exact absurd (by simp) (hb rfl)
      subst hbf
      rw [if_neg h1, if_neg (by simp), ih true hs hds]
      intro _ hx
      match s, hx, hd with
      | c :: l, hx, hd =>
        have hc : c = '-' := by simpa using hx
        subst hc
        have := List.chain'_cons.1 hd
        simp at this

theorem squeezeFrom_slug (b : Bool) (s : Str)
    (hd : NoDoubleHyphen s) (hb : b = true → s.head? ≠ some '-') :
    squeezeFrom b s = s := by
  induction s generalizing b with
  | nil => rfl
  | cons a s ih =>
    have hds : NoDoubleHyphen s := List.Chain'.tail hd
    unfold squeezeFrom
    by_cases h1 : a = '-'
    · subst h1
      have hbf : b = false := by
        cases b
        · rfl
        · exact absurd (by simp) (hb rfl)
      subst hbf
      rw [if_pos rfl, if_neg (by simp), ih true hds]
      intro _ hx
      match s, hx, hd with
      | c :: l, hx, hd =>
        have hc : c = '-' := by simpa using hx
        subst hc
        have := List.chain'_cons.1 hd
        simp at this
    · rw [if_neg h1, ih false hds (by simp)]

theorem stripEdgeHyphens_slug (s : Str) (h1 : s.head? ≠ some '-')
    (h2 : s.getLast? ≠ some '-') : stripEdgeHyphens s = s := by
  unfold stripEdgeHyphens
  simp only [if_neg h1, if_neg h2]

theorem slugify_of_slugShaped (U : LowerMap) (s : Str) (h : SlugShaped s)
    (hd : NoDoubleHyphen s) : slugify U s = s := by
  unfold slugify toLowerCase hyphenateRuns squeezeHyphens
  rw [lowerFrom_slug U s 0 s h.1, trim_slug s h.1, stripAlnumExt_slug s h.1,
    hyphenateFrom_slug false s h.1 hd (by simp), squeezeFrom_slug false s hd (by simp),
    stripEdgeHyphens_slug s h.2.1 h.2.2]

/-- C1: `slugify` is idempotent: slugifying a slug gives it back, whatever the
platform's lower-casing of non-ASCII characters is. -/
theorem slugify_idempotent (U : LowerMap) (s : Str) :
    slugify U (slugify U s) = slugify U s :=
  slugify_of_slugShaped U _ (slugify_slugShaped U s).1 (slugify_slugShaped U s).2

/-- C2: `slugify` is total and slug-shaped: for every argument, a string or a
missing one, the result holds only characters of `a-z`, `0-9` and the hyphen,
and has no hyphen at its start or its end. -/
theorem slugify_total_shape (U : LowerMap) (s : Option Str) :
    (∀ c ∈ slugifyArg U s, isLowerAZ c = true ∨ isDigit c = true ∨ c = '-') ∧
    (slugifyArg U s).head? ≠ some '-' ∧ (slugifyArg U s).getLast? ≠ some '-' := by
  obtain ⟨⟨h1, h2, h3⟩, -⟩ := slugify_slugShaped U (s.getD [])
  refine ⟨fun c hc => ?_, h2, h3⟩
  rcases h1 c hc with h | h
  · simp only [isAlnum, Bool.or_eq_true] at h
    rcases h with h | h
    · exact Or.inl h
    · exact Or.inr (Or.inl h)
  · exact Or.inr (Or.inr h)

/-! ## Splitting -/

theorem splitCharFrom_ne_nil (sep : Char) (acc s : Str) : splitCharFrom sep acc s ≠ [] := by
  induction s generalizing acc with
  | nil => simp [splitCharFrom]
  | cons c cs ih =>
    unfold splitCharFrom
    split_ifs
    · simp
    · exact ih _

theorem intercalate_splitCharFrom (sep : Char) (acc s : Str) :
    List.intercalate [sep] (splitCharFrom sep acc s) = acc.reverse ++ s := by
  induction s generalizing acc with
  | nil => simp [splitCharFrom, List.intercalate]
  | cons c cs ih =>
    unfold splitCharFrom
    split_ifs with h
    · subst h
      have h2 := ih []
      obtain ⟨x, xs, hx⟩ := List.exists_cons_of_ne_nil (splitCharFrom_ne_nil c [] cs)
      rw [hx] at h2 ⊢
      simp only [List.intercalate, List.intersperse, List.flatten_cons, List.reverse_nil,
        List.nil_append, List.singleton_append] at h2 ⊢
      rw [h2]
    · rw [ih]
      simp

theorem splitDunderFrom_ne_nil (acc s : Str) : splitDunderFrom acc s ≠ [] := by
  induction acc, s using splitDunderFrom.induct with
  | case1 acc => simp [splitDunderFrom]
  | case2 acc c => simp [splitDunderFrom]
  | case3 acc c d rest h ih => simp [splitDunderFrom, h]
  | case4 acc c d rest h ih => simp only [splitDunderFrom, if_neg h]; exact ih

theorem intercalate_splitDunderFrom (acc s : Str) :
    List.intercalate ['_', '_'] (splitDunderFrom acc s) = acc.reverse ++ s := by
  induction acc, s using splitDunderFrom.induct with
  | case1 acc => simp [splitDunderFrom, List.intercalate]
  | case2 acc c => simp [splitDunderFrom, List.intercalate]
  | case3 acc c d rest h ih =>
    obtain ⟨rfl, rfl⟩ := h
    obtain ⟨x, xs, hx⟩ := List.exists_cons_of_ne_nil (splitDunderFrom_ne_nil [] rest)
    simp only [splitDunderFrom, and_self, if_true]
    rw [hx] at ih ⊢
    simp only [List.intercalate, List.intersperse, List.flatten_cons, List.reverse_nil,
      List.nil_append] at ih ⊢
    rw [ih]
    simp
  | case4 acc c d rest h ih =>
    simp only [splitDunderFrom, if_neg h]
    rw [ih]
    simp
theorem splitCharFrom_no_sep (sep : Char) (acc s : Str) (hacc : sep ∉ acc) :
    ∀ p ∈ splitCharFrom sep acc s, sep ∉ p := by
  induction s generalizing acc with
  | nil =>
    intro p hp
    simp only [splitCharFrom, List.mem_singleton] at hp
    subst hp
    simpa using hacc
  | cons c cs ih =>
    intro p hp
    unfold splitCharFrom at hp
    split_ifs at hp with h
    · rcases List.mem_cons.1 hp with rfl | hp
      · simpa using hacc
      · exact ih [] (by simp) p hp
    · refine ih (c :: acc) ?_ p hp
      intro hm
      rcases List.mem_cons.1 hm with hm | hm
      · exact h hm.symm
      · exact hacc hm

/-- The pieces of `s.split(sep)` joined by `sep` give `s` back, and no piece
holds `sep`. -/
theorem splitChar_spec (sep : Char) (s : Str) :
    List.intercalate [sep] (splitChar sep s) = s ∧ ∀ p ∈ splitChar sep s, sep ∉ p :=
  ⟨by simpa using intercalate_splitCharFrom sep [] s, splitCharFrom_no_sep sep [] s (by simp)⟩

/-- The pieces of `s.split("__")` joined by `__` give `s` back. -/
theorem splitDunder_spec (s : Str) : List.intercalate ['_', '_'] (splitDunder s) = s := by
  simpa using intercalate_splitDunderFrom [] s

/-! ## parseTemplate -/

theorem templateParts_ne_nil (name : Str) : ∀ p ∈ templateParts name, p ≠ [] := by
  intro p hp
  unfold templateParts trimmedNonEmpty at hp
  have := (List.mem_filter.1 hp).2
  intro h
  subst h
  simp at this

theorem yearPrefix_eq_some (s y : Str) :
    yearPrefix s = some y ↔ ∃ (a b c d : Char) (rest : Str), s = a :: b :: c :: d :: rest ∧
      y = [a, b, c, d] ∧ ((a = '1' ∧ b = '9') ∨ (a = '2' ∧ b = '0')) ∧
      isDigit c = true ∧ isDigit d = true := by
  constructor
  · intro h
    match s, h with
    | a :: b :: c :: d :: rest, h =>
      simp only [yearPrefix] at h
      split_ifs at h with hc
      exact ⟨a, b, c, d, rest, rfl, (Option.some.inj h).symm, hc.1, hc.2.1, hc.2.2⟩
    | [], h => simp [yearPrefix] at h
    | [_], h => simp [yearPrefix] at h
    | [_, _], h => simp [yearPrefix] at h
    | [_, _, _], h => simp [yearPrefix] at h
  · rintro ⟨a, b, c, d, rest, rfl, rfl, h1, h2, h3⟩
    simp only [yearPrefix]
    rw [if_pos ⟨h1, h2, h3⟩]

theorem isWord_of_isDigit {c : Char} (h : isDigit c = true) : isWord c = true := by
  simp [isWord, isAlnumI, h]

theorem yearAt_eq_some (prev : Option Char) (s y : Str) :
    yearAt prev s = some y ↔ ∃ (a b c d : Char) (post : Str), s = a :: b :: c :: d :: post ∧
      y = [a, b, c, d] ∧ ((a = '1' ∧ b = '9') ∨ (a = '2' ∧ b = '0')) ∧
      isDigit c = true ∧ isDigit d = true ∧
      (∀ p, prev = some p → isWord p = false) ∧
      (∀ q, post.head? = some q → isWord q = false) := by
  have hw : ∀ a b : Char, ((a = '1' ∧ b = '9') ∨ (a = '2' ∧ b = '0')) → isWord a = true := by
    rintro a b (⟨rfl, -⟩ | ⟨rfl, -⟩) <;> decide
  have hany : ∀ o : Option Char, (o.any isWord = false) ↔ ∀ p, o = some p → isWord p = false := by
    intro o
    cases o <;> simp [Option.any]
  constructor
  · intro h
    unfold yearAt at h
    cases hp : yearPrefix s with
    | none => simp [hp] at h
    | some y1 =>
      obtain ⟨a, b, c, d, rest, rfl, rfl, h1, h2, h3⟩ := (yearPrefix_eq_some s y1).1 hp
      simp only [hp] at h
      split_ifs at h with hb
      have hy := (Option.some.inj h).symm
      refine ⟨a, b, c, d, rest, rfl, hy, h1, h2, h3, ?_, ?_⟩
      · rw [← hany]
        simp only [wordBoundary, List.head?_cons, Option.any, hw a b h1, Bool.and_eq_true,
          bne_iff_ne, ne_eq] at hb
        simpa using hb.1
      · rw [← hany]
        simp only [wordBoundary, List.getLast?, List.getLast, List.drop_succ_cons, List.drop_zero,
          Option.any, isWord_of_isDigit h3, Bool.and_eq_true, bne_iff_ne, ne_eq] at hb
        have := hb.2
        cases hq : Option.any isWord rest.head? with
        | false => rfl
        | true => simp [Option.any] at hq; simp [Option.any, hq] at this
  · rintro ⟨a, b, c, d, post, rfl, rfl, h1, h2, h3, h4, h5⟩
    have hp : yearPrefix (a :: b :: c :: d :: post) = some [a, b, c, d] :=
      (yearPrefix_eq_some _ _).2 ⟨a, b, c, d, post, rfl, rfl, h1, h2, h3⟩
    unfold yearAt
    simp only [hp]
    rw [if_pos]
    have e1 := (hany prev).2 h4
    have e2 := (hany post.head?).2 h5
    simp only [wordBoundary, List.head?_cons, List.getLast?, List.getLast, List.drop_succ_cons,
      List.drop_zero, Bool.and_eq_true, bne_iff_ne, ne_eq]
    rw [e1, e2]
    simp [Option.any, hw a b h1, isWord_of_isDigit h3]

theorem findYearFrom_spec (pre s : Str) :
    (∀ y, findYearFrom pre.getLast? s = some y →
      ∃ k, yearAt (pre ++ s.take k).getLast? (s.drop k) = some y ∧
        ∀ j, j < k → yearAt (pre ++ s.take j).getLast? (s.drop j) = none) ∧
    (findYearFrom pre.getLast? s = none →
      ∀ j, yearAt (pre ++ s.take j).getLast? (s.drop j) = none) := by
  induction s generalizing pre with
  | nil =>
    refine ⟨fun y h => by simp [findYearFrom] at h, fun _ j => ?_⟩
    simp [yearAt, yearPrefix]
  | cons c cs ih =>
    have hpre : (pre ++ [c]).getLast? = some c := by simp
    have hstep : ∀ j, yearAt (pre ++ (c :: cs).take (j + 1)).getLast? ((c :: cs).drop (j + 1)) =
        yearAt ((pre ++ [c]) ++ cs.take j).getLast? (cs.drop j) := by
      intro j
      simp
    cases hy : yearAt pre.getLast? (c :: cs) with
    | some y0 =>
      refine ⟨fun y h => ?_, fun h => ?_⟩
      · simp only [findYearFrom, hy] at h
        refine ⟨0, ?_, fun j hj => absurd hj (Nat.not_lt_zero j)⟩
        simpa [← Option.some.inj h] using hy
      · simp [findYearFrom, hy] at h
    | none =>
      have hrec : findYearFrom pre.getLast? (c :: cs) = findYearFrom (pre ++ [c]).getLast? cs := by
        simp only [findYearFrom, hy, hpre]
      refine ⟨fun y h => ?_, fun h => ?_⟩
      · rw [hrec] at h
        obtain ⟨k, hk1, hk2⟩ := (ih (pre ++ [c])).1 y h
        refine ⟨k + 1, by rw [hstep]; exact hk1, fun j hj => ?_⟩
        cases j with
        | zero => simpa using hy
        | succ j => rw [hstep]; exact hk2 j (Nat.lt_of_succ_lt_succ hj)
      · rw [hrec] at h
        intro j
        cases j with
        | zero => simpa using hy
        | succ j => rw [hstep]; exact (ih (pre ++ [c])).2 h j

theorem yearTokenAt_iff (text : Str) (i : Nat) (y : Str) :
    YearTokenAt text i y ↔ i ≤ text.length ∧ yearAt (text.take i).getLast? (text.drop i) = some y := by
  constructor
  · rintro ⟨pre, post, a, b, c, d, rfl, rfl, rfl, h1, h2, h3, h4, h5⟩
    refine ⟨by simp, ?_⟩
    rw [yearAt_eq_some]
    refine ⟨a, b, c, d, post, ?_, rfl, h1, h2, h3, ?_, h5⟩
    · simp
    · simpa using h4
  · rintro ⟨hi, h⟩
    obtain ⟨a, b, c, d, post, hs, rfl, h1, h2, h3, h4, h5⟩ := (yearAt_eq_some _ _ _).1 h
    refine ⟨text.take i, post, a, b, c, d, ?_, by simp [hi], rfl, h1, h2, h3, h4, h5⟩
    conv_lhs => rw [← List.take_append_drop i text, hs]
    simp

theorem matchYear_firstYearToken (text : Str) :
    FirstYearToken text ((matchYear text).getD []) := by
  have hspec := findYearFrom_spec [] text
  simp only [List.getLast?_nil, List.nil_append] at hspec
  have hnone : ∀ j, text.length < j → ∀ z, ¬ YearTokenAt text j z := by
    intro j hj z hz
    have := ((yearTokenAt_iff text j z).1 hz).1
    omega
  cases hm : matchYear text with
  | some y =>
    left
    obtain ⟨k, hk1, hk2⟩ := hspec.1 y hm
    have hkl : k ≤ text.length := by
      by_contra hlt
      rw [List.drop_of_length_le (by omega)] at hk1
      simp [yearAt, yearPrefix] at hk1
    refine ⟨k, (yearTokenAt_iff text k y).2 ⟨hkl, hk1⟩, fun j hj z hz => ?_⟩
    have := ((yearTokenAt_iff text j z).1 hz).2
    rw [hk2 j hj] at this
    exact Option.noConfusion this
  | none =>
    right
    refine ⟨rfl, fun j z hz => ?_⟩
    have := ((yearTokenAt_iff text j z).1 hz).2
    rw [hspec.2 hm j] at this
    exact Option.noConfusion this

/-- C3: template path of `parseTemplate`.  When the name has the trimmed
non-empty `__` segments `p0, p1, rest...` (two or more), the result has
`hasTemplate = true`, `slug = slugify p0`, `title = p1`, `tags` the trimmed
non-empty comma pieces of segment 2 (none when there is no segment 2), and
`year` the first year token of the segments from index 2 on joined by a space
(empty when there is none). -/
theorem parseTemplate_template_path (U : LowerMap) (name p0 p1 : Str) (rest : List Str)
    (h : templateParts name = p0 :: p1 :: rest) :
    (parseTemplate U name).hasTemplate = true ∧
    (parseTemplate U name).slug = slugify U p0 ∧
    (parseTemplate U name).title = p1 ∧
    (parseTemplate U name).tags =
      (match rest with
       | [] => []
       | p2 :: _ => ((splitChar ',' p2).map trim).filter (fun t => decide (t ≠ []))) ∧
    FirstYearToken (List.intercalate [' '] rest) (parseTemplate U name).year := by
  have hp1 : p1 ≠ [] := templateParts_ne_nil name p1 (by rw [h]; simp)
  simp only [parseTemplate, h, if_pos hp1, true_and]
  refine ⟨?_, matchYear_firstYearToken _⟩
  have hf : (fun t : Str => decide (t ≠ [])) = (fun p : Str => !p.isEmpty) := by
    funext t
    cases t <;> rfl
  cases rest with
  | nil => simp only [hf]; decide
  | cons p2 tl => simp only [hf]; rfl

/-- Witness for C3, the example of the specification:
`proj__My Title__a,b__2024`. -/
theorem parseTemplate_template_path_witness :
    parseTemplate keepNonAscii "proj__My Title__a,b__2024".toList =
      { slug := "proj".toList, title := "My Title".toList, tags := ["a".toList, "b".toList],
        year := "2024".toList, seq := [], hasTemplate := true } ∧
    templateParts "proj__My Title__a,b__2024".toList =
      ["proj".toList, "My Title".toList, "a,b".toList, "2024".toList] ∧
    FirstYearToken "a,b 2024".toList
      (parseTemplate keepNonAscii "proj__My Title__a,b__2024".toList).year :=
  ⟨by decide, by decide,
    (parseTemplate_template_path keepNonAscii "proj__My Title__a,b__2024".toList
      "proj".toList "My Title".toList ["a,b".toList, "2024".toList] (by decide)).2.2.2.2⟩

theorem parseTemplate_of_short (U : LowerMap) (name : Str)
    (h : (templateParts name).length < 2) :
    parseTemplate U name =
      { slug := if slugify U (stripLeadingYear name) ≠ [] then slugify U (stripLeadingYear name)
                else slugify U name,
        title := titleize name, tags := [], year := (yearPrefix name).getD [], seq := [],
        hasTemplate := false } := by
  unfold parseTemplate
  match hparts : templateParts name, h with
  | [], _ => rfl
  | [_], _ => rfl
  | _ :: _ :: _, h => exact absurd h (by simp)

/-- C4: fallback path of `parseTemplate`.  When the name has fewer than two
trimmed non-empty `__` segments, the result has `hasTemplate = false`, no tags,
an empty `seq`, and `year` is the first four characters of the name when the
name begins with `19` or `20` followed by two digits, the empty text
otherwise. -/
theorem parseTemplate_fallback_path (U : LowerMap) (name : Str)
    (h : (templateParts name).length < 2) :
    (parseTemplate U name).hasTemplate = false ∧
    (parseTemplate U name).tags = [] ∧
    (parseTemplate U name).seq = [] ∧
    (StartsWithYear name → (parseTemplate U name).year = name.take 4) ∧
    (¬ StartsWithYear name → (parseTemplate U name).year = []) := by
  rw [parseTemplate_of_short U name h]
  refine ⟨rfl, rfl, rfl, ?_, ?_⟩
  · rintro ⟨a, b, c, d, rest, rfl, h1, h2, h3⟩
    have := (yearPrefix_eq_some (a :: b :: c :: d :: rest) [a, b, c, d]).2
      ⟨a, b, c, d, rest, rfl, rfl, h1, h2, h3⟩
    simp [this]
  · intro hn
    cases hp : yearPrefix name with
    | none => rfl
    | some y =>
      obtain ⟨a, b, c, d, rest, hs, -, h1, h2, h3⟩ := (yearPrefix_eq_some name y).1 hp
      exact absurd ⟨a, b, c, d, rest, hs, h1, h2, h3⟩ hn

/-- Witness for C4, the example of the specification: `2023-my-thing`. -/
theorem parseTemplate_fallback_path_witness :
    (templateParts "2023-my-thing".toList).length < 2 ∧
    (parseTemplate keepNonAscii "2023-my-thing".toList).slug = "my-thing".toList ∧
    (parseTemplate keepNonAscii "2023-my-thing".toList).year = "2023".toList ∧
    (parseTemplate keepNonAscii "2023-my-thing".toList).hasTemplate = false ∧
    (parseTemplate keepNonAscii "2023-my-thing".toList).tags = [] ∧
    (parseTemplate keepNonAscii "2023-my-thing".toList).seq = [] :=
  ⟨by decide, by decide, by decide,
    (parseTemplate_fallback_path keepNonAscii "2023-my-thing".toList (by decide)).1,
    (parseTemplate_fallback_path keepNonAscii "2023-my-thing".toList (by decide)).2.1,
    (parseTemplate_fallback_path keepNonAscii "2023-my-thing".toList (by decide)).2.2.1⟩

/-! ## uniqueId -/

theorem digitChar_value : ∀ m, m < 10 → (Nat.digitChar m).toNat - 48 = m := by decide

theorem toDigitsCore_value (fuel n : Nat) (acc : Str) (h : n < fuel) :
    (Nat.toDigitsCore 10 fuel n acc).foldl (fun v c => 10 * v + (c.toNat - 48)) 0 =
      acc.foldl (fun v c => 10 * v + (c.toNat - 48)) n := by
  induction fuel generalizing n acc with
  | zero => omega
  | succ fuel ih =>
    have hd := digitChar_value (n % 10) (Nat.mod_lt _ (by decide))
    unfold Nat.toDigitsCore
    simp only
    split_ifs with h0
    · simp only [List.foldl_cons, Nat.mul_zero, Nat.zero_add, hd]
      congr 1
      omega
    · rw [ih (n / 10) _ (by omega)]
      simp only [List.foldl_cons, hd]
      congr 1
      omega

theorem decimalValue_toDigits (n : Nat) : decimalValue (Nat.toDigits 10 n) = n := by
  unfold decimalValue Nat.toDigits
  rw [toDigitsCore_value (n + 1) n [] (Nat.lt_succ_self n)]
  rfl

theorem suffixed_injective (base : Str) : Function.Injective (suffixed base) := by
  intro i j h
  unfold suffixed at h
  have h2 := List.append_cancel_left h
  have h3 : Nat.toDigits 10 i = Nat.toDigits 10 j := (List.cons.inj h2).2
  have := congrArg decimalValue h3
  rwa [decimalValue_toDigits, decimalValue_toDigits] at this

theorem uniqueIdLoop_sound (existing : List Str) (base : Str) (fuel i : Nat) (id r : Str)
    (h : uniqueIdLoop existing base fuel i id = some r) :
    r ∉ existing ∧
    ((id ∉ existing ∧ r = id) ∨
     (id ∈ existing ∧ ∃ k, i ≤ k ∧ r = suffixed base k ∧
        ∀ j, i ≤ j → j < k → suffixed base j ∈ existing)) := by
  induction fuel generalizing i id with
  | zero => simp [uniqueIdLoop] at h
  | succ fuel ih =>
    unfold uniqueIdLoop at h
    split_ifs at h with hmem
    · obtain ⟨h1, h2⟩ := ih (i + 1) (suffixed base i) h
      refine ⟨h1, Or.inr ⟨hmem, ?_⟩⟩
      rcases h2 with ⟨h3, h4⟩ | ⟨h3, k, hk, hr, hj⟩
      · exact ⟨i, le_refl i, h4, fun j hj1 hj2 => by omega⟩
      · refine ⟨k, by omega, hr, fun j hj1 hj2 => ?_⟩
        by_cases hji : j = i
        · subst hji; exact h3
        · exact hj j (by omega) hj2
    · have hr : r = id := (Option.some.inj h).symm
      subst hr
      exact ⟨hmem, Or.inl ⟨hmem, rfl⟩⟩

theorem uniqueIdLoop_mono (existing : List Str) (base : Str) (fuel fuel2 i : Nat) (id r : Str)
    (h : uniqueIdLoop existing base fuel i id = some r) (hle : fuel ≤ fuel2) :
    uniqueIdLoop existing base fuel2 i id = some r := by
  induction fuel generalizing i id fuel2 with
  | zero => simp [uniqueIdLoop] at h
  | succ fuel ih =>
    cases fuel2 with
    | zero => omega
    | succ fuel2 =>
      unfold uniqueIdLoop at h ⊢
      split_ifs at h ⊢ with hmem
      · exact ih fuel2 (i + 1) _ h (by omega)
      · exact h

theorem uniqueIdLoop_none (existing : List Str) (base : Str) (fuel i : Nat) (id : Str)
    (h : uniqueIdLoop existing base (fuel + 1) i id = none) :
    id ∈ existing ∧ ∀ j, i ≤ j → j < i + fuel → suffixed base j ∈ existing := by
  induction fuel generalizing i id with
  | zero =>
    unfold uniqueIdLoop at h
    split_ifs at h with hmem
    exact ⟨hmem, fun j h1 h2 => by omega⟩
  | succ fuel ih =>
    unfold uniqueIdLoop at h
    split_ifs at h with hmem
    obtain ⟨h1, h2⟩ := ih (i + 1) (suffixed base i) h
    refine ⟨hmem, fun j hj1 hj2 => ?_⟩
    by_cases hji : j = i
    · subst hji; exact h1
    · exact h2 j (by omega) (by omega)

/-- The first id `uniqueId` tries: `base || "project"`. -/
theorem firstId_ne_suffixed (base : Str) (j : Nat) :
    (if base ≠ [] then base else "project".toList) ≠ suffixed base j := by
  by_cases hb : base = []
  · subst hb
    simp [suffixed]
  · rw [if_pos hb]
    intro h
    have := congrArg List.length h
    simp [suffixed] at this

theorem uniqueIdLoop_terminates (existing : List Str) (base : Str) :
    ∃ r, uniqueIdLoop existing base (existing.length + 1) 2
      (if base ≠ [] then base else "project".toList) = some r := by
  cases hres : uniqueIdLoop existing base (existing.length + 1) 2
      (if base ≠ [] then base else "project".toList) with
  | some r => exact ⟨r, rfl⟩
  | none =>
    exfalso
    obtain ⟨h1, h2⟩ := uniqueIdLoop_none existing base existing.length 2 _ hres
    let L : List Str := (if base ≠ [] then base else "project".toList) ::
      (List.range existing.length).map (fun t => suffixed base (2 + t))
    have hnd : L.Nodup := by
      refine List.nodup_cons.2 ⟨?_, ?_⟩
      · intro hm
        obtain ⟨t, -, ht⟩ := List.mem_map.1 hm
        exact firstId_ne_suffixed base (2 + t) ht.symm
      · refine List.Nodup.map ?_ (List.nodup_range _)
        intro a b hab
        have := suffixed_injective base hab
        omega
    have hsub : L ⊆ existing := by
      intro x hx
      rcases List.mem_cons.1 hx with rfl | hx
      · exact h1
      · obtain ⟨t, ht, rfl⟩ := List.mem_map.1 hx
        exact h2 (2 + t) (by omega) (by have := List.mem_range.1 ht; omega)
    have hlen := (List.Nodup.subperm hnd hsub).length_le
    simp [L] at hlen

theorem uniqueIdFuel_eq_some (st : State) (base : Str) (cat : Cat) (fuel : Nat)
    (h : (st.get cat).length < fuel) :
    uniqueIdFuel fuel st base cat = some (uniqueId st base cat) := by
  obtain ⟨r, hr⟩ := uniqueIdLoop_terminates ((st.get cat).map (fun p => p.id)) base
  rw [List.length_map] at hr
  have h1 : uniqueIdFuel ((st.get cat).length + 1) st base cat = some r := hr
  have h2 : uniqueId st base cat = r := by
    unfold uniqueId
    rw [h1]
    rfl
  rw [h2]
  exact uniqueIdLoop_mono _ base _ fuel 2 _ r hr (by omega)

theorem uniqueId_sound (st : State) (base : Str) (cat : Cat) :
    uniqueId st base cat ∉ (st.get cat).map (fun p => p.id) ∧
    (((if base ≠ [] then base else "project".toList) ∉ (st.get cat).map (fun p => p.id) ∧
      uniqueId st base cat = (if base ≠ [] then base else "project".toList)) ∨
     ((if base ≠ [] then base else "project".toList) ∈ (st.get cat).map (fun p => p.id) ∧
      ∃ k, 2 ≤ k ∧ uniqueId st base cat = suffixed base k ∧
        ∀ j, 2 ≤ j → j < k → suffixed base j ∈ (st.get cat).map (fun p => p.id))) :=
  uniqueIdLoop_sound _ base _ 2 _ _
    (uniqueIdFuel_eq_some st base cat ((st.get cat).length + 1) (Nat.lt_succ_self _))

/-- C7: `uniqueId` on a non-empty base.  The loop ends within one more test than
the category has projects, whatever larger bound is given.  The result is
`base` when no project of the category has that id; otherwise it is `base-k`
for the smallest `k ≥ 2` whose `base-k` is free: `base-2` when that is free,
`base-3` when `base-2` is taken and `base-3` is free.  It depends on the set of
existing ids only, not on their order, and it is never an existing id. -/
theorem uniqueId_first_free (st : State) (cat : Cat) (base : Str) (hb : base ≠ []) :
    (∀ fuel, (st.get cat).length < fuel →
      uniqueIdFuel fuel st base cat = some (uniqueId st base cat)) ∧
    (base ∉ (st.get cat).map (fun p => p.id) → uniqueId st base cat = base) ∧
    (base ∈ (st.get cat).map (fun p => p.id) →
      ∃ k, 2 ≤ k ∧ uniqueId st base cat = suffixed base k ∧
        suffixed base k ∉ (st.get cat).map (fun p => p.id) ∧
        ∀ j, 2 ≤ j → j < k → suffixed base j ∈ (st.get cat).map (fun p => p.id)) ∧
    (base ∈ (st.get cat).map (fun p => p.id) →
      base ++ "-2".toList ∉ (st.get cat).map (fun p => p.id) →
      uniqueId st base cat = base ++ "-2".toList) ∧
    (base ∈ (st.get cat).map (fun p => p.id) →
      base ++ "-2".toList ∈ (st.get cat).map (fun p => p.id) →
      base ++ "-3".toList ∉ (st.get cat).map (fun p => p.id) →
      uniqueId st base cat = base ++ "-3".toList) ∧
    (∀ st2 : State,
      (∀ x, x ∈ (st2.get cat).map (fun p => p.id) ↔ x ∈ (st.get cat).map (fun p => p.id)) →
      uniqueId st2 base cat = uniqueId st base cat) ∧
    uniqueId st base cat ∉ (st.get cat).map (fun p => p.id) := by
  have key : ∀ s : State, (base ∉ (s.get cat).map (fun p => p.id) → uniqueId s base cat = base) ∧
      (base ∈ (s.get cat).map (fun p => p.id) →
        ∃ k, 2 ≤ k ∧ uniqueId s base cat = suffixed base k ∧
          suffixed base k ∉ (s.get cat).map (fun p => p.id) ∧
          ∀ j, 2 ≤ j → j < k → suffixed base j ∈ (s.get cat).map (fun p => p.id)) := by
    intro s
    obtain ⟨h1, h2⟩ := uniqueId_sound s base cat
    rw [if_pos hb] at h2
    refine ⟨fun hn => ?_, fun hm => ?_⟩
    · rcases h2 with ⟨-, h⟩ | ⟨h, -⟩
      · exact h
      · exact absurd h hn
    · rcases h2 with ⟨h, -⟩ | ⟨-, k, hk, hr, hj⟩
      · exact absurd hm h
      · exact ⟨k, hk, hr, hr ▸ h1, hj⟩
  have h2 : suffixed base 2 = base ++ "-2".toList := rfl
  have h3 : suffixed base 3 = base ++ "-3".toList := rfl
  refine ⟨fun fuel h => uniqueIdFuel_eq_some st base cat fuel h, (key st).1, (key st).2,
    ?_, ?_, ?_, (uniqueId_sound st base cat).1⟩
  · intro hm hfree
    obtain ⟨k, hk, hr, -, hj⟩ := (key st).2 hm
    by_cases hk2 : k = 2
    · rw [hr, hk2, h2]
    · exact absurd (h2 ▸ hj 2 (le_refl 2) (by omega)) hfree
  · intro hm htaken hfree
    obtain ⟨k, hk, hr, hnot, hj⟩ := (key st).2 hm
    by_cases hk2 : k = 2
    · subst hk2
      exact absurd htaken (h2 ▸ hnot)
    · by_cases hk3 : k = 3
      · rw [hr, hk3, h3]
      · exact absurd (h3 ▸ hj 3 (by omega) (by omega)) hfree
  · intro st2 hiff
    by_cases hm : base ∈ (st.get cat).map (fun p => p.id)
    · obtain ⟨k, hk, hr, hnot, hj⟩ := (key st).2 hm
      obtain ⟨k2, hk', hr', hnot', hj'⟩ := (key st2).2 ((hiff base).2 hm)
      rw [hr, hr']
      congr 1
      rcases Nat.lt_trichotomy k2 k with hlt | heq | hgt
      · exact absurd ((hiff _).2 (hj k2 hk' hlt)) hnot'
      · exact heq
      · exact absurd ((hiff _).1 (hj' k hk hgt)) hnot
    · rw [(key st).1 hm, (key st2).1 (fun h => hm ((hiff base).1 h))]

/-- Witness for C7: with the ids `a-2` and `a` taken, in this order, the
non-empty base `a` gets `a-3`; in the empty category it gets `a`. -/
theorem uniqueId_first_free_witness :
    "a".toList ≠ [] ∧
    uniqueId (DEFAULT_STATE.set .cad
        [{ id := "a-2".toList, title := [], subtitle := [], year := [], tools := [],
           description := [], links := [], media := .gallery [] },
         { id := "a".toList, title := [], subtitle := [], year := [], tools := [],
           description := [], links := [], media := .gallery [] }]) "a".toList .cad
      = "a".toList ++ "-3".toList ∧
    uniqueId DEFAULT_STATE "a".toList .cad = "a".toList :=
  ⟨by decide,
   (uniqueId_first_free _ .cad "a".toList (by decide)).2.2.2.2.1
     (by decide) (by decide) (by decide),
   (uniqueId_first_free DEFAULT_STATE .cad "a".toList (by decide)).2.1 (by decide)⟩

/-! ## filesToProjects -/

theorem GroupMap.get_eq_none (m : GroupMap) (k : Str) :
    m.get k = none ↔ k ∉ m.map (fun kg => kg.1) := by
  induction m with
  | nil => simp [GroupMap.get]
  | cons kg m ih =>
    obtain ⟨k1, g1⟩ := kg
    unfold GroupMap.get
    by_cases h : k1 = k
    · simp [h]
    · rw [if_neg h, ih]
      simp only [List.map_cons, List.mem_cons, not_or]
      exact ⟨fun hx => ⟨fun e => h e.symm, hx⟩, fun hx => hx.2⟩

theorem GroupMap.mem_of_get (m : GroupMap) (k : Str) (g : Group) (h : m.get k = some g) :
    (k, g) ∈ m := by
  induction m with
  | nil => simp [GroupMap.get] at h
  | cons kg m ih =>
    obtain ⟨k1, g1⟩ := kg
    unfold GroupMap.get at h
    split_ifs at h with hk
    · subst hk
      rw [Option.some.inj h]
      exact List.mem_cons_self _ _
    · exact List.mem_cons_of_mem _ (ih h)

theorem GroupMap.set_keys (m : GroupMap) (k : Str) (e : Group) :
    (m.set k e).map (fun kg => kg.1) =
      if k ∈ m.map (fun kg => kg.1) then m.map (fun kg => kg.1)
      else m.map (fun kg => kg.1) ++ [k] := by
  induction m with
  | nil => simp [GroupMap.set]
  | cons kg m ih =>
    obtain ⟨k1, g1⟩ := kg
    unfold GroupMap.set
    by_cases h : k1 = k
    · subst h
      simp
    · rw [if_neg h]
      simp only [List.map_cons, ih, List.mem_cons]
      have hne : ¬ k = k1 := fun hx => h hx.symm
      by_cases hm : k ∈ m.map (fun kg => kg.1)
      · simp [hm]
      · simp [hm, hne]

theorem GroupMap.mem_set (m : GroupMap) (k : Str) (e : Group) (kg : Str × Group)
    (hnd : (m.map (fun kg => kg.1)).Nodup)
    (h : kg ∈ m.set k e) : kg = (k, e) ∨ (kg ∈ m ∧ kg.1 ≠ k) := by
  induction m with
  | nil =>
    left
    simpa [GroupMap.set] using h
  | cons kg1 m ih =>
    obtain ⟨k1, g1⟩ := kg1
    unfold GroupMap.set at h
    split_ifs at h with hk
    · subst hk
      rcases List.mem_cons.1 h with h | h
      · exact Or.inl h
      · right
        refine ⟨List.mem_cons_of_mem _ h, fun hx => ?_⟩
        have hnot := (List.nodup_cons.1 hnd).1
        exact hnot (hx ▸ List.mem_map_of_mem (fun kg => kg.1) h)
    · rcases List.mem_cons.1 h with h | h
      · right
        subst h
        exact ⟨List.mem_cons_self _ _, hk⟩
      · rcases ih (List.nodup_cons.1 hnd).2 h with h | ⟨h1, h2⟩
        · exact Or.inl h
        · exact Or.inr ⟨List.mem_cons_of_mem _ h1, h2⟩

theorem groupStep_eq (U : LowerMap) (cat : Cat) (m : GroupMap) (f : File) :
    ∃ e : Group, groupStep U cat m f = m.set (groupKey U f) e ∧
      ((∃ g, m.get (groupKey U f) = some g ∧ e.idBase = g.idBase ∧
          e.items = g.items ++ [mediaFromFile U f cat]) ∨
       (m.get (groupKey U f) = none ∧ e.idBase = groupKey U f ∧
          e.items = [mediaFromFile U f cat])) := by
  unfold groupStep groupKey
  simp only
  cases hg : GroupMap.get m (if (parseTemplate U (stripFileExt f.name)).slug ≠ [] then
      (parseTemplate U (stripFileExt f.name)).slug else slugify U (stripFileExt f.name)) with
  | none => exact ⟨_, rfl, Or.inr ⟨rfl, rfl, rfl⟩⟩
  | some g => exact ⟨_, rfl, Or.inl ⟨g, rfl, rfl, rfl⟩⟩

theorem descriptorsOfKey_append (U : LowerMap) (cat : Cat) (fs : List File) (f : File)
    (k : Str) :
    descriptorsOfKey U cat (fs ++ [f]) k =
      if groupKey U f = k then descriptorsOfKey U cat fs k ++ [mediaFromFile U f cat]
      else descriptorsOfKey U cat fs k := by
  unfold descriptorsOfKey
  by_cases h : groupKey U f = k
  · simp [List.filter_append, List.filter_cons, h]
  · simp [List.filter_append, List.filter_cons, h]

theorem descriptorsOfKey_of_not_mem (U : LowerMap) (cat : Cat) (fs : List File) (k : Str)
    (h : k ∉ fs.map (groupKey U)) : descriptorsOfKey U cat fs k = [] := by
  unfold descriptorsOfKey
  rw [List.map_eq_nil_iff, List.filter_eq_nil_iff]
  intro f hf hk
  exact h (List.mem_map.2 ⟨f, hf, by simpa using hk⟩)

theorem firstIndex_append_of_mem (a : Str) (l1 l2 : List Str) (h : a ∈ l1) :
    firstIndex a (l1 ++ l2) = firstIndex a l1 := by
  induction l1 with
  | nil => simp at h
  | cons x xs ih =>
    simp only [List.cons_append, firstIndex]
    by_cases hx : x = a
    · simp [hx]
    · rw [if_neg hx, if_neg hx]
      have := ih ((List.mem_cons.1 h).resolve_left (fun e => hx e.symm))
      simp only [List.append_eq] at this ⊢
      rw [this]

theorem firstIndex_append_of_not_mem (a : Str) (l1 l2 : List Str) (h : a ∉ l1) :
    firstIndex a (l1 ++ l2) = l1.length + firstIndex a l2 := by
  induction l1 with
  | nil => simp
  | cons x xs ih =>
    have hx : ¬ x = a := fun e => h (e ▸ List.mem_cons_self _ _)
    simp only [List.cons_append, firstIndex, if_neg hx, List.length_cons]
    have := ih (fun hm => h (List.mem_cons_of_mem _ hm))
    simp only [List.append_eq] at this ⊢
    omega

theorem firstIndex_lt_length (a : Str) (l : List Str) (h : a ∈ l) :
    firstIndex a l < l.length := by
  induction l with
  | nil => simp at h
  | cons x xs ih =>
    simp only [firstIndex, List.length_cons]
    by_cases hx : x = a
    · simp [hx]
    · rw [if_neg hx]
      have := ih ((List.mem_cons.1 h).resolve_left (fun e => hx e.symm))
      omega

theorem groupInv_step (U : LowerMap) (cat : Cat) (fs : List File) (m : GroupMap) (f : File)
    (h : GroupInv U cat fs m) : GroupInv U cat (fs ++ [f]) (groupStep U cat m f) := by
  obtain ⟨hnd, hmem, hord, hitems⟩ := h
  obtain ⟨e, he, hcase⟩ := groupStep_eq U cat m f
  rw [he]
  have hkeys := GroupMap.set_keys m (groupKey U f) e
  have hmono : ∀ a, a ∈ fs.map (groupKey U) →
      firstIndex a ((fs ++ [f]).map (groupKey U)) = firstIndex a (fs.map (groupKey U)) := by
    intro a ha
    rw [List.map_append]
    exact firstIndex_append_of_mem a _ _ ha
  have hord2 : (m.map (fun kg => kg.1)).Pairwise
      (fun a b => firstIndex a ((fs ++ [f]).map (groupKey U)) <
        firstIndex b ((fs ++ [f]).map (groupKey U))) := by
    refine List.Pairwise.imp_of_mem ?_ hord
    intro a b ha hb hab
    rw [hmono a ((hmem a).1 ha), hmono b ((hmem b).1 hb)]
    exact hab
  have hitems2 : ∀ kg ∈ m.set (groupKey U f) e,
      kg.2.idBase = kg.1 ∧ kg.2.items = descriptorsOfKey U cat (fs ++ [f]) kg.1 := by
    intro kg hkg
    rcases GroupMap.mem_set m _ e kg hnd hkg with rfl | ⟨h1, h2⟩
    · simp only [descriptorsOfKey_append, if_true]
      rcases hcase with ⟨g, hg, hid, hit⟩ | ⟨hg, hid, hit⟩
      · obtain ⟨i1, i2⟩ := hitems _ (GroupMap.mem_of_get m _ g hg)
        exact ⟨hid.trans i1, by rw [hit, i2]⟩
      · have hnot := (GroupMap.get_eq_none m _).1 hg
        rw [hmem] at hnot
        exact ⟨hid, by rw [hit, descriptorsOfKey_of_not_mem U cat fs _ hnot]; rfl⟩
    · obtain ⟨i1, i2⟩ := hitems kg h1
      rw [descriptorsOfKey_append, if_neg (fun hx => h2 hx.symm)]
      exact ⟨i1, i2⟩
  by_cases hk : groupKey U f ∈ m.map (fun kg => kg.1)
  · rw [if_pos hk] at hkeys
    refine ⟨hkeys ▸ hnd, fun k => ?_, hkeys ▸ hord2, hitems2⟩
    rw [hkeys, hmem, List.map_append, List.mem_append]
    constructor
    · exact Or.inl
    · rintro (h1 | h1)
      · exact h1
      · have : k = groupKey U f := by simpa using h1
        rw [this]
        exact (hmem _).1 hk
  · rw [if_neg hk] at hkeys
    have hk2 : groupKey U f ∉ fs.map (groupKey U) := fun hx => hk ((hmem _).2 hx)
    refine ⟨?_, fun k => ?_, ?_, hitems2⟩
    · rw [hkeys]
      exact List.Nodup.append hnd (List.nodup_singleton _) (by simpa using hk)
    · rw [hkeys, List.mem_append, hmem, List.map_append, List.mem_append]
      simp
    · rw [hkeys]
      refine List.pairwise_append.2 ⟨hord2, List.pairwise_singleton _ _, ?_⟩
      intro a ha b hb
      have hb2 : b = groupKey U f := by simpa using hb
      subst hb2
      rw [hmono a ((hmem a).1 ha)]
      have h1 : firstIndex a (fs.map (groupKey U)) < (fs.map (groupKey U)).length :=
        firstIndex_lt_length a _ ((hmem a).1 ha)
      have h2 : firstIndex (groupKey U f) ((fs ++ [f]).map (groupKey U)) =
          (fs.map (groupKey U)).length := by
        rw [List.map_append, firstIndex_append_of_not_mem _ _ _ hk2]
        simp [firstIndex]
      omega

theorem groupInv_groupFiles (U : LowerMap) (cat : Cat) (files : List File) :
    GroupInv U cat files (groupFiles U cat files) := by
  induction files using List.reverseRecOn with
  | nil =>
    refine ⟨List.nodup_nil, fun k => ?_, List.Pairwise.nil, fun kg hkg => ?_⟩
    · simp [groupFiles]
    · simp [groupFiles] at hkg
  | append_singleton fs f ih =>
    have : groupFiles U cat (fs ++ [f]) = groupStep U cat (groupFiles U cat fs) f := by
      simp [groupFiles, List.foldl_append]
    rw [this]
    exact groupInv_step U cat fs _ f ih

theorem items_mediaOfItems (ds : List MediaDescriptor) : (mediaOfItems ds).items = ds := by
  match ds with
  | [] => rfl
  | [_] => rfl
  | _ :: _ :: _ => rfl

theorem mediaOfItems_gallery (ds : List MediaDescriptor) (h : 2 ≤ ds.length) :
    mediaOfItems ds = .gallery ds := by
  match ds, h with
  | _ :: _ :: _, _ => rfl

theorem sum_indicator_of_nodup (a : Str) (ks : List Str) (hnd : ks.Nodup) (ha : a ∈ ks) :
    (ks.map (fun k => if a = k then 1 else 0)).sum = 1 := by
  induction ks with
  | nil => simp at ha
  | cons k ks ih =>
    rw [List.map_cons, List.sum_cons]
    obtain ⟨hk, hnd2⟩ := List.nodup_cons.1 hnd
    by_cases h : a = k
    · subst h
      have hz : (ks.map (fun k => if a = k then 1 else 0)).sum = 0 := by
        rw [List.sum_eq_zero]
        intro x hx
        obtain ⟨y, hy, rfl⟩ := List.mem_map.1 hx
        have : ¬ a = y := fun e => hk (e ▸ hy)
        simp [this]
      simp [hz]
    · rw [if_neg h, ih hnd2 ((List.mem_cons.1 ha).resolve_left h)]

theorem filter_eq_length_of_nodup (a : Str) (ks : List Str) (hnd : ks.Nodup) (ha : a ∈ ks) :
    (ks.filter (fun k => decide (k = a))).length = 1 := by
  induction ks with
  | nil => simp at ha
  | cons k ks ih =>
    obtain ⟨hk, hnd2⟩ := List.nodup_cons.1 hnd
    by_cases h : k = a
    · subst h
      have hz : ks.filter (fun x => decide (x = k)) = [] := by
        rw [List.filter_eq_nil_iff]
        intro x hx hxe
        have : x = k := by simpa using hxe
        exact hk (this ▸ hx)
      simp [List.filter_cons, hz]
    · have := ih hnd2 ((List.mem_cons.1 ha).resolve_left (fun e => h e.symm))
      simp [List.filter_cons, h, this]

theorem sum_descriptors_length (U : LowerMap) (cat : Cat) (files : List File) (ks : List Str)
    (hnd : ks.Nodup) (hall : ∀ f ∈ files, groupKey U f ∈ ks) :
    (ks.map (fun k => (descriptorsOfKey U cat files k).length)).sum = files.length := by
  induction files with
  | nil => simp [descriptorsOfKey]
  | cons f fs ih =>
    have hstep : ∀ k, (descriptorsOfKey U cat (f :: fs) k).length =
        (if groupKey U f = k then 1 else 0) + (descriptorsOfKey U cat fs k).length := by
      intro k
      unfold descriptorsOfKey
      by_cases h : groupKey U f = k
      · simp [List.filter_cons, h]; omega
      · simp [List.filter_cons, h]
    have hfun : (fun k => (descriptorsOfKey U cat (f :: fs) k).length) =
        (fun k => (if groupKey U f = k then 1 else 0) + (descriptorsOfKey U cat fs k).length) :=
      funext hstep
    rw [hfun, List.sum_map_add,
      sum_indicator_of_nodup _ ks hnd (hall f (List.mem_cons_self _ _)),
      ih (fun g hg => hall g (List.mem_cons_of_mem _ hg)), List.length_cons]
    omega

theorem stripFileExt_of_ext (stem ext : Str) (hne : ext ≠ []) (hdot : '.' ∉ ext)
    (hsl : '/' ∉ ext) : stripFileExt (stem ++ '.' :: ext) = stem := by
  induction stem with
  | nil =>
    have hall : ext.all (fun d => decide (d ≠ '/' ∧ d ≠ '.')) = true := by
      rw [List.all_eq_true]
      intro d hd
      exact decide_eq_true ⟨fun e => hsl (e ▸ hd), fun e => hdot (e ▸ hd)⟩
    rw [List.nil_append, stripFileExt]
    exact if_pos ⟨rfl, hne, hall⟩
  | cons c cs ih =>
    have hnot : ¬ (c = '.' ∧ cs ++ '.' :: ext ≠ [] ∧
        (cs ++ '.' :: ext).all (fun d => decide (d ≠ '/' ∧ d ≠ '.')) = true) := by
      rintro ⟨-, -, hall⟩
      rw [List.all_eq_true] at hall
      have := hall '.' (List.mem_append_right _ (List.mem_cons_self _ _))
      simp at this
    rw [List.cons_append, stripFileExt, if_neg hnot, ih]

theorem stripFileExt_of_no_ext (name : Str)
    (h : ¬ ∃ (pre ext : Str), name = pre ++ '.' :: ext ∧ ext ≠ [] ∧ '.' ∉ ext ∧ '/' ∉ ext) :
    stripFileExt name = name := by
  induction name with
  | nil => rfl
  | cons c cs ih =>
    have hnot : ¬ (c = '.' ∧ cs ≠ [] ∧
        cs.all (fun d => decide (d ≠ '/' ∧ d ≠ '.')) = true) := by
      rintro ⟨hc, hne, hall⟩
      rw [List.all_eq_true] at hall
      refine h ⟨[], cs, by rw [hc]; rfl, hne, fun hm => ?_, fun hm => ?_⟩
      · have := hall '.' hm
        simp at this
      · have := hall '/' hm
        simp at this
    rw [stripFileExt, if_neg hnot, ih]
    rintro ⟨pre, ext, he, h1, h2, h3⟩
    exact h ⟨c :: pre, ext, by rw [he]; rfl, h1, h2, h3⟩

theorem isStemOf_iff (stem name : Str) : IsStemOf stem name ↔ stem = stripFileExt name := by
  constructor
  · rintro (⟨ext, he, h1, h2, h3⟩ | ⟨he, hno⟩)
    · rw [he, stripFileExt_of_ext stem ext h1 h2 h3]
    · rw [he, stripFileExt_of_no_ext name hno]
  · intro he
    by_cases hex : ∃ (pre ext : Str), name = pre ++ '.' :: ext ∧ ext ≠ [] ∧ '.' ∉ ext ∧ '/' ∉ ext
    · obtain ⟨pre, ext, hn, h1, h2, h3⟩ := hex
      have : stem = pre := by rw [he, hn, stripFileExt_of_ext pre ext h1 h2 h3]
      exact Or.inl ⟨ext, this ▸ hn, h1, h2, h3⟩
    · exact Or.inr ⟨by rw [he, stripFileExt_of_no_ext name hex], hex⟩

/-- C5: `filesToProjects` returns one record per distinct grouping key, in the
order in which the keys first appear in the batch.  The key of a file is the
slug parsed from its name without extension, or `slugify` of that stem when
the parsed slug is empty: every name has exactly one stem (the name cut before
its final dot and extension, or the whole name when it has no such ending),
and the key is `keyOfStem` of it.  Record number `i` is built from key number
`i` of `groupOrder` (its id is `uniqueId` of that key); the keys of
`groupOrder` are pairwise distinct, are exactly the keys of the files, and
stand in the order of their first appearance; so there are as many records as
distinct keys. -/
theorem filesToProjects_one_record_per_key (U : LowerMap) (st : State) (cat : Cat)
    (files : List File) :
    (∀ f : File, ∃ stem, IsStemOf stem f.name) ∧
    (∀ (f : File) (stem : Str), IsStemOf stem f.name → groupKey U f = keyOfStem U stem) ∧
    (filesToProjects U st cat files).map (fun p => p.id) =
      (groupOrder U cat files).map (fun k => uniqueId st k cat) ∧
    (filesToProjects U st cat files).length = (groupOrder U cat files).length ∧
    (groupOrder U cat files).Nodup ∧
    (∀ k, k ∈ groupOrder U cat files ↔ k ∈ files.map (groupKey U)) ∧
    (groupOrder U cat files).Pairwise
      (fun a b => firstIndex a (files.map (groupKey U)) < firstIndex b (files.map (groupKey U))) ∧
    (filesToProjects U st cat files).length = (files.map (groupKey U)).dedup.length := by
  obtain ⟨hnd, hmem, hord, hitems⟩ := groupInv_groupFiles U cat files
  have hlen : (filesToProjects U st cat files).length = (groupOrder U cat files).length := by
    simp [filesToProjects, groupOrder]
  refine ⟨fun f => ⟨stripFileExt f.name, (isStemOf_iff _ _).2 rfl⟩,
    fun f stem hs => ?_, ?_, hlen, hnd, hmem, hord, ?_⟩
  · rw [(isStemOf_iff _ _).1 hs]
    rfl
  · unfold filesToProjects groupOrder
    rw [List.map_map, List.map_map]
    refine List.map_congr_left fun kg hkg => ?_
    simp only [Function.comp, projectOfGroup]
    rw [(hitems kg hkg).1]
  · rw [hlen]
    refine List.Perm.length_eq ((List.perm_ext_iff_of_nodup hnd (List.nodup_dedup _)).2 ?_)
    intro k
    rw [List.mem_dedup]
    exact hmem k

/-- Witness for C5: the batch `a.b.png`, `c.png`, `a.png`.  The stem of
`a.b.png` is `a.b`, whose key is `a`, the key of `a.png` as well: the batch has
the two keys `a` and `c`, in this order, and gives two records. -/
theorem filesToProjects_one_record_per_key_witness :
    IsStemOf "a.b".toList "a.b.png".toList ∧
    groupKey keepNonAscii { name := "a.b.png".toList } = "a".toList ∧
    groupOrder keepNonAscii .prints
      [{ name := "a.b.png".toList }, { name := "c.png".toList }, { name := "a.png".toList }] =
      ["a".toList, "c".toList] ∧
    (filesToProjects keepNonAscii DEFAULT_STATE .prints
      [{ name := "a.b.png".toList }, { name := "c.png".toList },
       { name := "a.png".toList }]).map (fun p => p.id) = ["a".toList, "c".toList] ∧
    (filesToProjects keepNonAscii DEFAULT_STATE .prints
      [{ name := "a.b.png".toList }, { name := "c.png".toList },
       { name := "a.png".toList }]).length = 2 :=
  have hstem : IsStemOf "a.b".toList "a.b.png".toList :=
    Or.inl ⟨"png".toList, rfl, by decide, by decide, by decide⟩
  have hthm := filesToProjects_one_record_per_key keepNonAscii DEFAULT_STATE .prints
    [{ name := "a.b.png".toList }, { name := "c.png".toList }, { name := "a.png".toList }]
  have hkeys : groupOrder keepNonAscii .prints
      [{ name := "a.b.png".toList }, { name := "c.png".toList }, { name := "a.png".toList }] =
      ["a".toList, "c".toList] := by decide
  ⟨hstem,
   (hthm.2.1 { name := "a.b.png".toList } "a.b".toList hstem).trans (by decide),
   hkeys,
   hthm.2.2.1.trans (by rw [hkeys]; decide),
   hthm.2.2.2.1.trans (by rw [hkeys]; rfl)⟩

/-- C6: in `filesToProjects` record number `i` holds exactly the descriptors
(`mediaFromFile`) of the files whose grouping key is key number `i`, in batch
order: a single descriptor when the group has one file, the list of them when
it has two or more.  Every file belongs to exactly one record, that of its
key, and the records hold as many descriptors in all as the batch has files. -/
theorem filesToProjects_media_per_group (U : LowerMap) (st : State) (cat : Cat)
    (files : List File) :
    List.Forall₂
      (fun (p : Project) (k : Str) =>
        p.media.items = descriptorsOfKey U cat files k ∧
        (∀ d, descriptorsOfKey U cat files k = [d] → p.media = .single d) ∧
        (2 ≤ (descriptorsOfKey U cat files k).length →
          p.media = .gallery (descriptorsOfKey U cat files k)))
      (filesToProjects U st cat files) (groupOrder U cat files) ∧
    (∀ k, descriptorsOfKey U cat files k =
      (files.filter (fun f => decide (groupKey U f = k))).map (fun f => mediaFromFile U f cat)) ∧
    (∀ f ∈ files,
      ((groupOrder U cat files).filter (fun k => decide (k = groupKey U f))).length = 1) ∧
    ((filesToProjects U st cat files).map (fun p => p.media.items.length)).sum = files.length := by
  obtain ⟨hnd, hmem, hord, hitems⟩ := groupInv_groupFiles U cat files
  have hkey : ∀ f ∈ files, groupKey U f ∈ groupOrder U cat files :=
    fun f hf => (hmem _).2 (List.mem_map_of_mem _ hf)
  have hmedia : ∀ kg ∈ groupFiles U cat files,
      (projectOfGroup st cat kg.2).media = mediaOfItems (descriptorsOfKey U cat files kg.1) := by
    intro kg hkg
    simp only [projectOfGroup]
    rw [(hitems kg hkg).2]
  refine ⟨?_, fun k => rfl, fun f hf => filter_eq_length_of_nodup _ _ hnd (hkey f hf), ?_⟩
  · unfold filesToProjects groupOrder
    rw [List.forall₂_map_left_iff, List.forall₂_map_right_iff, List.forall₂_same]
    intro kg hkg
    rw [hmedia kg hkg]
    refine ⟨items_mediaOfItems _, fun d hd => by rw [hd]; rfl, mediaOfItems_gallery _⟩
  · have h1 : (filesToProjects U st cat files).map (fun p => p.media.items.length) =
        (groupOrder U cat files).map (fun k => (descriptorsOfKey U cat files k).length) := by
      unfold filesToProjects groupOrder
      rw [List.map_map, List.map_map]
      refine List.map_congr_left fun kg hkg => ?_
      simp only [Function.comp]
      rw [hmedia kg hkg, items_mediaOfItems]
    rw [h1]
    exact sum_descriptors_length U cat files _ hnd hkey

/-- Witness for C6, the example of the specification: a `.png` and a `.mp4` of the
same template name give one project whose media is the two descriptors, image
first. -/
theorem filesToProjects_media_per_group_witness :
    filesToProjects keepNonAscii DEFAULT_STATE .prints
        [{ name := "demo__Demo__tag__2020.png".toList },
         { name := "demo__Demo__tag__2020.mp4".toList }] =
      [{ id := "demo".toList, title := "Demo".toList, subtitle := [], year := "2020".toList,
         tools := ["tag".toList], description := [], links := [],
         media := .gallery
           [{ type := "image".toList,
              src := "../assets/prints/demo__Demo__tag__2020.png".toList, label := none },
            { type := "video".toList,
              src := "../assets/prints/demo__Demo__tag__2020.mp4".toList, label := none }] }] ∧
    ((filesToProjects keepNonAscii DEFAULT_STATE .prints
        [{ name := "demo__Demo__tag__2020.png".toList },
         { name := "demo__Demo__tag__2020.mp4".toList }]).map
      (fun p => p.media.items.length)).sum = 2 :=
  ⟨by decide,
   (filesToProjects_media_per_group keepNonAscii DEFAULT_STATE .prints
      [{ name := "demo__Demo__tag__2020.png".toList },
       { name := "demo__Demo__tag__2020.mp4".toList }]).2.2.2⟩

/-- C8, the failing batch: with a project `a` already in the category, the files
`a.png` and `a-2.png` are both given the id `a-2`, so after `addProjects` the
ids of the category are no longer pairwise distinct. -/
theorem addProjects_duplicate_ids :
    ((DEFAULT_STATE.set .prints
        [{ id := "a".toList, title := "A".toList, subtitle := [], year := [], tools := [],
           description := [], links := [], media := .gallery [] }]).get .prints).map
      (fun p => p.id) = ["a".toList] ∧
    (filesToProjects keepNonAscii
        (DEFAULT_STATE.set .prints
          [{ id := "a".toList, title := "A".toList, subtitle := [], year := [], tools := [],
             description := [], links := [], media := .gallery [] }])
        .prints [{ name := "a.png".toList }, { name := "a-2.png".toList }]).map (fun p => p.id) =
      ["a-2".toList, "a-2".toList] ∧
    ¬ (((addProjects
        (DEFAULT_STATE.set .prints
          [{ id := "a".toList, title := "A".toList, subtitle := [], year := [], tools := [],
             description := [], links := [], media := .gallery [] }])
        .prints
        (filesToProjects keepNonAscii
          (DEFAULT_STATE.set .prints
            [{ id := "a".toList, title := "A".toList, subtitle := [], year := [], tools := [],
               description := [], links := [], media := .gallery [] }])
          .prints [{ name := "a.png".toList }, { name := "a-2.png".toList }])).get .prints).map
      (fun p => p.id)).Nodup := by
  refine ⟨by decide, by decide, ?_⟩
  decide

/-! ## ensureKeys and loading -/

/-- C9: schema normalization.  For every input value, `ensureKeys` gives an
object with exactly the keys `animation`, `cad`, `prints`, `code`, in this
order; under each of them it holds the input's value for that key when that
value is an array and the empty array otherwise; so no key of the input
outside the four remains and no fixed key holds a non-array. -/
theorem ensureKeys_normalizes (obj : JSValue) :
    (ensureKeys obj).keys =
      ["animation".toList, "cad".toList, "prints".toList, "code".toList] ∧
    (∃ a c p d : List JSValue, ensureKeys obj =
      .obj [("animation".toList, .arr a), ("cad".toList, .arr c),
            ("prints".toList, .arr p), ("code".toList, .arr d)]) ∧
    (∀ cat : Cat, ∀ items : List JSValue, getProp obj cat.key = .arr items →
      getProp (ensureKeys obj) cat.key = .arr items) ∧
    (∀ cat : Cat, (∀ items : List JSValue, getProp obj cat.key ≠ .arr items) →
      getProp (ensureKeys obj) cat.key = .arr []) ∧
    (∀ cat : Cat, ∃ items : List JSValue, getProp (ensureKeys obj) cat.key = .arr items) ∧
    (∀ k : Str, k ∉ categoryKeys → getProp (ensureKeys obj) k = .undefined) := by
  have harr : ∀ v : JSValue, (∃ items, v = .arr items ∧ arrayOrEmpty v = .arr items) ∨
      ((∀ items, v ≠ .arr items) ∧ arrayOrEmpty v = .arr []) := by
    intro v
    cases v <;> simp [arrayOrEmpty]
  have hget : ∀ cat : Cat,
      getProp (ensureKeys obj) cat.key = arrayOrEmpty (getProp obj cat.key) := by
    intro cat
    cases cat <;> rfl
  refine ⟨rfl, ?_, ?_, ?_, ?_, ?_⟩
  · rcases harr (getProp obj Cat.animation.key) with ⟨a, -, ha⟩ | ⟨-, ha⟩ <;>
    rcases harr (getProp obj Cat.cad.key) with ⟨c, -, hc⟩ | ⟨-, hc⟩ <;>
    rcases harr (getProp obj Cat.prints.key) with ⟨p, -, hp⟩ | ⟨-, hp⟩ <;>
    rcases harr (getProp obj Cat.code.key) with ⟨d, -, hd⟩ | ⟨-, hd⟩ <;>
    exact ⟨_, _, _, _, by
      simp only [ensureKeys, categoryKeys, List.map_cons, List.map_nil, ha, hc, hp, hd]
      rfl⟩
  · intro cat items h
    rw [hget, h]
    rfl
  · intro cat h
    rw [hget]
    rcases harr (getProp obj cat.key) with ⟨items, hi, -⟩ | ⟨-, ha⟩
    · exact absurd hi (h items)
    · exact ha
  · intro cat
    rw [hget]
    rcases harr (getProp obj cat.key) with ⟨items, -, ha⟩ | ⟨-, ha⟩
    · exact ⟨items, ha⟩
    · exact ⟨[], ha⟩
  · intro k hk
    simp only [categoryKeys, List.map_cons, List.map_nil, List.mem_cons, List.mem_singleton,
      List.not_mem_nil, or_false, not_or] at hk
    obtain ⟨h1, h2, h3, h4⟩ := hk
    simp only [ensureKeys, categoryKeys, List.map_cons, List.map_nil, getProp, lookupProp]
    rw [if_neg (fun e => h1 e.symm), if_neg (fun e => h2 e.symm), if_neg (fun e => h3 e.symm),
      if_neg (fun e => h4 e.symm)]

/-- C10, the failing path: when `JSON.parse` rejects the text of the chosen
file, the "load JSON" handler lets the exception escape and leaves the store
as it was: the input is not normalized to the empty store. -/
theorem loadJsonChange_raises_on_malformed (parse : JsonParse) (render : RenderThrows)
    (state : JSValue) (text : Str) (h : parse text = none) :
    (loadJsonChange parse render state (some text)).raised = true ∧
    (loadJsonChange parse render state (some text)).state = state := by
  simp only [loadJsonChange, h, and_self]

/-- Witness for C10: the text `{` chosen while the store holds a project list. -/
theorem loadJsonChange_raises_on_malformed_witness :
    parseEmptyObjectOnly "\x7b".toList = none ∧
    (loadJsonChange parseEmptyObjectOnly renderThrowsOnNullRecord
      (.obj [("animation".toList, .arr [.str "kept".toList])]) (some "\x7b".toList)).raised = true ∧
    (loadJsonChange parseEmptyObjectOnly renderThrowsOnNullRecord
      (.obj [("animation".toList, .arr [.str "kept".toList])]) (some "\x7b".toList)).state =
      .obj [("animation".toList, .arr [.str "kept".toList])] :=
  ⟨if_neg (by decide),
   loadJsonChange_raises_on_malformed parseEmptyObjectOnly renderThrowsOnNullRecord _
     "\x7b".toList (if_neg (by decide))⟩

theorem loadFromSiteIfPossible_outcome (render : RenderThrows) (state : JSValue)
    (fetched : Option JSValue) :
    (loadFromSiteIfPossible render state fetched).state =
      (match fetched with
       | some json => ensureKeys json
       | none => state) ∧
    (loadFromSiteIfPossible render state fetched).raised =
      render (loadFromSiteIfPossible render state fetched).state := by
  cases fetched with
  | none => exact ⟨rfl, rfl⟩
  | some json =>
    refine ⟨rfl, ?_⟩
    simp only [loadFromSiteIfPossible]
    cases render (ensureKeys json) <;> rfl

theorem loadFromSiteIfPossible_raises_on_null_record :
    (loadFromSiteIfPossible renderThrowsOnNullRecord Store.initial
      (some (.obj [("animation".toList, .arr [.null])]))).raised = true ∧
    (loadFromSiteIfPossible renderThrowsOnNullRecord Store.initial
      (some (.obj [("animation".toList, .arr [.null])]))).state =
      storeOf [.null] [] [] [] := ⟨rfl, rfl⟩

/-! ## The slug of parseTemplate -/

theorem hyphenateFrom_true_eq (s : Str) :
    hyphenateFrom true s = hyphenateFrom false (s.dropWhile (fun d => !isAlnum d)) := by
  induction s with
  | nil => rfl
  | cons c cs ih =>
    by_cases h : isAlnum c = true
    · simp [hyphenateFrom, List.dropWhile, h]
    · have h2 : isAlnum c = false := by simpa using h
      simp only [hyphenateFrom, h2, List.dropWhile, Bool.not_false, if_true]
      simpa using ih

theorem referenceHyphenateFuel_eq (fuel : Nat) (s : Str) (h : s.length ≤ fuel) :
    referenceHyphenateFuel fuel s = hyphenateFrom false s := by
  induction fuel generalizing s with
  | zero =>
    have : s = [] := List.length_eq_zero.1 (Nat.le_zero.1 h)
    subst this
    rfl
  | succ fuel ih =>
    cases s with
    | nil => rfl
    | cons c cs =>
      have hcs : cs.length ≤ fuel := by simpa using h
      by_cases hc : isAlnum c = true
      · simp only [referenceHyphenateFuel, hyphenateFrom, if_pos hc]
        rw [ih cs hcs]
      · simp only [referenceHyphenateFuel, hyphenateFrom, if_neg hc]
        rw [ih _ (le_trans (List.dropWhile_sublist _).length_le hcs), hyphenateFrom_true_eq]
        simp

theorem referenceHyphenate_eq (s : Str) : referenceHyphenate s = hyphenateRuns s :=
  referenceHyphenateFuel_eq s.length s (le_refl _)

theorem hyphenateFrom_noDouble (b : Bool) (s : Str) :
    NoDoubleHyphen (hyphenateFrom b s) ∧ (b = true → (hyphenateFrom b s).head? ≠ some '-') := by
  induction s generalizing b with
  | nil => simp [hyphenateFrom, NoDoubleHyphen]
  | cons a s ih =>
    have hne : isAlnum a = true → a ≠ '-' := by
      intro h e
      subst e
      revert h
      decide
    unfold hyphenateFrom
    split_ifs with h1 h2
    · refine ⟨?_, fun _ => by simpa using hne h1⟩
      refine List.Chain'.cons' (ih false).1 ?_
      intro y _
      rintro ⟨e, -⟩
      exact hne h1 e
    · exact ⟨(ih true).1, fun _ => (ih true).2 rfl⟩
    · refine ⟨?_, fun hb => absurd hb h2⟩
      refine List.Chain'.cons' (ih true).1 ?_
      intro y hy
      have := (ih true).2 rfl
      rintro ⟨-, rfl⟩
      exact this (by simpa using hy)

theorem dropWhile_hyphen_of_head (l : Str) (h : l.head? ≠ some '-') :
    l.dropWhile (fun c => decide (c = '-')) = l := by
  cases l with
  | nil => rfl
  | cons a l =>
    have : ¬ a = '-' := by simpa using h
    simp [List.dropWhile, this]

theorem rdropWhile_hyphen_of_last (l : Str) (h : l.getLast? ≠ some '-') :
    (l.reverse.dropWhile (fun c => decide (c = '-'))).reverse = l := by
  rw [dropWhile_hyphen_of_head l.reverse (by simpa using h), List.reverse_reverse]

theorem stripEdgeHyphens_eq_reference (s : Str) (hs : NoDoubleHyphen s) :
    stripEdgeHyphens s = referenceStripHyphens s := by
  have key : ∀ t : Str, NoDoubleHyphen t →
      (if t.getLast? = some '-' then t.dropLast else t) =
        (t.reverse.dropWhile (fun c => decide (c = '-'))).reverse := by
    intro t ht
    split_ifs with h
    · rcases List.eq_nil_or_concat t with rfl | ⟨l, a, rfl⟩
      · simp at h
      · have ha : a = '-' := by simpa [Option.or] using h
        subst ha
        have hl := dropLast_getLast_ne_hyphen _ ht h
        rw [List.concat_eq_append, List.dropLast_concat] at hl ⊢
        rw [List.reverse_append]
        simp only [List.reverse_cons, List.reverse_nil, List.nil_append, List.singleton_append,
          List.dropWhile, decide_True]
        exact (rdropWhile_hyphen_of_last l hl).symm
    · exact (rdropWhile_hyphen_of_last t h).symm
  unfold stripEdgeHyphens referenceStripHyphens
  simp only
  by_cases h0 : s.head? = some '-'
  · rw [if_pos h0]
    match s, h0, hs with
    | a :: l, h0, hs =>
      have ha : a = '-' := by simpa using h0
      subst ha
      have hl : NoDoubleHyphen l := List.Chain'.tail hs
      have hh : l.head? ≠ some '-' := by
        intro hx
        match l, hx, hs with
        | b :: l2, hx, hs =>
          have hb : b = '-' := by simpa using hx
          subst hb
          have := List.chain'_cons.1 hs
          simp at this
      simp only [List.tail_cons, List.dropWhile, decide_True]
      rw [dropWhile_hyphen_of_head l hh]
      exact key l hl
  · rw [if_neg h0, dropWhile_hyphen_of_head s h0]
    exact key s hs

theorem slugify_eq_referenceSlug (U : LowerMap) (s : Str) :
    slugify U s = referenceSlug (stripAlnumExt (trim (toLowerCase U s))) := by
  unfold slugify referenceSlug
  rw [referenceHyphenate_eq]
  have hnd := (hyphenateFrom_noDouble false (stripAlnumExt (trim (toLowerCase U s)))).1
  have hsq : squeezeHyphens (hyphenateRuns (stripAlnumExt (trim (toLowerCase U s)))) =
      hyphenateRuns (stripAlnumExt (trim (toLowerCase U s))) :=
    squeezeFrom_slug false _ hnd (by simp)
  rw [hsq]
  exact stripEdgeHyphens_eq_reference _ hnd

theorem hyphenateFrom_true_append_left (w t : Str) (hw : ∀ c ∈ w, isAlnum c = false) :
    hyphenateFrom true (w ++ t) = hyphenateFrom true t := by
  induction w with
  | nil => rfl
  | cons c w ih =>
    have hc := hw c (List.mem_cons_self _ _)
    simp only [List.cons_append, hyphenateFrom, hc, Bool.false_eq_true, if_false, if_true]
    exact ih (fun d hd => hw d (List.mem_cons_of_mem _ hd))

theorem hyphenateFrom_nonAlnum (b : Bool) (w : Str) (hw : ∀ c ∈ w, isAlnum c = false) :
    hyphenateFrom b w = [] ∨ hyphenateFrom b w = ['-'] := by
  induction w generalizing b with
  | nil => exact Or.inl rfl
  | cons c w ih =>
    have hc := hw c (List.mem_cons_self _ _)
    have hw2 : ∀ d ∈ w, isAlnum d = false := fun d hd => hw d (List.mem_cons_of_mem _ hd)
    have htrue : hyphenateFrom true w = [] := by
      have := hyphenateFrom_true_append_left w [] hw2
      simpa [hyphenateFrom] using this
    cases b with
    | true =>
      left
      simp only [hyphenateFrom, hc, Bool.false_eq_true, if_false, if_true]
      exact htrue
    | false =>
      right
      simp only [hyphenateFrom, hc, Bool.false_eq_true, if_false]
      rw [htrue]

theorem hyphenateFrom_append_right (b : Bool) (t w : Str) (hw : ∀ c ∈ w, isAlnum c = false) :
    hyphenateFrom b (t ++ w) = hyphenateFrom b t ∨
    hyphenateFrom b (t ++ w) = hyphenateFrom b t ++ ['-'] := by
  induction t generalizing b with
  | nil =>
    rcases hyphenateFrom_nonAlnum b w hw with h | h
    · exact Or.inl (by simpa [hyphenateFrom] using h)
    · exact Or.inr (by simpa [hyphenateFrom] using h)
  | cons c t ih =>
    by_cases hc : isAlnum c = true
    · simp only [List.cons_append, hyphenateFrom, if_pos hc]
      rcases ih false with h | h
      · exact Or.inl (by simp only [List.append_eq, h])
      · exact Or.inr (by simp only [List.append_eq, h, List.cons_append])
    · cases b with
      | true =>
        simp only [List.cons_append, hyphenateFrom, if_neg hc, if_true]
        exact ih true
      | false =>
        simp only [List.cons_append, hyphenateFrom, if_neg hc, Bool.false_eq_true, if_false]
        rcases ih true with h | h
        · exact Or.inl (by simp only [List.append_eq, h])
        · exact Or.inr (by simp only [List.append_eq, h, List.cons_append])

theorem dropWhile_hyphen_hyphenateFrom (t : Str) :
    (hyphenateFrom false t).dropWhile (fun c => decide (c = '-')) = hyphenateFrom true t := by
  have hhead := (hyphenateFrom_noDouble true t).2 rfl
  cases t with
  | nil => rfl
  | cons c cs =>
    by_cases hc : isAlnum c = true
    · have e : hyphenateFrom false (c :: cs) = hyphenateFrom true (c :: cs) := by
        simp only [hyphenateFrom, if_pos hc]
      rw [e]
      exact dropWhile_hyphen_of_head _ hhead
    · have e : hyphenateFrom false (c :: cs) = '-' :: hyphenateFrom true (c :: cs) := by
        simp only [hyphenateFrom, if_neg hc, Bool.false_eq_true, if_false, if_true]
      rw [e]
      simp only [List.dropWhile, decide_True]
      exact dropWhile_hyphen_of_head _ hhead

theorem referenceSlug_eq (t : Str) :
    referenceSlug t = ((hyphenateFrom true t).reverse.dropWhile
      (fun c => decide (c = '-'))).reverse := by
  unfold referenceSlug referenceStripHyphens
  rw [referenceHyphenate_eq]
  unfold hyphenateRuns
  rw [dropWhile_hyphen_hyphenateFrom]

theorem referenceSlug_pad (lead core trail : Str) (hl : ∀ c ∈ lead, isAlnum c = false)
    (ht : ∀ c ∈ trail, isAlnum c = false) :
    referenceSlug (lead ++ (core ++ trail)) = referenceSlug core := by
  rw [referenceSlug_eq, referenceSlug_eq, hyphenateFrom_true_append_left lead _ hl]
  rcases hyphenateFrom_append_right true core trail ht with h | h
  · rw [h]
  · rw [h]
    simp [List.dropWhile]

theorem isAlnum_of_isWhiteSpace {c : Char} (h : isWhiteSpace c = true) : isAlnum c = false := by
  by_contra hc
  have hc2 : isAlnum c = true := by simpa using hc
  have := (slugChar_bounds (Or.inl hc2)).2.2.1
  rw [h] at this
  exact Bool.noConfusion this

theorem referenceSlug_trim (t : Str) : referenceSlug (trim t) = referenceSlug t := by
  have h1 := List.takeWhile_append_dropWhile isWhiteSpace t
  have h2 := List.takeWhile_append_dropWhile isWhiteSpace (t.dropWhile isWhiteSpace).reverse
  have h3 : t.dropWhile isWhiteSpace = trim t ++
      ((t.dropWhile isWhiteSpace).reverse.takeWhile isWhiteSpace).reverse := by
    have := congrArg List.reverse h2
    rw [List.reverse_append, List.reverse_reverse] at this
    exact this.symm
  have h4 : t = t.takeWhile isWhiteSpace ++ (trim t ++
      ((t.dropWhile isWhiteSpace).reverse.takeWhile isWhiteSpace).reverse) := by
    rw [← h3]
    exact h1.symm
  conv_rhs => rw [h4]
  refine (referenceSlug_pad _ _ _ ?_ ?_).symm
  · intro c hc
    exact isAlnum_of_isWhiteSpace (List.mem_takeWhile_imp hc)
  · intro c hc
    exact isAlnum_of_isWhiteSpace (List.mem_takeWhile_imp (List.mem_reverse.1 hc))

theorem stripAlnumExt_of_no_dot (s : Str) (h : '.' ∉ s) : stripAlnumExt s = s := by
  induction s with
  | nil => rfl
  | cons a s ih =>
    have ha : ¬ a = '.' := fun e => h (e ▸ List.mem_cons_self _ _)
    unfold stripAlnumExt
    rw [if_neg (fun hx => ha hx.1), ih (fun hm => h (List.mem_cons_of_mem _ hm))]

theorem trim_subset (s : Str) : ∀ c ∈ trim s, c ∈ s := by
  intro c hc
  unfold trim at hc
  have h1 := (List.dropWhile_sublist isWhiteSpace).subset (List.mem_reverse.1 hc)
  exact (List.dropWhile_sublist isWhiteSpace).subset (List.mem_reverse.1 h1)


/-- C19 as the specification states it fails: for `v1.2__Title` the slug is `v1`,
because `slugify` first cuts `.2` off as a file extension, while the reference
transformation of segment 0 is `v1-2`. -/
theorem parseTemplate_slug_not_reference :
    templateParts "v1.2__Title".toList = ["v1.2".toList, "Title".toList] ∧
    (parseTemplate keepNonAscii "v1.2__Title".toList).slug = "v1".toList ∧
    referenceSlug (toLowerCase keepNonAscii "v1.2".toList) = "v1-2".toList ∧
    (parseTemplate keepNonAscii "v1.2__Title".toList).slug ≠
      referenceSlug (toLowerCase keepNonAscii "v1.2".toList) := by
  refine ⟨by decide, by decide, by decide, by decide⟩

/-- C19, amended: in the template path the slug is the reference transformation
(runs of characters outside `a-z0-9` collapsed to single hyphens, edge hyphens
removed) of segment 0 lower-cased, trimmed and with a trailing extension, a
last dot followed only by letters and digits, cut off.  When the lower-cased
segment 0 holds no dot, the slug is the reference transformation of the
lower-cased segment 0 itself. -/
theorem parseTemplate_template_slug (U : LowerMap) (name p0 p1 : Str) (rest : List Str)
    (h : templateParts name = p0 :: p1 :: rest) :
    (parseTemplate U name).slug =
      referenceSlug (stripAlnumExt (trim (toLowerCase U p0))) ∧
    ('.' ∉ toLowerCase U p0 →
      (parseTemplate U name).slug = referenceSlug (toLowerCase U p0)) := by
  have hs : (parseTemplate U name).slug = slugify U p0 := by
    simp only [parseTemplate, h]
  rw [hs, slugify_eq_referenceSlug U p0]
  refine ⟨rfl, fun hdot => ?_⟩
  rw [stripAlnumExt_of_no_dot _ (fun hm => hdot (trim_subset _ _ hm)), referenceSlug_trim]

/-- Witness for C19: `my project__Title` has the slug `my-project`, the reference
transformation of its segment 0. -/
theorem parseTemplate_template_slug_witness :
    templateParts "My project__Title".toList = ["My project".toList, "Title".toList] ∧
    (parseTemplate keepNonAscii "My project__Title".toList).slug = "my-project".toList ∧
    (parseTemplate keepNonAscii "My project__Title".toList).slug =
      referenceSlug (toLowerCase keepNonAscii "My project".toList) :=
  ⟨by decide, by decide,
   (parseTemplate_template_slug keepNonAscii "My project__Title".toList "My project".toList
      "Title".toList [] (by decide)).2 (by decide)⟩

theorem stripLeadingYear_of_startsWithYear (name : Str) (h : StartsWithYear name) :
    stripLeadingYear name = dropYearAndSeparators name := by
  obtain ⟨a, b, c, d, rest, rfl, h1, h2, h3⟩ := h
  have := (yearPrefix_eq_some (a :: b :: c :: d :: rest) [a, b, c, d]).2
    ⟨a, b, c, d, rest, rfl, rfl, h1, h2, h3⟩
  simp only [stripLeadingYear, this, dropYearAndSeparators]

/-- C20 as the specification states it fails: for the name `2023` nothing is left
after the year, and the slug is `slugify` of the whole name, `2023`, not the
empty `slugify` of the remainder. -/
theorem parseTemplate_fallback_slug_not_remainder :
    (templateParts "2023".toList).length < 2 ∧
    StartsWithYear "2023".toList ∧
    (parseTemplate keepNonAscii "2023".toList).slug = "2023".toList ∧
    slugify keepNonAscii (dropYearAndSeparators "2023".toList) = [] ∧
    (parseTemplate keepNonAscii "2023".toList).slug ≠
      slugify keepNonAscii (dropYearAndSeparators "2023".toList) := by
  refine ⟨by decide, ⟨'2', '0', '2', '3', [], rfl, by decide, by decide, by decide⟩,
    by decide, by decide, by decide⟩

/-- C20, amended: in the fallback path, for a name that begins with a year
`19dd` or `20dd`, the slug is `slugify` of the name with that year and the
separators after it removed when that is not empty, and `slugify` of the whole
name when it is empty. -/
theorem parseTemplate_fallback_slug (U : LowerMap) (name : Str)
    (h : (templateParts name).length < 2) (hy : StartsWithYear name) :
    (slugify U (dropYearAndSeparators name) ≠ [] →
      (parseTemplate U name).slug = slugify U (dropYearAndSeparators name)) ∧
    (slugify U (dropYearAndSeparators name) = [] →
      (parseTemplate U name).slug = slugify U name) := by
  rw [parseTemplate_of_short U name h, stripLeadingYear_of_startsWithYear name hy]
  exact ⟨fun hne => if_pos hne, fun he => if_neg (fun hne => hne he)⟩

/-- Witness for C20, the example of the specification: `2023-my-thing` has the
slug `my-thing`. -/
theorem parseTemplate_fallback_slug_witness :
    (templateParts "2023-my-thing".toList).length < 2 ∧
    StartsWithYear "2023-my-thing".toList ∧
    slugify keepNonAscii (dropYearAndSeparators "2023-my-thing".toList) = "my-thing".toList ∧
    (parseTemplate keepNonAscii "2023-my-thing".toList).slug =
      slugify keepNonAscii (dropYearAndSeparators "2023-my-thing".toList) :=
  ⟨by decide, ⟨'2', '0', '2', '3', "-my-thing".toList, rfl, by decide, by decide, by decide⟩,
   by decide,
   (parseTemplate_fallback_slug keepNonAscii "2023-my-thing".toList (by decide)
      ⟨'2', '0', '2', '3', "-my-thing".toList, rfl, by decide, by decide, by decide⟩).1
      (by decide)⟩

/-! ## The store object -/

theorem canonicalStore_iff (s : JSValue) :
    CanonicalStore s ↔ ∃ a c p d : List JSValue, s = storeOf a c p d := Iff.rfl

theorem getProp_storeOf (a c p d : List JSValue) (cat : Cat) :
    getProp (storeOf a c p d) cat.key =
      .arr (match cat with
        | .animation => a
        | .cad => c
        | .prints => p
        | .code => d) := by
  cases cat <;> rfl

theorem modify_storeOf (a c p d : List JSValue) (cat : Cat)
    (f : List JSValue → List JSValue) :
    Store.modify (storeOf a c p d) cat f =
      some (match cat with
        | .animation => storeOf (f a) c p d
        | .cad => storeOf a (f c) p d
        | .prints => storeOf a c (f p) d
        | .code => storeOf a c p (f d)) := by
  cases cat <;> rfl

theorem modify_spec (s : JSValue) (hs : CanonicalStore s) (cat : Cat)
    (f : List JSValue → List JSValue) :
    ∃ (t : JSValue) (items : List JSValue), Store.modify s cat f = some t ∧
      CanonicalStore t ∧ getProp s cat.key = .arr items ∧
      getProp t cat.key = .arr (f items) ∧
      (f items = items → t = s) ∧
      ∀ cat2 : Cat, cat2 ≠ cat → getProp t cat2.key = getProp s cat2.key := by
  obtain ⟨a, c, p, d, rfl⟩ := hs
  change ∃ (t : JSValue) (items : List JSValue), Store.modify (storeOf a c p d) cat f = some t ∧ _
  rw [modify_storeOf]
  cases cat
  · refine ⟨_, a, rfl, ⟨_, _, _, _, rfl⟩, rfl, rfl, fun h => by rw [h]; rfl, fun cat2 h2 => ?_⟩
    cases cat2 <;> first | rfl | exact absurd rfl h2
  · refine ⟨_, c, rfl, ⟨_, _, _, _, rfl⟩, rfl, rfl, fun h => by rw [h]; rfl, fun cat2 h2 => ?_⟩
    cases cat2 <;> first | rfl | exact absurd rfl h2
  · refine ⟨_, p, rfl, ⟨_, _, _, _, rfl⟩, rfl, rfl, fun h => by rw [h]; rfl, fun cat2 h2 => ?_⟩
    cases cat2 <;> first | rfl | exact absurd rfl h2
  · refine ⟨_, d, rfl, ⟨_, _, _, _, rfl⟩, rfl, rfl, fun h => by rw [h]; rfl, fun cat2 h2 => ?_⟩
    cases cat2 <;> first | rfl | exact absurd rfl h2

theorem canonicalStore_ensureKeys (json : JSValue) : CanonicalStore (ensureKeys json) := by
  have harr : ∀ v : JSValue, ∃ items, arrayOrEmpty v = .arr items := by
    intro v
    cases v <;> simp [arrayOrEmpty]
  obtain ⟨a, ha⟩ := harr (getProp json Cat.animation.key)
  obtain ⟨c, hc⟩ := harr (getProp json Cat.cad.key)
  obtain ⟨p, hp⟩ := harr (getProp json Cat.prints.key)
  obtain ⟨d, hd⟩ := harr (getProp json Cat.code.key)
  refine ⟨a, c, p, d, ?_⟩
  simp only [ensureKeys, categoryKeys, List.map_cons, List.map_nil, ha, hc, hp, hd]
  rfl

theorem canonicalStore_of_reachable (s : JSValue) (h : Store.Reachable s) :
    CanonicalStore s := by
  induction h with
  | initial => exact ⟨[], [], [], [], rfl⟩
  | load s json _ _ => exact canonicalStore_ensureKeys json
  | addProjects s t cat projects _ hstep ih =>
    obtain ⟨t2, _, h1, h2, -⟩ := modify_spec s ih cat (fun items => items ++ projects)
    have : t = t2 := Option.some.inj (hstep.symm.trans h1)
    exact this ▸ h2
  | move s t cat idx dir _ hstep ih =>
    obtain ⟨t2, _, h1, h2, -⟩ := modify_spec s ih cat (fun items => moveList items idx dir)
    have : t = t2 := Option.some.inj (hstep.symm.trans h1)
    exact this ▸ h2
  | remove s t cat idx _ hstep ih =>
    obtain ⟨t2, _, h1, h2, -⟩ := modify_spec s ih cat (fun items => items.eraseIdx idx)
    have : t = t2 := Option.some.inj (hstep.symm.trans h1)
    exact this ▸ h2
  | updateProject s t cat idx patch _ hstep ih =>
    obtain ⟨t2, _, h1, h2, -⟩ := modify_spec s ih cat
      (fun items => arraySet items idx (objectSpread (arrayGet items idx) patch))
    have : t = t2 := Option.some.inj (hstep.symm.trans h1)
    exact this ▸ h2

/-- C16: the category-store invariant.  Every state reachable from the initial
empty store by `load`, `addProjects`, `move`, `remove` and `updateProject`
steps is an object with exactly the four keys `animation`, `cad`, `prints`,
`code`, each holding an array; on such a state each of the four operations on
a category succeeds, again gives such a state, and leaves the arrays of the
other three categories unchanged. -/
theorem store_invariant (s : JSValue) (h : Store.Reachable s) :
    s.keys = ["animation".toList, "cad".toList, "prints".toList, "code".toList] ∧
    (∀ cat : Cat, ∃ items : List JSValue, getProp s cat.key = .arr items) ∧
    (∀ (cat : Cat) (projects : List JSValue), ∃ t, Store.addProjects s cat projects = some t ∧
      CanonicalStore t ∧
      ∀ cat2 : Cat, cat2 ≠ cat → getProp t cat2.key = getProp s cat2.key) ∧
    (∀ (cat : Cat) (idx : Nat) (dir : Int), ∃ t, Store.move s cat idx dir = some t ∧
      CanonicalStore t ∧
      ∀ cat2 : Cat, cat2 ≠ cat → getProp t cat2.key = getProp s cat2.key) ∧
    (∀ (cat : Cat) (idx : Nat), ∃ t, Store.remove s cat idx = some t ∧
      CanonicalStore t ∧
      ∀ cat2 : Cat, cat2 ≠ cat → getProp t cat2.key = getProp s cat2.key) ∧
    (∀ (cat : Cat) (idx : Nat) (patch : JSValue), ∃ t,
      Store.updateProject s cat idx patch = some t ∧ CanonicalStore t ∧
      ∀ cat2 : Cat, cat2 ≠ cat → getProp t cat2.key = getProp s cat2.key) := by
  have hs := canonicalStore_of_reachable s h
  have hop : ∀ (cat : Cat) (f : List JSValue → List JSValue), ∃ t,
      Store.modify s cat f = some t ∧ CanonicalStore t ∧
      ∀ cat2 : Cat, cat2 ≠ cat → getProp t cat2.key = getProp s cat2.key := by
    intro cat f
    obtain ⟨t, _, h1, h2, _, _, _, h6⟩ := modify_spec s hs cat f
    exact ⟨t, h1, h2, h6⟩
  refine ⟨?_, ?_, fun cat projects => hop cat _, fun cat idx dir => hop cat _,
    fun cat idx => hop cat _, fun cat idx patch => hop cat _⟩
  · obtain ⟨a, c, p, d, rfl⟩ := hs
    rfl
  · intro cat
    obtain ⟨a, c, p, d, rfl⟩ := hs
    exact ⟨_, getProp_storeOf a c p d cat⟩

/-- Witness for C16: the store after a load of `{"cad": [1], "extra": 2}` and an
`addProjects` into `prints`. -/
theorem store_invariant_witness :
    Store.Reachable (storeOf [] [.num 1] [.str "p".toList] []) ∧
    (storeOf [] [.num 1] [.str "p".toList] []).keys =
      ["animation".toList, "cad".toList, "prints".toList, "code".toList] :=
  have hr : Store.Reachable (storeOf [] [.num 1] [.str "p".toList] []) :=
    Store.Reachable.addProjects
      (Store.load (.obj [("cad".toList, .arr [.num 1]), ("extra".toList, .num 2)]))
      _ .prints [.str "p".toList]
      (Store.Reachable.load Store.initial _ Store.Reachable.initial) rfl
  ⟨hr, (store_invariant _ hr).1⟩

/-! ## move -/

theorem arrayGet_of_lt (l : List JSValue) (i : Nat) (h : i < l.length) :
    arrayGet l i = l.get ⟨i, h⟩ := by
  simp [arrayGet, List.getD_eq_getElem?_getD, List.getElem?_eq_getElem h]

theorem arraySet_of_lt (l : List JSValue) (i : Nat) (v : JSValue) (h : i < l.length) :
    arraySet l i v = l.set i v := by
  simp [arraySet, h]

theorem swap_adjacent_perm (l : List JSValue) (i : Nat) (h : i + 1 < l.length) :
    ((l.set i (l.get ⟨i + 1, h⟩)).set (i + 1) (l.get ⟨i, Nat.lt_of_succ_lt h⟩)).Perm l ∧
    ((l.set (i + 1) (l.get ⟨i, Nat.lt_of_succ_lt h⟩)).set i (l.get ⟨i + 1, h⟩)).Perm l := by
  induction l generalizing i with
  | nil => simp at h
  | cons x l ih =>
    cases i with
    | zero =>
      match l, h with
      | y :: rest, _ =>
        simp only [List.set_cons_zero, List.set_cons_succ, List.get_eq_getElem,
          List.getElem_cons_zero, List.getElem_cons_succ]
        exact ⟨List.Perm.swap _ _ _, List.Perm.swap _ _ _⟩
    | succ i =>
      have h2 : i + 1 < l.length := by simpa using h
      obtain ⟨p1, p2⟩ := ih i h2
      simp only [List.set_cons_succ, List.get_eq_getElem, List.getElem_cons_succ] at p1 p2 ⊢
      exact ⟨List.Perm.cons _ p1, List.Perm.cons _ p2⟩

theorem moveList_down (l : List JSValue) (i : Nat) (h : i + 1 < l.length) :
    moveList l i 1 = (l.set i (l.get ⟨i + 1, h⟩)).set (i + 1) (l.get ⟨i, Nat.lt_of_succ_lt h⟩) := by
  have hni : ((i : Int) + 1).toNat = i + 1 := by omega
  have hcond : ¬ ((i : Int) + 1 < 0 ∨ (i : Int) + 1 ≥ (l.length : Int)) := by omega
  simp only [moveList, if_neg hcond, hni]
  rw [arrayGet_of_lt l (i + 1) h, arrayGet_of_lt l i (Nat.lt_of_succ_lt h),
    arraySet_of_lt l i _ (Nat.lt_of_succ_lt h), arraySet_of_lt _ (i + 1) _ (by simpa using h)]

theorem moveList_up (l : List JSValue) (i : Nat) (h : i + 1 < l.length) :
    moveList l (i + 1) (-1) =
      (l.set (i + 1) (l.get ⟨i, Nat.lt_of_succ_lt h⟩)).set i (l.get ⟨i + 1, h⟩) := by
  have hni : (((i + 1 : Nat) : Int) + -1).toNat = i := by omega
  have hcond : ¬ (((i + 1 : Nat) : Int) + -1 < 0 ∨
      ((i + 1 : Nat) : Int) + -1 ≥ (l.length : Int)) := by omega
  simp only [moveList, if_neg hcond, hni]
  rw [arrayGet_of_lt l (i + 1) h, arrayGet_of_lt l i (Nat.lt_of_succ_lt h),
    arraySet_of_lt l (i + 1) _ h, arraySet_of_lt _ i _ (by simp; omega)]

theorem moveList_out_of_range (l : List JSValue) (i : Nat) (d : Int)
    (h : (i : Int) + d < 0 ∨ (l.length : Int) ≤ (i : Int) + d) : moveList l i d = l := by
  have hcond : (i : Int) + d < 0 ∨ (i : Int) + d ≥ (l.length : Int) := h
  simp only [moveList, if_pos hcond]

/-- What `move` does to the list of its category, for an index of the list and a
direction `-1` or `+1`. -/
theorem moveList_spec (l : List JSValue) (i : Nat) (hi : i < l.length) (d : Int)
    (hd : d = -1 ∨ d = 1) :
    ((0 ≤ (i : Int) + d ∧ (i : Int) + d < l.length) →
      (moveList l i d).length = l.length ∧
      (moveList l i d)[i]? = l[((i : Int) + d).toNat]? ∧
      (moveList l i d)[((i : Int) + d).toNat]? = l[i]? ∧
      (∀ j : Nat, j ≠ i → j ≠ ((i : Int) + d).toNat → (moveList l i d)[j]? = l[j]?) ∧
      (moveList l i d).Perm l) ∧
    (((i : Int) + d < 0 ∨ (l.length : Int) ≤ (i : Int) + d) → moveList l i d = l) := by
  refine ⟨fun hr => ?_, moveList_out_of_range l i d⟩
  rcases hd with rfl | rfl
  · obtain ⟨k, rfl⟩ : ∃ k, i = k + 1 := ⟨i - 1, by omega⟩
    have hk : k + 1 < l.length := hi
    have hni : (((k + 1 : Nat) : Int) + -1).toNat = k := by omega
    rw [hni, moveList_up l k hk]
    refine ⟨by simp, ?_, ?_, fun j h1 h2 => ?_, (swap_adjacent_perm l k hk).2⟩
    · rw [List.getElem?_set_ne (by omega), List.getElem?_set_self hk]
      simp [List.getElem?_eq_getElem (Nat.lt_of_succ_lt hk)]
    · rw [List.getElem?_set_self (by simp; omega)]
      simp [List.getElem?_eq_getElem hk]
    · rw [List.getElem?_set_ne (fun e => h2 e.symm), List.getElem?_set_ne (fun e => h1 e.symm)]
  · have hk : i + 1 < l.length := by omega
    have hni : ((i : Int) + 1).toNat = i + 1 := by omega
    rw [hni, moveList_down l i hk]
    refine ⟨by simp, ?_, ?_, fun j h1 h2 => ?_, (swap_adjacent_perm l i hk).1⟩
    · rw [List.getElem?_set_ne (by omega), List.getElem?_set_self hi]
      simp [List.getElem?_eq_getElem hk]
    · rw [List.getElem?_set_self (by simp; omega)]
      simp [List.getElem?_eq_getElem hi]
    · rw [List.getElem?_set_ne (fun e => h2 e.symm), List.getElem?_set_ne (fun e => h1 e.symm)]

/-- C15: `move` on a category whose list is `l`, for an index `i` of the list
and a direction `d` of `-1` or `+1`.  The call succeeds and touches no other
category.  When `i + d` is an index of the list, the new list has the same
length, holds at `i` what was at `i + d` and at `i + d` what was at `i`, is
unchanged at every other position, and is a permutation of `l`.  When `i + d`
is out of range the store is unchanged. -/
theorem move_swaps_or_keeps (s : JSValue) (hs : CanonicalStore s) (cat : Cat)
    (l : List JSValue) (hl : getProp s cat.key = .arr l) (i : Nat) (hi : i < l.length)
    (d : Int) (hd : d = -1 ∨ d = 1) :
    ∃ (t : JSValue) (l2 : List JSValue), Store.move s cat i d = some t ∧
      getProp t cat.key = .arr l2 ∧
      (∀ cat2 : Cat, cat2 ≠ cat → getProp t cat2.key = getProp s cat2.key) ∧
      ((0 ≤ (i : Int) + d ∧ (i : Int) + d < l.length) →
        l2.length = l.length ∧
        l2[i]? = l[((i : Int) + d).toNat]? ∧
        l2[((i : Int) + d).toNat]? = l[i]? ∧
        (∀ j : Nat, j ≠ i → j ≠ ((i : Int) + d).toNat → l2[j]? = l[j]?) ∧
        l2.Perm l) ∧
      (((i : Int) + d < 0 ∨ (l.length : Int) ≤ (i : Int) + d) → l2 = l ∧ t = s) := by
  obtain ⟨t, items, h1, _, h3, h4, h5, h6⟩ :=
    modify_spec s hs cat (fun items => moveList items i d)
  have hitems : items = l := by
    rw [h3] at hl
    exact JSValue.arr.inj hl
  subst hitems
  obtain ⟨m1, m2⟩ := moveList_spec items i hi d hd
  refine ⟨t, moveList items i d, h1, h4, h6, m1, fun ho => ⟨m2 ho, h5 (m2 ho)⟩⟩

/-- Witness for C15: in the list `x, y` of `cad`, moving index 0 down gives
`y, x`; moving index 0 up leaves the store as it is. -/
theorem move_swaps_or_keeps_witness :
    Store.move (storeOf [] [.str "x".toList, .str "y".toList] [] []) .cad 0 1 =
      some (storeOf [] [.str "y".toList, .str "x".toList] [] []) ∧
    Store.move (storeOf [] [.str "x".toList, .str "y".toList] [] []) .cad 0 (-1) =
      some (storeOf [] [.str "x".toList, .str "y".toList] [] []) ∧
    ∃ (t : JSValue) (l2 : List JSValue),
      Store.move (storeOf [] [.str "x".toList, .str "y".toList] [] []) .cad 0 1 = some t ∧
      getProp t Cat.cad.key = .arr l2 ∧ l2.Perm [.str "x".toList, .str "y".toList] := by
  refine ⟨rfl, rfl, ?_⟩
  obtain ⟨t, l2, h1, h2, -, h4, -⟩ :=
    move_swaps_or_keeps (storeOf [] [.str "x".toList, .str "y".toList] [] [])
      ⟨_, _, _, _, rfl⟩ .cad [.str "x".toList, .str "y".toList] rfl 0 (by decide) 1
      (Or.inr rfl)
  exact ⟨t, l2, h1, h2, (h4 ⟨by decide, by decide⟩).2.2.2.2⟩

/-! ## Export and load -/

theorem ensureKeys_getProp (s : JSValue) (cat : Cat) :
    getProp (ensureKeys s) cat.key = arrayOrEmpty (getProp s cat.key) := by
  cases cat <;> rfl

theorem ensureKeys_of_canonical (s : JSValue) (hs : CanonicalStore s) : ensureKeys s = s := by
  obtain ⟨a, c, p, d, rfl⟩ := hs
  rfl

theorem canonicalStore_of_schemaValid (s : JSValue) (hv : SchemaValid s)
    (hk : s.keys = categoryKeys) : CanonicalStore s := by
  obtain ⟨-, -, harr⟩ := hv
  cases s with
  | obj props =>
    simp only [JSValue.keys, categoryKeys, List.map_cons, List.map_nil] at hk
    match props, hk with
    | [(k1, v1), (k2, v2), (k3, v3), (k4, v4)], hk =>
      simp only [List.map_cons, List.map_nil, List.cons.injEq, and_true] at hk
      obtain ⟨rfl, rfl, rfl, rfl⟩ := hk
      obtain ⟨a, ha⟩ := harr .animation
      obtain ⟨c, hc⟩ := harr .cad
      obtain ⟨p, hp⟩ := harr .prints
      obtain ⟨d, hd⟩ := harr .code
      have ha2 : v1 = .arr a := ha
      have hc2 : v2 = .arr c := hc
      have hp2 : v3 = .arr p := hp
      have hd2 : v4 = .arr d := hd
      subst ha2 hc2 hp2 hd2
      exact ⟨a, c, p, d, rfl⟩
  | undefined => simp [JSValue.keys, categoryKeys] at hk
  | null => simp [JSValue.keys, categoryKeys] at hk
  | bool b => simp [JSValue.keys, categoryKeys] at hk
  | num q => simp [JSValue.keys, categoryKeys] at hk
  | str t => simp [JSValue.keys, categoryKeys] at hk
  | arr items => simp [JSValue.keys, categoryKeys] at hk

/-! ## JSON text read back -/

/-! ## Round trip -/

theorem skipWhiteSpace_cons (c : Char) (r : Str) (h : isJsonWhiteSpace c = false) :
    skipWhiteSpace (c :: r) = c :: r := by
  simp [skipWhiteSpace, List.dropWhile_cons, h]

theorem skipWhiteSpace_append (w s : Str) (h : ∀ c ∈ w, isJsonWhiteSpace c = true) :
    skipWhiteSpace (w ++ s) = skipWhiteSpace s := by
  induction w with
  | nil => rfl
  | cons c cs ih =>
    have hc := h c (List.mem_cons_self _ _)
    simp only [skipWhiteSpace, List.cons_append, List.dropWhile_cons, hc, if_true]
    exact ih (fun d hd => h d (List.mem_cons_of_mem _ hd))

theorem isJsonWhiteSpace_indentation (n : Nat) :
    ∀ c ∈ indentation n, isJsonWhiteSpace c = true := by
  intro c hc
  rw [indentation, List.mem_replicate] at hc
  rw [hc.2]
  rfl

theorem isJsonWhiteSpace_newline_indentation (n : Nat) :
    ∀ c ∈ '\n' :: indentation n, isJsonWhiteSpace c = true := by
  intro c hc
  rcases List.mem_cons.1 hc with h | h
  · rw [h]; rfl
  · exact isJsonWhiteSpace_indentation n c h

theorem hexValue4_unicodeEscape (n : Nat) (h : n < 32) :
    hexValue4 (hexDigit (n / 4096 % 16)) (hexDigit (n / 256 % 16)) (hexDigit (n / 16 % 16))
      (hexDigit (n % 16)) = some n := by
  interval_cases n <;> rfl

theorem shortEscape_unescape (c e : Char) (h : shortEscape c = some e) :
    e ≠ 'u' ∧ unescape e = some c := by
  have hc : ∀ n : Nat, c.toNat = n → c = Char.ofNat n := by
    intro n hn
    rw [← hn, Char.ofNat_toNat]
  unfold shortEscape at h
  split_ifs at h with h1 h2 h3 h4 h5 h6 h7 <;> cases h
  · exact ⟨by decide, by rw [hc 8 h1]; rfl⟩
  · exact ⟨by decide, by rw [hc 9 h2]; rfl⟩
  · exact ⟨by decide, by rw [hc 10 h3]; rfl⟩
  · exact ⟨by decide, by rw [hc 12 h4]; rfl⟩
  · exact ⟨by decide, by rw [hc 13 h5]; rfl⟩
  · exact ⟨by decide, by rw [h6]; rfl⟩
  · exact ⟨by decide, by rw [h7]; rfl⟩

theorem shortEscape_none (c : Char) (h : shortEscape c = none) : c ≠ '"' ∧ c ≠ '\\' := by
  unfold shortEscape at h
  split_ifs at h with h1 h2 h3 h4 h5 h6 h7
  exact ⟨h6, h7⟩

theorem parseHex4_unicodeEscape (n : Nat) (h : n < 32) (rest : Str) :
    parseHex4 (hexDigit (n / 4096 % 16) :: hexDigit (n / 256 % 16) :: hexDigit (n / 16 % 16) ::
      hexDigit (n % 16) :: rest) = some (n, rest) := by
  simp only [parseHex4, hexValue4_unicodeEscape n h]

theorem parseStringCharsFuel_quoteChars (s rest : Str) (fuel : Nat) (h : s.length < fuel) :
    parseStringCharsFuel fuel (quoteChars s ++ '"' :: rest) = some (s, rest) := by
  induction s generalizing fuel with
  | nil =>
    obtain ⟨f, rfl⟩ : ∃ f, fuel = f + 1 := ⟨fuel - 1, by simp at h; omega⟩
    simp [quoteChars, parseStringCharsFuel]
  | cons c cs ih =>
    obtain ⟨f, rfl⟩ : ∃ f, fuel = f + 1 := ⟨fuel - 1, by simp at h; omega⟩
    have hf : cs.length < f := by simp at h; omega
    cases hse : shortEscape c with
    | some e =>
      obtain ⟨hu, hun⟩ := shortEscape_unescape c e hse
      simp only [quoteChars, quoteChar, hse, List.cons_append, List.nil_append,
        parseStringCharsFuel, parseEscape]
      simp only [show ¬ ('\\' = '"') by decide, if_false, if_true, hu, hun, ih f hf, consChar]
    | none =>
      obtain ⟨hq, hb⟩ := shortEscape_none c hse
      by_cases hlt : c.toNat < 32
      · simp only [quoteChars, quoteChar, hse, hlt, if_true, unicodeEscape, List.cons_append,
          List.nil_append, parseStringCharsFuel, parseEscape]
        simp only [show ¬ ('\\' = '"') by decide, if_false, if_true,
          parseHex4_unicodeEscape c.toNat hlt]
        rw [if_pos (Or.inl (by omega))]
        simp only [ih f hf, Char.ofNat_toNat, consChar]
      · simp only [quoteChars, quoteChar, hse, hlt, if_false, List.cons_append,
          List.nil_append, parseStringCharsFuel]
        simp only [hq, hb, hlt, if_false, ih f hf, consChar]

theorem length_le_quoteChars (s : Str) : s.length ≤ (quoteChars s).length := by
  induction s with
  | nil => simp [quoteChars]
  | cons c cs ih =>
    have h1 : 1 ≤ (quoteChar c).length := by
      unfold quoteChar
      cases shortEscape c with
      | some e => simp
      | none => split_ifs <;> simp [unicodeEscape]
    simp only [quoteChars, List.length_append, List.length_cons]
    omega

theorem parseStringChars_quoteChars (s rest : Str) :
    parseStringChars (quoteChars s ++ '"' :: rest) = some (s, rest) := by
  unfold parseStringChars
  apply parseStringCharsFuel_quoteChars
  have := length_le_quoteChars s
  simp only [List.length_append, List.length_cons]
  omega


theorem afterDigits_eq (s r : Str) (h : afterDigits s = some r) :
    ∃ pre, s = pre ++ r ∧ ∀ c ∈ pre, isNumberChar c = true := by
  unfold afterDigits at h
  split_ifs at h
  cases h
  refine ⟨s.takeWhile isDigit, (List.takeWhile_append_dropWhile _ _).symm, fun c hc => ?_⟩
  have := List.mem_takeWhile_imp hc
  simp [isNumberChar, this]

theorem afterIntegerPart_eq (s r : Str) (h : afterIntegerPart s = some r) :
    ∃ c pre, s = c :: (pre ++ r) ∧ isDigit c = true ∧ ∀ d ∈ pre, isNumberChar d = true := by
  cases s with
  | nil => simp [afterIntegerPart] at h
  | cons c cs =>
    simp only [afterIntegerPart] at h
    split_ifs at h with h0 h1
    · cases h
      exact ⟨c, [], rfl, by rw [h0]; rfl, by simp⟩
    · cases h
      refine ⟨c, cs.takeWhile isDigit, by rw [List.takeWhile_append_dropWhile], h1,
        fun d hd => ?_⟩
      have := List.mem_takeWhile_imp hd
      simp [isNumberChar, this]

theorem afterFraction_eq (s r : Str) (h : afterFraction s = some r) :
    ∃ pre, s = pre ++ r ∧ ∀ c ∈ pre, isNumberChar c = true := by
  cases s with
  | nil =>
    simp only [afterFraction, Option.some.injEq] at h
    exact ⟨[], by simp [h], by simp⟩
  | cons c cs =>
    simp only [afterFraction] at h
    split_ifs at h with h0
    · obtain ⟨pre, he, hp⟩ := afterDigits_eq cs r h
      refine ⟨c :: pre, by rw [he]; rfl, fun d hd => ?_⟩
      rcases List.mem_cons.1 hd with e | e
      · rw [e, h0]; rfl
      · exact hp d e
    · cases h
      exact ⟨[], rfl, by simp⟩

theorem afterExponent_eq (s r : Str) (h : afterExponent s = some r) :
    ∃ pre, s = pre ++ r ∧ ∀ c ∈ pre, isNumberChar c = true := by
  cases s with
  | nil =>
    simp only [afterExponent, Option.some.injEq] at h
    exact ⟨[], by simp [h], by simp⟩
  | cons c cs =>
    simp only [afterExponent] at h
    split_ifs at h with h0
    · have hc : isNumberChar c = true := by
        rcases h0 with e | e <;> rw [e] <;> rfl
      cases cs with
      | nil => simp at h
      | cons d ds =>
        simp only at h
        split_ifs at h with h1
        · obtain ⟨pre, he, hp⟩ := afterDigits_eq ds r h
          have hd : isNumberChar d = true := by
            rcases h1 with e | e <;> rw [e] <;> rfl
          refine ⟨c :: d :: pre, by rw [he]; rfl, fun x hx => ?_⟩
          rcases List.mem_cons.1 hx with e | e
          · rw [e]; exact hc
          · rcases List.mem_cons.1 e with e | e
            · rw [e]; exact hd
            · exact hp x e
        · obtain ⟨pre, he, hp⟩ := afterDigits_eq (d :: ds) r h
          refine ⟨c :: pre, by rw [he]; rfl, fun x hx => ?_⟩
          rcases List.mem_cons.1 hx with e | e
          · rw [e]; exact hc
          · exact hp x e
    · cases h
      exact ⟨[], rfl, by simp⟩

theorem isJsonNumber_chars (t : Str) (h : isJsonNumber t = true) :
    (∃ c r, t = c :: r ∧ (c = '-' ∨ isDigit c = true)) ∧ ∀ c ∈ t, isNumberChar c = true := by
  have key : ∀ t1 : Str, (match afterIntegerPart t1 with
      | none => false
      | some r1 =>
        match afterFraction r1 with
        | none => false
        | some r2 =>
          match afterExponent r2 with
          | some [] => true
          | _ => false) = true →
      (∃ c r, t1 = c :: r ∧ isDigit c = true) ∧ ∀ c ∈ t1, isNumberChar c = true := by
    intro t1 h1
    cases hi : afterIntegerPart t1 with
    | none => simp [hi] at h1
    | some r1 =>
      cases hf : afterFraction r1 with
      | none => simp [hi, hf] at h1
      | some r2 =>
        cases he : afterExponent r2 with
        | none => simp [hi, hf, he] at h1
        | some r3 =>
          cases r3 with
          | cons x xs => simp [hi, hf, he] at h1
          | nil =>
            obtain ⟨c, p1, e1, hc, hp1⟩ := afterIntegerPart_eq t1 r1 hi
            obtain ⟨p2, e2, hp2⟩ := afterFraction_eq r1 r2 hf
            obtain ⟨p3, e3, hp3⟩ := afterExponent_eq r2 [] he
            refine ⟨⟨c, _, e1, hc⟩, fun d hd => ?_⟩
            rw [e1, e2, e3] at hd
            simp only [List.append_nil, List.mem_cons, List.mem_append] at hd
            rcases hd with e | e | e | e
            · rw [e]; simp [isNumberChar, hc]
            · exact hp1 d e
            · exact hp2 d e
            · exact hp3 d e
  cases t with
  | nil =>
    have := key [] h
    obtain ⟨⟨c, r, e, -⟩, -⟩ := this
    cases e
  | cons c cs =>
    by_cases hm : c = '-'
    · have h2 : isJsonNumber (c :: cs) = true := h
      simp only [isJsonNumber, hm, if_true] at h2
      obtain ⟨-, hall⟩ := key cs h2
      refine ⟨⟨c, cs, rfl, Or.inl hm⟩, fun d hd => ?_⟩
      rcases List.mem_cons.1 hd with e | e
      · rw [e, hm]; rfl
      · exact hall d e
    · have h2 : isJsonNumber (c :: cs) = true := h
      simp only [isJsonNumber, hm, if_false] at h2
      obtain ⟨⟨c1, r, e, hc⟩, hall⟩ := key (c :: cs) h2
      cases e
      exact ⟨⟨c, cs, rfl, Or.inr hc⟩, hall⟩

theorem takeWhile_number (t rest : Str) (ht : ∀ c ∈ t, isNumberChar c = true)
    (hr : NoNumberCharAhead rest) :
    (t ++ rest).takeWhile isNumberChar = t ∧ (t ++ rest).dropWhile isNumberChar = rest := by
  induction t with
  | nil =>
    cases rest with
    | nil => exact ⟨rfl, rfl⟩
    | cons c r =>
      have := hr c r rfl
      simp [List.takeWhile_cons, List.dropWhile_cons, this]
  | cons c cs ih =>
    have hc := ht c (List.mem_cons_self _ _)
    obtain ⟨h1, h2⟩ := ih (fun d hd => ht d (List.mem_cons_of_mem _ hd))
    simp only [List.cons_append, List.takeWhile_cons, List.dropWhile_cons, hc, if_true, h1, h2,
      and_self]

theorem parseValue_append_ws (F : NumberFormat) (fuel : Nat) (w s : Str)
    (h : ∀ c ∈ w, isJsonWhiteSpace c = true) :
    parseValue F fuel (w ++ s) = parseValue F fuel s := by
  cases fuel with
  | zero => simp [parseValue]
  | succ f =>
    rw [parseValue, parseValue, skipWhiteSpace_append w s h]

theorem parseMembers_append_ws (F : NumberFormat) (fuel : Nat) (w s : Str)
    (h : ∀ c ∈ w, isJsonWhiteSpace c = true) :
    parseMembers F fuel (w ++ s) = parseMembers F fuel s := by
  cases fuel with
  | zero => simp [parseMembers]
  | succ f =>
    rw [parseMembers, parseMembers, skipWhiteSpace_append w s h]

theorem parseValue_head (F : NumberFormat) (fuel : Nat) (s : Str) (p : JSValue × Str)
    (h : parseValue F fuel s = some p) :
    ∃ d r, skipWhiteSpace s = d :: r ∧ d ≠ ']' := by
  cases fuel with
  | zero => simp [parseValue] at h
  | succ f =>
    rw [parseValue] at h
    cases hs : skipWhiteSpace s with
    | nil => simp [hs] at h
    | cons d r =>
      refine ⟨d, r, rfl, fun hd => ?_⟩
      subst hd
      simp [hs, isDigit] at h

theorem serializeElements_eq (F : NumberFormat) (ind : Nat) (items : List JSValue)
    (h : ∀ x ∈ items, RoundTrips F x) :
    serializeElements F ind items = items.map (textOf F ind) := by
  induction items with
  | nil => simp [serializeElements]
  | cons x xs ih =>
    rw [serializeElements, ih (fun y hy => h y (List.mem_cons_of_mem _ hy)),
      (h x (List.mem_cons_self _ _) ind).1]
    rfl

theorem serializeMembers_eq (F : NumberFormat) (ind : Nat) (props : List (Str × JSValue))
    (h : ∀ kv ∈ props, RoundTrips F kv.2) :
    serializeMembers F ind props = props.map (fun kv => (kv.1, textOf F ind kv.2)) := by
  induction props with
  | nil => simp [serializeMembers]
  | cons kv rest ih =>
    obtain ⟨k, v⟩ := kv
    rw [serializeMembers, ih (fun y hy => h y (List.mem_cons_of_mem _ hy))]
    have := (h (k, v) (List.mem_cons_self _ _) ind).1
    simp only at this
    rw [this]
    rfl

theorem noNumberCharAhead_cons (c : Char) (r : Str) (h : isNumberChar c = false) :
    NoNumberCharAhead (c :: r) := by
  intro d r2 e
  cases e
  exact h

theorem skipWhiteSpace_newline_indentation (n : Nat) (c : Char) (r : Str)
    (h : isJsonWhiteSpace c = false) :
    skipWhiteSpace ('\n' :: (indentation n ++ c :: r)) = c :: r := by
  have := skipWhiteSpace_append ('\n' :: indentation n) (c :: r)
    (isJsonWhiteSpace_newline_indentation n)
  rw [List.cons_append] at this
  rw [this, skipWhiteSpace_cons c r h]

theorem parseElements_joinWith (F : NumberFormat) (ind ind2 : Nat) (rest : Str) :
    ∀ items : List JSValue, items ≠ [] → (∀ x ∈ items, RoundTrips F x) →
    ∀ (w : Str), (∀ c ∈ w, isJsonWhiteSpace c = true) →
    ∀ fuel : Nat, cost (items.map (textOf F ind)) ≤ fuel →
      parseElements F fuel
        (w ++ (joinWith (',' :: '\n' :: indentation ind) (items.map (textOf F ind)) ++
          '\n' :: (indentation ind2 ++ ']' :: rest))) = some (items, rest) := by
  intro items
  induction items with
  | nil => intro h; exact absurd rfl h
  | cons x xs ih =>
    intro _ hall w hw fuel hfuel
    have hx := (hall x (List.mem_cons_self _ _) ind).2
    simp only [cost, List.map_cons, List.sum_cons] at hfuel
    obtain ⟨f, rfl⟩ : ∃ f, fuel = f + 1 := ⟨fuel - 1, by omega⟩
    cases xs with
    | nil =>
      simp only [List.map_cons, List.map_nil, joinWith]
      rw [parseElements, parseValue_append_ws F f w _ hw,
        hx _ f (noNumberCharAhead_cons _ _ (by decide)) (by omega)]
      simp only
      rw [skipWhiteSpace_newline_indentation ind2 ']' rest (by decide)]
      simp
    | cons y ys =>
      have e : w ++ (joinWith (',' :: '\n' :: indentation ind)
            ((x :: y :: ys).map (textOf F ind)) ++ '\n' :: (indentation ind2 ++ ']' :: rest)) =
          w ++ (textOf F ind x ++ ',' :: (('\n' :: indentation ind) ++
            (joinWith (',' :: '\n' :: indentation ind) ((y :: ys).map (textOf F ind)) ++
              '\n' :: (indentation ind2 ++ ']' :: rest)))) := by
        simp [joinWith, List.append_assoc]
      rw [e, parseElements, parseValue_append_ws F f w _ hw,
        hx _ f (noNumberCharAhead_cons _ _ (by decide)) (by omega)]
      simp only
      rw [skipWhiteSpace_cons ',' _ (by decide)]
      simp only [if_true]
      rw [ih (List.cons_ne_nil _ _) (fun z hz => hall z (List.mem_cons_of_mem _ hz))
        ('\n' :: indentation ind) (isJsonWhiteSpace_newline_indentation ind) f
        (by simp only [cost]; omega)]

theorem parseMembers_joinWith (F : NumberFormat) (ind ind2 : Nat) (rest : Str) :
    ∀ props : List (Str × JSValue), props ≠ [] → (∀ kv ∈ props, RoundTrips F kv.2) →
    ∀ (w : Str), (∀ c ∈ w, isJsonWhiteSpace c = true) →
    ∀ fuel : Nat, cost (props.map (memberText F ind)) ≤ fuel →
      parseMembers F fuel
        (w ++ (joinWith (',' :: '\n' :: indentation ind) (props.map (memberText F ind)) ++
          '\n' :: (indentation ind2 ++ '\x7d' :: rest))) = some (props, rest) := by
  intro props
  induction props with
  | nil => intro h; exact absurd rfl h
  | cons kv xs ih =>
    intro _ hall w hw fuel hfuel
    obtain ⟨k, v⟩ := kv
    have hx := (hall (k, v) (List.mem_cons_self _ _) ind).2
    simp only at hx
    have hlen : (textOf F ind v).length + 4 ≤ (memberText F ind (k, v)).length := by
      simp only [memberText, quoteJSONString, List.length_append, List.length_cons,
        List.length_nil]
      omega
    simp only [cost, List.map_cons, List.sum_cons] at hfuel
    obtain ⟨f, rfl⟩ : ∃ f, fuel = f + 1 := ⟨fuel - 1, by omega⟩
    have hsp : ∀ c ∈ [' '], isJsonWhiteSpace c = true := by decide
    cases xs with
    | nil =>
      have e : joinWith (',' :: '\n' :: indentation ind) ([(k, v)].map (memberText F ind)) ++
            '\n' :: (indentation ind2 ++ '\x7d' :: rest) =
          '"' :: (quoteChars k ++ '"' :: (':' :: ([' '] ++ (textOf F ind v ++
            '\n' :: (indentation ind2 ++ '\x7d' :: rest))))) := by
        simp [joinWith, memberText, quoteJSONString, List.append_assoc]
      rw [parseMembers_append_ws F _ w _ hw, e, parseMembers,
        skipWhiteSpace_cons '"' _ (by decide)]
      simp only [if_true, parseStringChars_quoteChars]
      rw [skipWhiteSpace_cons ':' _ (by decide)]
      simp only [if_true]
      rw [parseValue_append_ws F f _ _ hsp,
        hx _ f (noNumberCharAhead_cons _ _ (by decide)) (by omega)]
      simp only
      rw [skipWhiteSpace_newline_indentation ind2 '\x7d' rest (by decide)]
      simp
    | cons y ys =>
      have e : joinWith (',' :: '\n' :: indentation ind)
            (((k, v) :: y :: ys).map (memberText F ind)) ++
            '\n' :: (indentation ind2 ++ '\x7d' :: rest) =
          '"' :: (quoteChars k ++ '"' :: (':' :: ([' '] ++ (textOf F ind v ++
            ',' :: (('\n' :: indentation ind) ++
            (joinWith (',' :: '\n' :: indentation ind) ((y :: ys).map (memberText F ind)) ++
              '\n' :: (indentation ind2 ++ '\x7d' :: rest))))))) := by
        simp [joinWith, memberText, quoteJSONString, List.append_assoc]
      rw [parseMembers_append_ws F _ w _ hw, e, parseMembers,
        skipWhiteSpace_cons '"' _ (by decide)]
      simp only [if_true, parseStringChars_quoteChars]
      rw [skipWhiteSpace_cons ':' _ (by decide)]
      simp only [if_true]
      rw [parseValue_append_ws F f _ _ hsp,
        hx _ f (noNumberCharAhead_cons _ _ (by decide)) (by omega)]
      simp only
      rw [skipWhiteSpace_cons ',' _ (by decide)]
      simp only [if_true]
      rw [ih (List.cons_ne_nil _ _) (fun z hz => hall z (List.mem_cons_of_mem _ hz))
        ('\n' :: indentation ind) (isJsonWhiteSpace_newline_indentation ind) f
        (by simp only [cost]; omega)]

theorem setPropList_of_not_mem (k : Str) (v : JSValue) (acc : List (Str × JSValue))
    (h : k ∉ acc.map (fun kv => kv.1)) : setPropList k v acc = acc ++ [(k, v)] := by
  induction acc with
  | nil => rfl
  | cons a as ih =>
    obtain ⟨k1, v1⟩ := a
    have h1 : ¬ k1 = k := fun e => h (e ▸ List.mem_cons_self _ _)
    have h2 : k ∉ as.map (fun kv => kv.1) := fun hm => h (List.mem_cons_of_mem _ hm)
    simp only [setPropList, if_neg h1, ih h2, List.cons_append]

theorem foldl_setPropList (props acc : List (Str × JSValue))
    (h : ((acc ++ props).map (fun kv => kv.1)).Nodup) :
    props.foldl (fun a kv => setPropList kv.1 kv.2 a) acc = acc ++ props := by
  induction props generalizing acc with
  | nil => simp
  | cons kv rest ih =>
    have hk : kv.1 ∉ acc.map (fun kv => kv.1) := by
      intro hm
      rw [List.map_append, List.nodup_append] at h
      exact h.2.2 hm (List.mem_cons_self _ _)
    rw [List.foldl_cons, setPropList_of_not_mem _ _ _ hk, ih]
    · rw [List.append_assoc]
      rfl
    · rw [List.append_assoc]
      exact h

theorem objectOfMembers_eq (props : List (Str × JSValue))
    (hnd : (props.map (fun kv => kv.1)).Nodup) (ho : jsOrder props = props) :
    objectOfMembers props = .obj props := by
  unfold objectOfMembers
  rw [foldl_setPropList props [] hnd, List.nil_append, ho]

theorem jsOrder_map {α β : Type} (l : List (Str × α)) (g : α → β) :
    jsOrder (l.map (fun kv => (kv.1, g kv.2))) = (jsOrder l).map (fun kv => (kv.1, g kv.2)) := by
  unfold jsOrder
  rw [List.map_append, List.filter_map, List.filter_map]
  congr 1
  exact (List.map_insertionSort _ _ (fun kv : Str × α => (kv.1, g kv.2)) _
    (fun a _ b _ => Iff.rfl)).symm

theorem cost_le_length_joinWith (sep : Str) (hsep : 1 ≤ sep.length) :
    ∀ parts : List Str, parts ≠ [] → cost parts ≤ (joinWith sep parts).length + 1 := by
  intro parts
  induction parts with
  | nil => intro h; exact absurd rfl h
  | cons x xs ih =>
    intro _
    cases xs with
    | nil => simp [cost, joinWith]
    | cons y ys =>
      have := ih (List.cons_ne_nil _ _)
      simp only [cost, List.map_cons, List.sum_cons, joinWith, List.length_append] at this ⊢
      omega

theorem cost_lt_length_wrapItems (lb rb : Char) (ind : Nat) (parts : List Str)
    (h : parts ≠ []) : cost parts + 1 ≤ (wrapItems lb rb ind parts).length := by
  have := cost_le_length_joinWith (',' :: '\n' :: indentation (ind + 2)) (by simp) parts h
  cases parts with
  | nil => exact absurd rfl h
  | cons x xs =>
    simp only [wrapItems, List.length_cons, List.length_append, List.length_nil] at this ⊢
    omega

theorem parseElements_head (F : NumberFormat) (fuel : Nat) (s : Str)
    (p : List JSValue × Str) (h : parseElements F fuel s = some p) :
    ∃ d r, skipWhiteSpace s = d :: r ∧ d ≠ ']' := by
  cases fuel with
  | zero => simp [parseElements] at h
  | succ f =>
    rw [parseElements] at h
    cases hv : parseValue F f s with
    | none => simp [hv] at h
    | some q => exact parseValue_head F f s q hv

theorem parseMembers_head (F : NumberFormat) (fuel : Nat) (s : Str)
    (p : List (Str × JSValue) × Str) (h : parseMembers F fuel s = some p) :
    ∃ d r, skipWhiteSpace s = d :: r ∧ d ≠ '\x7d' := by
  cases fuel with
  | zero => simp [parseMembers] at h
  | succ f =>
    rw [parseMembers] at h
    cases hs : skipWhiteSpace s with
    | nil => simp [hs] at h
    | cons d r =>
      refine ⟨d, r, rfl, fun hd => ?_⟩
      subst hd
      simp [hs] at h

theorem parseValue_number (F : NumberFormat) (f : Nat) (c : Char) (r : Str)
    (hc : c = '-' ∨ isDigit c = true) :
    parseValue F (f + 1) (c :: r) =
      if isJsonNumber ((c :: r).takeWhile isNumberChar) = true then
        some (.num (F.value ((c :: r).takeWhile isNumberChar)),
              (c :: r).dropWhile isNumberChar)
      else none := by
  have hcases : c = '-' ∨ (48 ≤ c.toNat ∧ c.toNat ≤ 57) := by
    rcases hc with h | h
    · exact Or.inl h
    · simp only [isDigit, Bool.and_eq_true, decide_eq_true_eq] at h
      exact Or.inr h
  have hne : ∀ d : Char, d ≠ '-' → ¬ (48 ≤ d.toNat ∧ d.toNat ≤ 57) → c ≠ d := by
    intro d h1 h2 e
    subst e
    rcases hcases with h | h
    · exact h1 h
    · exact h2 h
  have hws : isJsonWhiteSpace c = false := by
    rcases hcases with h | h
    · rw [h]; rfl
    · have h1 : c ≠ ' ' := hne ' ' (by decide) (by decide)
      simp only [isJsonWhiteSpace, Bool.or_eq_false_iff, decide_eq_false_iff_not]
      exact ⟨⟨⟨h1, by omega⟩, by omega⟩, by omega⟩
  rw [parseValue, skipWhiteSpace_cons c r hws]
  simp only [hne '"' (by decide) (by decide), hne '[' (by decide) (by decide),
    hne '\x7b' (by decide) (by decide), hne 't' (by decide) (by decide),
    hne 'f' (by decide) (by decide), hne 'n' (by decide) (by decide), if_false, hc, if_true]

theorem roundTrips_of_representable (F : NumberFormat) (v : JSValue)
    (h : JsonRepresentable F v) : RoundTrips F v := by
  induction h with
  | null =>
    intro ind
    refine ⟨rfl, fun rest fuel _ hf => ?_⟩
    have ht : textOf F ind .null = "null".toList := rfl
    rw [ht] at hf ⊢
    obtain ⟨f, rfl⟩ : ∃ f, fuel = f + 1 := ⟨fuel - 1, by simp at hf; omega⟩
    rw [parseValue]
    rfl
  | bool b =>
    intro ind
    refine ⟨rfl, fun rest fuel _ hf => ?_⟩
    cases b with
    | true =>
      have ht : textOf F ind (.bool true) = "true".toList := rfl
      rw [ht] at hf ⊢
      obtain ⟨f, rfl⟩ : ∃ f, fuel = f + 1 := ⟨fuel - 1, by simp at hf; omega⟩
      rw [parseValue]
      rfl
    | false =>
      have ht : textOf F ind (.bool false) = "false".toList := rfl
      rw [ht] at hf ⊢
      obtain ⟨f, rfl⟩ : ∃ f, fuel = f + 1 := ⟨fuel - 1, by simp at hf; omega⟩
      rw [parseValue]
      rfl
  | num q hnum hval =>
    intro ind
    refine ⟨rfl, fun rest fuel hrest hf => ?_⟩
    have ht : textOf F ind (.num q) = F.toText q := rfl
    rw [ht] at hf ⊢
    obtain ⟨⟨c, r, hcr, hc⟩, hall⟩ := isJsonNumber_chars (F.toText q) hnum
    obtain ⟨f, rfl⟩ : ∃ f, fuel = f + 1 := ⟨fuel - 1, by rw [hcr] at hf; simp at hf; omega⟩
    obtain ⟨h1, h2⟩ := takeWhile_number (F.toText q) rest hall hrest
    have e : F.toText q ++ rest = c :: (r ++ rest) := by rw [hcr]; rfl
    rw [e, parseValue_number F f c _ hc, ← e, h1, h2, if_pos hnum, hval]
  | str s =>
    intro ind
    refine ⟨rfl, fun rest fuel _ hf => ?_⟩
    have ht : textOf F ind (.str s) = quoteJSONString s := rfl
    rw [ht] at hf ⊢
    obtain ⟨f, rfl⟩ : ∃ f, fuel = f + 1 :=
      ⟨fuel - 1, by simp [quoteJSONString] at hf; omega⟩
    have e : quoteJSONString s ++ rest = '"' :: (quoteChars s ++ '"' :: rest) := by
      simp [quoteJSONString]
    rw [e, parseValue, skipWhiteSpace_cons '"' _ (by decide)]
    simp only [if_true, parseStringChars_quoteChars]
  | arr items _ ih =>
    intro ind
    have hser : serializeJSONProperty F ind (.arr items) =
        some (wrapItems '[' ']' ind (items.map (textOf F (ind + 2)))) := by
      rw [serializeJSONProperty, serializeElements_eq F _ items ih]
    have ht : textOf F ind (.arr items) =
        wrapItems '[' ']' ind (items.map (textOf F (ind + 2))) := by
      rw [textOf, hser]
      rfl
    rw [ht]
    refine ⟨hser, fun rest fuel _ hf => ?_⟩
    cases items with
    | nil =>
      obtain ⟨f, rfl⟩ : ∃ f, fuel = f + 1 := ⟨fuel - 1, by simp [wrapItems] at hf; omega⟩
      simp only [List.map_nil, wrapItems, List.cons_append, List.nil_append]
      rw [parseValue, skipWhiteSpace_cons '[' _ (by decide)]
      simp only [show ¬ ('[' = '"') by decide, if_false, if_true]
      rw [skipWhiteSpace_cons ']' _ (by decide)]
      simp
    | cons x xs =>
      have hcost := cost_lt_length_wrapItems '[' ']' ind ((x :: xs).map (textOf F (ind + 2)))
        (by simp)
      obtain ⟨f, rfl⟩ : ∃ f, fuel = f + 1 := ⟨fuel - 1, by omega⟩
      have hel := parseElements_joinWith F (ind + 2) ind rest (x :: xs) (List.cons_ne_nil _ _) ih
        ('\n' :: indentation (ind + 2)) (isJsonWhiteSpace_newline_indentation _) f (by omega)
      obtain ⟨d, r, hd, hne⟩ := parseElements_head F f _ _ hel
      have e : wrapItems '[' ']' ind ((x :: xs).map (textOf F (ind + 2))) ++ rest =
          '[' :: (('\n' :: indentation (ind + 2)) ++
            (joinWith (',' :: '\n' :: indentation (ind + 2))
              ((x :: xs).map (textOf F (ind + 2))) ++
              '\n' :: (indentation ind ++ ']' :: rest))) := by
        simp [wrapItems, List.append_assoc]
      rw [e, parseValue, skipWhiteSpace_cons '[' _ (by decide)]
      simp only [show ¬ ('[' = '"') by decide, if_false, if_true]
      rw [hd]
      simp only [if_neg hne, hel]
  | obj props hnd ho _ ih =>
    intro ind
    have hser : serializeJSONProperty F ind (.obj props) =
        some (wrapItems '\x7b' '\x7d' ind (props.map (memberText F (ind + 2)))) := by
      rw [serializeJSONProperty, serializeMembers_eq F _ props ih,
        jsOrder_map props (textOf F (ind + 2)), ho, List.map_map]
      rfl
    have ht : textOf F ind (.obj props) =
        wrapItems '\x7b' '\x7d' ind (props.map (memberText F (ind + 2))) := by
      rw [textOf, hser]
      rfl
    rw [ht]
    refine ⟨hser, fun rest fuel _ hf => ?_⟩
    cases props with
    | nil =>
      obtain ⟨f, rfl⟩ : ∃ f, fuel = f + 1 := ⟨fuel - 1, by simp [wrapItems] at hf; omega⟩
      simp only [List.map_nil, wrapItems, List.cons_append, List.nil_append]
      rw [parseValue, skipWhiteSpace_cons '\x7b' _ (by decide)]
      simp only [show ¬ ('\x7b' = '"') by decide, show ¬ ('\x7b' = '[') by decide, if_false,
        if_true]
      rw [skipWhiteSpace_cons '\x7d' _ (by decide)]
      simp
    | cons x xs =>
      have hcost := cost_lt_length_wrapItems '\x7b' '\x7d' ind
        ((x :: xs).map (memberText F (ind + 2))) (by simp)
      obtain ⟨f, rfl⟩ : ∃ f, fuel = f + 1 := ⟨fuel - 1, by omega⟩
      have hel := parseMembers_joinWith F (ind + 2) ind rest (x :: xs) (List.cons_ne_nil _ _) ih
        ('\n' :: indentation (ind + 2)) (isJsonWhiteSpace_newline_indentation _) f (by omega)
      obtain ⟨d, r, hd, hne⟩ := parseMembers_head F f _ _ hel
      have e : wrapItems '\x7b' '\x7d' ind ((x :: xs).map (memberText F (ind + 2))) ++ rest =
          '\x7b' :: (('\n' :: indentation (ind + 2)) ++
            (joinWith (',' :: '\n' :: indentation (ind + 2))
              ((x :: xs).map (memberText F (ind + 2))) ++
              '\n' :: (indentation ind ++ '\x7d' :: rest))) := by
        simp [wrapItems, List.append_assoc]
      rw [e, parseValue, skipWhiteSpace_cons '\x7b' _ (by decide)]
      simp only [show ¬ ('\x7b' = '"') by decide, show ¬ ('\x7b' = '[') by decide, if_false,
        if_true]
      rw [hd]
      simp only [if_neg hne, hel, objectOfMembers_eq (x :: xs) hnd ho]

/-- The text `JSON.stringify` writes for a representable value is read back by
`JSON.parse` as the value. -/
theorem jsonParse_jsonStringify (F : NumberFormat) (v : JSValue) (h : JsonRepresentable F v) :
    ∃ text, jsonStringify F v = some text ∧ jsonParse F text = some v := by
  obtain ⟨hser, hparse⟩ := roundTrips_of_representable F v h 0
  refine ⟨textOf F 0 v, hser, ?_⟩
  have := hparse [] ((textOf F 0 v).length + 1) (fun c r e => by cases e) (by omega)
  rw [List.append_nil] at this
  simp only [jsonParse, this]
  rfl

/-! ## Stores of the importer's records are representable -/

theorem jsOrder_of_no_index {α : Type} (l : List (Str × α))
    (h : ∀ k ∈ l.map (fun kv => kv.1), isArrayIndex k = false) : jsOrder l = l := by
  have h1 : l.filter (fun kv => isArrayIndex kv.1) = [] := by
    rw [List.filter_eq_nil_iff]
    intro kv hkv
    rw [h kv.1 (List.mem_map_of_mem _ hkv)]
    exact Bool.false_ne_true
  have h2 : l.filter (fun kv => !isArrayIndex kv.1) = l := by
    rw [List.filter_eq_self]
    intro kv hkv
    rw [h kv.1 (List.mem_map_of_mem _ hkv)]
    rfl
  unfold jsOrder
  rw [h1, h2]
  rfl

theorem representable_strings (F : NumberFormat) (l : List Str) :
    ∀ x ∈ l.map JSValue.str, JsonRepresentable F x := by
  intro x hx
  obtain ⟨t, -, rfl⟩ := List.mem_map.1 hx
  exact .str t

theorem representable_obj_of_keys (F : NumberFormat) (props : List (Str × JSValue))
    (keys : List Str) (hk : props.map (fun kv => kv.1) = keys) (hnd : keys.Nodup)
    (hidx : ∀ k ∈ keys, isArrayIndex k = false)
    (hv : ∀ kv ∈ props, JsonRepresentable F kv.2) : JsonRepresentable F (.obj props) :=
  .obj props (hk ▸ hnd) (jsOrder_of_no_index props (hk ▸ hidx)) hv

theorem representable_descriptor (F : NumberFormat) (d : MediaDescriptor) :
    JsonRepresentable F d.toJS := by
  obtain ⟨type, src, label⟩ := d
  cases label with
  | none =>
    exact representable_obj_of_keys F _ ["type".toList, "src".toList] rfl (by decide)
      (by decide)
      (List.forall_mem_cons.2 ⟨.str _, List.forall_mem_cons.2 ⟨.str _,
        fun _ h => absurd h (List.not_mem_nil _)⟩⟩)
  | some l =>
    exact representable_obj_of_keys F _ ["type".toList, "src".toList, "label".toList] rfl
      (by decide) (by decide)
      (List.forall_mem_cons.2 ⟨.str _, List.forall_mem_cons.2 ⟨.str _,
        List.forall_mem_cons.2 ⟨.str _, fun _ h => absurd h (List.not_mem_nil _)⟩⟩⟩)

theorem representable_media (F : NumberFormat) (m : Media) : JsonRepresentable F m.toJS := by
  cases m with
  | single d => exact representable_descriptor F d
  | gallery ds =>
    refine .arr _ fun x hx => ?_
    obtain ⟨d, -, rfl⟩ := List.mem_map.1 hx
    exact representable_descriptor F d

theorem representable_project (F : NumberFormat) (p : Project) :
    JsonRepresentable F p.toJS := by
  have hlinks : JsonRepresentable F (.arr (p.links.map (fun l =>
      JSValue.obj [("label".toList, .str l.1), ("url".toList, .str l.2)]))) := by
    refine .arr _ fun x hx => ?_
    obtain ⟨l, -, rfl⟩ := List.mem_map.1 hx
    exact representable_obj_of_keys F _ ["label".toList, "url".toList] rfl (by decide)
      (by decide)
      (List.forall_mem_cons.2 ⟨.str _, List.forall_mem_cons.2 ⟨.str _,
        fun _ h => absurd h (List.not_mem_nil _)⟩⟩)
  exact representable_obj_of_keys F _
    ["id".toList, "title".toList, "subtitle".toList, "year".toList, "tools".toList,
     "description".toList, "links".toList, "media".toList] rfl (by decide) (by decide)
    (List.forall_mem_cons.2 ⟨.str _, List.forall_mem_cons.2 ⟨.str _,
      List.forall_mem_cons.2 ⟨.str _, List.forall_mem_cons.2 ⟨.str _,
      List.forall_mem_cons.2 ⟨.arr _ (representable_strings F p.tools),
      List.forall_mem_cons.2 ⟨.str _, List.forall_mem_cons.2 ⟨hlinks,
      List.forall_mem_cons.2 ⟨representable_media F p.media,
        fun _ h => absurd h (List.not_mem_nil _)⟩⟩⟩⟩⟩⟩⟩⟩)

theorem representable_projects (F : NumberFormat) (ps : List Project) :
    JsonRepresentable F (.arr (ps.map Project.toJS)) := by
  refine .arr _ fun x hx => ?_
  obtain ⟨p, -, rfl⟩ := List.mem_map.1 hx
  exact representable_project F p

/-- Every store of records of the importer is representable, whatever the number
format: the records hold strings, arrays and objects only. -/
theorem representable_toJS (F : NumberFormat) (st : State) : JsonRepresentable F st.toJS :=
  representable_obj_of_keys F _
    ["animation".toList, "cad".toList, "prints".toList, "code".toList] rfl (by decide)
    (by decide)
    (List.forall_mem_cons.2 ⟨representable_projects F _,
      List.forall_mem_cons.2 ⟨representable_projects F _,
      List.forall_mem_cons.2 ⟨representable_projects F _,
      List.forall_mem_cons.2 ⟨representable_projects F _,
        fun _ h => absurd h (List.not_mem_nil _)⟩⟩⟩⟩)

theorem schemaValid_storeOf (a c p d : List JSValue) : SchemaValid (storeOf a c p d) := by
  have hk : (storeOf a c p d).keys = categoryKeys := rfl
  refine ⟨?_, fun k => ?_, fun cat => ?_⟩
  · rw [hk]
    decide
  · rw [hk]
  · cases cat <;> exact ⟨_, rfl⟩

theorem schemaValid_toJS (st : State) : SchemaValid st.toJS := by
  have hk : st.toJS.keys = categoryKeys := rfl
  refine ⟨?_, fun k => ?_, fun cat => ?_⟩
  · rw [hk]
    decide
  · rw [hk]
  · cases cat <;> exact ⟨_, rfl⟩

/-- C11: export then load is lossless.  For a schema-valid store `s` of
JSON-representable records (`null`, booleans, strings, numbers the platform
reads back from the text it writes for them, arrays, and objects with distinct
keys in the order an object lists them), `JSON.stringify(s, null, 2)` gives a
text, `JSON.parse` reads the text back as `s`, and the load handler leaves
`ensureKeys(s)` as the state, raising only if `render()` throws on it.  That
store has the four keys and holds under each key the very list `s` holds
there, records and their order untouched; when the keys of `s` stand in the
order of `DEFAULT_STATE`, as in every state of the importer, it is `s`
itself. -/
theorem export_then_load_lossless (F : NumberFormat) (render : RenderThrows)
    (s before : JSValue) (hv : SchemaValid s) (hrep : JsonRepresentable F s) :
    ∃ text : Str, downloadJsonData F s = some text ∧
      jsonParse F text = some s ∧
      (jsonParse F text).map ensureKeys = some (ensureKeys s) ∧
      (loadJsonChange (jsonParse F) render before (some text)).state = ensureKeys s ∧
      (loadJsonChange (jsonParse F) render before (some text)).raised =
        render (ensureKeys s) ∧
      (ensureKeys s).keys =
        ["animation".toList, "cad".toList, "prints".toList, "code".toList] ∧
      (∀ cat : Cat, getProp (ensureKeys s) cat.key = getProp s cat.key) ∧
      (s.keys = categoryKeys → ensureKeys s = s) := by
  obtain ⟨text, hser, hparse⟩ := jsonParse_jsonStringify F s hrep
  refine ⟨text, hser, hparse, ?_, ?_, ?_, rfl, fun cat => ?_, fun hk => ?_⟩
  · rw [hparse]
    rfl
  · simp only [loadJsonChange, hparse]
  · simp only [loadJsonChange, hparse]
  · obtain ⟨items, hi⟩ := hv.2.2 cat
    rw [ensureKeys_getProp, hi]
    rfl
  · exact ensureKeys_of_canonical s (canonicalStore_of_schemaValid s hv hk)


/-- Witness for C11: the store `exampleStore`, with a record that holds an
escaped string, a number and a nested array, is exported as `exampleStoreText`
and that text is loaded back as the store. -/
theorem export_then_load_lossless_witness :
    SchemaValid exampleStore ∧ JsonRepresentable integerFormat exampleStore ∧
    downloadJsonData integerFormat exampleStore = some exampleStoreText ∧
    jsonParse integerFormat exampleStoreText = some exampleStore ∧
    (loadJsonChange (jsonParse integerFormat) renderThrowsOnNullRecord Store.initial
      (some exampleStoreText)).state = exampleStore := by
  have hv : SchemaValid exampleStore := schemaValid_storeOf _ _ _ _
  have hrecord : JsonRepresentable integerFormat
      (.obj [("id".toList, .str "a\"b".toList), ("year".toList, .num 2020),
             ("tags".toList, .arr [.null, .bool true, .str "x\ny".toList])]) :=
    representable_obj_of_keys _ _ ["id".toList, "year".toList, "tags".toList] rfl (by decide)
      (by decide)
      (List.forall_mem_cons.2 ⟨.str _, List.forall_mem_cons.2 ⟨.num _ (by decide) (by decide),
        List.forall_mem_cons.2 ⟨.arr _ (List.forall_mem_cons.2 ⟨.null,
          List.forall_mem_cons.2 ⟨.bool _, List.forall_mem_cons.2 ⟨.str _,
            fun _ h => absurd h (List.not_mem_nil _)⟩⟩⟩),
        fun _ h => absurd h (List.not_mem_nil _)⟩⟩⟩)
  have hrep : JsonRepresentable integerFormat exampleStore :=
    representable_obj_of_keys _ _
      ["animation".toList, "cad".toList, "prints".toList, "code".toList] rfl (by decide)
      (by decide)
      (List.forall_mem_cons.2 ⟨.arr _ (List.forall_mem_cons.2 ⟨hrecord,
          fun _ h => absurd h (List.not_mem_nil _)⟩),
        List.forall_mem_cons.2 ⟨.arr _ (fun _ h => absurd h (List.not_mem_nil _)),
        List.forall_mem_cons.2 ⟨.arr _ (fun _ h => absurd h (List.not_mem_nil _)),
        List.forall_mem_cons.2 ⟨.arr _ (fun _ h => absurd h (List.not_mem_nil _)),
          fun _ h => absurd h (List.not_mem_nil _)⟩⟩⟩⟩)
  have htext : downloadJsonData integerFormat exampleStore = some exampleStoreText := rfl
  obtain ⟨text, h1, h2, -, h4, -⟩ :=
    export_then_load_lossless integerFormat renderThrowsOnNullRecord exampleStore
      Store.initial hv hrep
  have e : text = exampleStoreText := Option.some.inj (h1.symm.trans htext)
  subst e
  exact ⟨hv, hrep, htext, h2, h4⟩

/-! ## The viewer -/

/-- C12 as the specification states it fails: a project whose `media` is the empty
array is normalized to the empty sequence. -/
theorem normalizeMedia_empty_array :
    Viewer.normalizeMedia (.obj [("media".toList, .arr [])]) = some [] := rfl

/-- C12, amended: for a project record with any `media` value, `normalizeMedia`
returns the one-element sequence of the placeholder descriptor when `media` is
absent, `null` or otherwise falsy, the array itself when `media` is an array,
and the one-element sequence of `media` otherwise; the sequence is non-empty
unless `media` is the empty array. -/
theorem normalizeMedia_cases (props : List (Str × JSValue)) :
    (Viewer.isTruthy (getProp (.obj props) "media".toList) = false →
      Viewer.normalizeMedia (.obj props) = some [Viewer.placeholderDescriptor]) ∧
    (∀ items, getProp (.obj props) "media".toList = .arr items →
      Viewer.normalizeMedia (.obj props) = some items) ∧
    (Viewer.isTruthy (getProp (.obj props) "media".toList) = true →
      (∀ items, getProp (.obj props) "media".toList ≠ .arr items) →
      Viewer.normalizeMedia (.obj props) = some [getProp (.obj props) "media".toList]) ∧
    (getProp (.obj props) "media".toList ≠ .arr [] →
      ∃ l, Viewer.normalizeMedia (.obj props) = some l ∧ l ≠ []) := by
  have hdef : Viewer.normalizeMedia (.obj props) =
      (if !Viewer.isTruthy (getProp (.obj props) "media".toList) then
        some [Viewer.placeholderDescriptor]
      else match getProp (.obj props) "media".toList with
        | .arr items => some items
        | m => some [m]) := by
    simp only [Viewer.normalizeMedia]
    split_ifs
    · rfl
    · split <;> simp_all
  rw [hdef]
  generalize getProp (.obj props) "media".toList = m
  refine ⟨fun h => by simp [h], fun items h => ?_, fun h1 h2 => ?_, fun h => ?_⟩
  · subst h
    simp [Viewer.isTruthy]
  · cases m <;> simp_all [Viewer.isTruthy]
  · cases m with
    | arr items =>
      refine ⟨items, by simp [Viewer.isTruthy], fun e => h (by rw [e])⟩
    | undefined =>
      exact ⟨[Viewer.placeholderDescriptor], by simp [Viewer.isTruthy], List.cons_ne_nil _ _⟩
    | null =>
      exact ⟨[Viewer.placeholderDescriptor], by simp [Viewer.isTruthy], List.cons_ne_nil _ _⟩
    | bool b =>
      cases b
      · exact ⟨[Viewer.placeholderDescriptor], by simp [Viewer.isTruthy], List.cons_ne_nil _ _⟩
      · exact ⟨[.bool true], by simp [Viewer.isTruthy], List.cons_ne_nil _ _⟩
    | num q =>
      by_cases hq : q = 0
      · exact ⟨[Viewer.placeholderDescriptor], by simp [Viewer.isTruthy, hq],
          List.cons_ne_nil _ _⟩
      · exact ⟨[.num q], by simp [Viewer.isTruthy, hq], List.cons_ne_nil _ _⟩
    | str t =>
      cases t with
      | nil =>
        exact ⟨[Viewer.placeholderDescriptor], by simp [Viewer.isTruthy], List.cons_ne_nil _ _⟩
      | cons c cs => exact ⟨[.str (c :: cs)], by simp [Viewer.isTruthy], List.cons_ne_nil _ _⟩
    | obj ps => exact ⟨[.obj ps], by simp [Viewer.isTruthy], List.cons_ne_nil _ _⟩

theorem singleMediaEl_of_falsy_src (U : LowerMap) (m : JSValue)
    (hsrc : Viewer.isTruthy (getProp m "src".toList) = false)
    (htype : Viewer.isString (getProp m "type".toList) "code-demo".toList = false) :
    Viewer.singleMediaEl U m = some .placeholder := by
  simp only [Viewer.singleMediaEl, hsrc, htype, Bool.and_false, Bool.false_eq_true, if_false,
    ite_self]

/-- C13: dispatch fallback.  A descriptor whose `src` is missing, empty or
otherwise falsy and whose `type` is not `code-demo` goes to the placeholder,
and nothing is raised; this covers a missing descriptor, the placeholder type,
an unknown type and the empty descriptor. -/
theorem singleMediaEl_fallback (U : LowerMap) (m : JSValue)
    (hsrc : Viewer.isTruthy (getProp m "src".toList) = false)
    (htype : Viewer.isString (getProp m "type".toList) "code-demo".toList = false) :
    Viewer.singleMediaEl U m = some .placeholder :=
  singleMediaEl_of_falsy_src U m hsrc htype

/-- Witness for C13: the descriptor of the unknown type `bogus`, the empty
descriptor and a missing descriptor go to the placeholder. -/
theorem singleMediaEl_fallback_witness :
    Viewer.singleMediaEl keepNonAscii (.obj [("type".toList, .str "bogus".toList)]) =
      some .placeholder ∧
    Viewer.singleMediaEl keepNonAscii (.obj []) = some .placeholder ∧
    Viewer.singleMediaEl keepNonAscii .undefined = some .placeholder :=
  ⟨singleMediaEl_fallback keepNonAscii _ rfl rfl,
   singleMediaEl_fallback keepNonAscii _ rfl rfl,
   singleMediaEl_fallback keepNonAscii _ rfl rfl⟩

theorem extFromSrc_nil (U : LowerMap) : Viewer.extFromSrc U [] = [] := rfl

theorem singleMediaEl_srcOnly (U : LowerMap) (src : Str) (hs : src ≠ []) :
    Viewer.singleMediaEl U (Viewer.srcOnly src) =
      (if Viewer.extFromSrc U src ∈ ["mp4".toList, "webm".toList, "mov".toList] then
        some (.video (.str src))
      else if Viewer.extFromSrc U src ∈
          ["png".toList, "jpg".toList, "jpeg".toList, "webp".toList, "gif".toList] then
        some (.image (.str src))
      else if Viewer.extFromSrc U src ∈ ["glb".toList, "gltf".toList, "stl".toList] then
        some (.model (.str src))
      else some (.iframe (.str src))) := by
  have ht : Viewer.isTruthy (.str src) = true := by
    cases src with
    | nil => exact absurd rfl hs
    | cons c cs => rfl
  have h1 : getProp (Viewer.srcOnly src) "type".toList = .undefined := rfl
  have h2 : getProp (Viewer.srcOnly src) "src".toList = .str src := rfl
  simp only [Viewer.singleMediaEl, h1, h2, ht]
  rfl

theorem singleMediaEl_typed (U : LowerMap) (type src : Str) (hs : src ≠ []) :
    (type = "video".toList →
      Viewer.singleMediaEl U (Viewer.typed type src) = some (.video (.str src))) ∧
    (type = "image".toList →
      Viewer.singleMediaEl U (Viewer.typed type src) = some (.image (.str src))) ∧
    (type = "model".toList →
      Viewer.singleMediaEl U (Viewer.typed type src) = some (.model (.str src))) := by
  have ht : Viewer.isTruthy (.str src) = true := by
    cases src with
    | nil => exact absurd rfl hs
    | cons c cs => rfl
  have h1 : getProp (Viewer.typed type src) "type".toList = .str type := rfl
  have h2 : getProp (Viewer.typed type src) "src".toList = .str src := by
    simp only [Viewer.typed, getProp, lookupProp]
    rw [if_neg (by decide)]
    simp
  refine ⟨?_, ?_, ?_⟩ <;>
  · intro h
    subst h
    simp only [Viewer.singleMediaEl, h1, h2, ht]
    rfl

/-- C14: extension inference matches explicit typing.  For a `src` whose
extension, as `extFromSrc` computes it, is in the video, image or model list,
the descriptor with only that `src` and the descriptor with the corresponding
`type` and that `src` are handed to the same builder with the same `src`. -/
theorem singleMediaEl_inference_matches_type (U : LowerMap) (src : Str) :
    (Viewer.extFromSrc U src ∈ ["mp4".toList, "webm".toList, "mov".toList] →
      Viewer.singleMediaEl U (Viewer.srcOnly src) = some (.video (.str src)) ∧
      Viewer.singleMediaEl U (Viewer.typed "video".toList src) = some (.video (.str src))) ∧
    (Viewer.extFromSrc U src ∈
        ["png".toList, "jpg".toList, "jpeg".toList, "webp".toList, "gif".toList] →
      Viewer.singleMediaEl U (Viewer.srcOnly src) = some (.image (.str src)) ∧
      Viewer.singleMediaEl U (Viewer.typed "image".toList src) = some (.image (.str src))) ∧
    (Viewer.extFromSrc U src ∈ ["glb".toList, "gltf".toList, "stl".toList] →
      Viewer.singleMediaEl U (Viewer.srcOnly src) = some (.model (.str src)) ∧
      Viewer.singleMediaEl U (Viewer.typed "model".toList src) = some (.model (.str src))) := by
  have hne : ∀ l : List Str, [] ∉ l → Viewer.extFromSrc U src ∈ l → src ≠ [] := by
    intro l hl hm e
    subst e
    rw [extFromSrc_nil] at hm
    exact hl hm
  have hdisj1 : ∀ e : Str, e ∈ ["png".toList, "jpg".toList, "jpeg".toList, "webp".toList,
      "gif".toList] → e ∉ ["mp4".toList, "webm".toList, "mov".toList] := by
    intro e h1 h2
    simp only [List.mem_cons, List.mem_singleton, List.not_mem_nil, or_false] at h1 h2
    rcases h1 with rfl | rfl | rfl | rfl | rfl <;> revert h2 <;> decide
  have hdisj2 : ∀ e : Str, e ∈ ["glb".toList, "gltf".toList, "stl".toList] →
      e ∉ ["mp4".toList, "webm".toList, "mov".toList] ∧
      e ∉ ["png".toList, "jpg".toList, "jpeg".toList, "webp".toList, "gif".toList] := by
    intro e h1
    simp only [List.mem_cons, List.mem_singleton, List.not_mem_nil, or_false] at h1
    rcases h1 with rfl | rfl | rfl <;> decide
  refine ⟨fun h => ?_, fun h => ?_, fun h => ?_⟩
  · have hs := hne _ (by decide) h
    refine ⟨?_, (singleMediaEl_typed U _ src hs).1 rfl⟩
    rw [singleMediaEl_srcOnly U src hs, if_pos h]
  · have hs := hne _ (by decide) h
    refine ⟨?_, (singleMediaEl_typed U _ src hs).2.1 rfl⟩
    rw [singleMediaEl_srcOnly U src hs, if_neg (hdisj1 _ h), if_pos h]
  · have hs := hne _ (by decide) h
    refine ⟨?_, (singleMediaEl_typed U _ src hs).2.2 rfl⟩
    rw [singleMediaEl_srcOnly U src hs, if_neg (hdisj2 _ h).1, if_neg (hdisj2 _ h).2, if_pos h]

/-- Witness for C14, the example of the specification: `x.glb` with no type and
with type `model` both go to the model builder. -/
theorem singleMediaEl_inference_matches_type_witness :
    Viewer.extFromSrc keepNonAscii "x.glb".toList = "glb".toList ∧
    Viewer.singleMediaEl keepNonAscii (Viewer.srcOnly "x.glb".toList) =
      some (.model (.str "x.glb".toList)) ∧
    Viewer.singleMediaEl keepNonAscii (Viewer.typed "model".toList "x.glb".toList) =
      some (.model (.str "x.glb".toList)) :=
  ⟨by decide,
   (singleMediaEl_inference_matches_type keepNonAscii "x.glb".toList).2.2 (by decide)⟩

/-- C18 as the specification states it fails: the descriptor of the unknown type
`bogus` with the source `x.png` goes to the image builder, not to the
placeholder. -/
theorem singleMediaEl_unknown_type_with_src :
    "bogus".toList ∉ Viewer.knownTypes ∧
    Viewer.singleMediaEl keepNonAscii (Viewer.typed "bogus".toList "x.png".toList) =
      some (.image (.str "x.png".toList)) ∧
    Viewer.singleMediaEl keepNonAscii (Viewer.typed "bogus".toList "x.png".toList) ≠
      some .placeholder := by
  have h : Viewer.singleMediaEl keepNonAscii (Viewer.typed "bogus".toList "x.png".toList) =
      some (.image (.str "x.png".toList)) := rfl
  refine ⟨by decide, h, ?_⟩
  rw [h]
  intro e
  cases e

/-- C18, amended: a descriptor whose `type` is none of `image`, `video`,
`iframe`, `model`, `code-demo`, `file`, `placeholder` goes to the placeholder
when its `src` is missing, empty or otherwise falsy; when its `src` is a
non-empty string the builder is inferred from the extension of the `src`:
video, image or model by the three lists, the iframe otherwise. -/
theorem singleMediaEl_unknown_type (U : LowerMap) (m : JSValue)
    (hm : ∀ k ∈ Viewer.knownTypes, Viewer.isString (getProp m "type".toList) k = false) :
    (Viewer.isTruthy (getProp m "src".toList) = false →
      Viewer.singleMediaEl U m = some .placeholder) ∧
    (∀ s : Str, getProp m "src".toList = .str s → s ≠ [] →
      Viewer.singleMediaEl U m =
        (if Viewer.extFromSrc U s ∈ ["mp4".toList, "webm".toList, "mov".toList] then
          some (.video (.str s))
        else if Viewer.extFromSrc U s ∈
            ["png".toList, "jpg".toList, "jpeg".toList, "webp".toList, "gif".toList] then
          some (.image (.str s))
        else if Viewer.extFromSrc U s ∈ ["glb".toList, "gltf".toList, "stl".toList] then
          some (.model (.str s))
        else some (.iframe (.str s)))) := by
  have k1 := hm "image".toList (by decide)
  have k2 := hm "video".toList (by decide)
  have k3 := hm "iframe".toList (by decide)
  have k4 := hm "model".toList (by decide)
  have k5 := hm "code-demo".toList (by decide)
  have k6 := hm "file".toList (by decide)
  have k7 := hm "placeholder".toList (by decide)
  refine ⟨fun hsrc => singleMediaEl_of_falsy_src U m hsrc k5, fun s hs hne => ?_⟩
  have ht : Viewer.isTruthy (.str s) = true := by
    cases s with
    | nil => exact absurd rfl hne
    | cons c cs => rfl
  have hmt : Viewer.isTruthy m = true := by
    cases m with
    | obj props => rfl
    | undefined => simp [getProp] at hs
    | null => simp [getProp] at hs
    | bool b => simp [getProp] at hs
    | num q => simp [getProp] at hs
    | str t => simp [getProp] at hs
    | arr items => simp [getProp] at hs
  simp only [Viewer.singleMediaEl, hs, ht, hmt, k1, k2, k3, k4, k5, k6, k7]
  rfl

/-- Witness for C18: the descriptor of type `bogus` without a source goes to the
placeholder, and with the source `x.png` to the image builder. -/
theorem singleMediaEl_unknown_type_witness :
    Viewer.singleMediaEl keepNonAscii (.obj [("type".toList, .str "bogus".toList)]) =
      some .placeholder ∧
    Viewer.singleMediaEl keepNonAscii (Viewer.typed "bogus".toList "x.png".toList) =
      some (.image (.str "x.png".toList)) :=
  ⟨(singleMediaEl_unknown_type keepNonAscii (.obj [("type".toList, .str "bogus".toList)])
      (by decide)).1 rfl,
   ((singleMediaEl_unknown_type keepNonAscii (Viewer.typed "bogus".toList "x.png".toList)
      (by decide)).2 "x.png".toList rfl (by decide)).trans rfl⟩

/-! ## The importer's descriptors in the viewer -/

theorem splitCharFrom_of_not_mem (sep : Char) (acc s : Str) (h : sep ∉ s) :
    splitCharFrom sep acc s = [acc.reverse ++ s] := by
  induction s generalizing acc with
  | nil => simp [splitCharFrom]
  | cons c cs ih =>
    have hc : ¬ c = sep := fun e => h (e ▸ List.mem_cons_self _ _)
    simp only [splitCharFrom, if_neg hc]
    rw [ih (c :: acc) (fun hm => h (List.mem_cons_of_mem _ hm))]
    simp

theorem firstPiece_of_not_mem (sep : Char) (s : Str) (h : sep ∉ s) :
    Viewer.firstPiece sep s = s := by
  simp [Viewer.firstPiece, splitChar, splitCharFrom_of_not_mem sep [] s h]

theorem getLast_splitCharFrom_of_mem (sep : Char) (acc s : Str) (h : sep ∈ s) :
    (splitCharFrom sep acc s).getLast? = (splitCharFrom sep [] s).getLast? := by
  induction s generalizing acc with
  | nil => simp at h
  | cons c cs ih =>
    by_cases hc : c = sep
    · simp only [splitCharFrom, if_pos hc]
      obtain ⟨x, xs, hx⟩ := List.exists_cons_of_ne_nil (splitCharFrom_ne_nil sep [] cs)
      rw [hx]
      simp [List.getLast?_cons_cons]
    · have hm : sep ∈ cs := (List.mem_cons.1 h).resolve_left (fun e => hc e.symm)
      simp only [splitCharFrom, if_neg hc]
      rw [ih (c :: acc) hm, ih [c] hm]

theorem getLast_splitCharFrom_append (sep : Char) (acc a b : Str) (h : sep ∈ b) :
    (splitCharFrom sep acc (a ++ b)).getLast? = (splitCharFrom sep [] b).getLast? := by
  induction a generalizing acc with
  | nil => exact getLast_splitCharFrom_of_mem sep acc b h
  | cons c cs ih =>
    by_cases hc : c = sep
    · simp only [List.cons_append, splitCharFrom, if_pos hc]
      obtain ⟨x, xs, hx⟩ := List.exists_cons_of_ne_nil (splitCharFrom_ne_nil sep [] (cs ++ b))
      have := ih []
      simp only [List.append_eq] at this ⊢
      rw [hx] at this ⊢
      simpa [List.getLast?_cons_cons] using this
    · simp only [List.cons_append, splitCharFrom, if_neg hc]
      exact ih (c :: acc)

theorem lastDotPiece_append (a b : Str) (h : '.' ∈ b) :
    lastDotPiece (a ++ b) = lastDotPiece b := by
  unfold lastDotPiece splitChar
  rw [getLast_splitCharFrom_append '.' [] a b h]

theorem extFromSrc_assetPath (U : LowerMap) (cat : Cat) (name : Str)
    (hdot : '.' ∈ name) (hq : '?' ∉ name) (hh : '#' ∉ name) :
    Viewer.extFromSrc U (assetPath cat name) = toLowerCase U (lastDotPiece name) := by
  have hq2 : '?' ∉ assetPath cat name := by
    unfold assetPath
    intro hm
    rcases List.mem_append.1 hm with hm | hm
    · revert hm
      cases cat <;> decide
    · rcases List.mem_cons.1 hm with hm | hm
      · revert hm; decide
      · exact hq hm
  have hh2 : '#' ∉ assetPath cat name := by
    unfold assetPath
    intro hm
    rcases List.mem_append.1 hm with hm | hm
    · revert hm
      cases cat <;> decide
    · rcases List.mem_cons.1 hm with hm | hm
      · revert hm; decide
      · exact hh hm
  unfold Viewer.extFromSrc
  simp only
  rw [firstPiece_of_not_mem '?' _ hq2, firstPiece_of_not_mem '#' _ hh2]
  have : assetPath cat name = ("../assets/".toList ++ cat.key ++ ['/']) ++ name := by
    simp [assetPath]
  rw [this, lastDotPiece_append _ name hdot]

theorem singleMediaEl_infer (U : LowerMap) (m : JSValue) (s : Str)
    (htype : getProp m "type".toList = .undefined) (hsrc : getProp m "src".toList = .str s)
    (hne : s ≠ []) :
    Viewer.singleMediaEl U m =
      (if Viewer.extFromSrc U s ∈ ["mp4".toList, "webm".toList, "mov".toList] then
        some (.video (.str s))
      else if Viewer.extFromSrc U s ∈
          ["png".toList, "jpg".toList, "jpeg".toList, "webp".toList, "gif".toList] then
        some (.image (.str s))
      else if Viewer.extFromSrc U s ∈ ["glb".toList, "gltf".toList, "stl".toList] then
        some (.model (.str s))
      else some (.iframe (.str s))) := by
  have ht : Viewer.isTruthy (.str s) = true := by
    cases s with
    | nil => exact absurd rfl hne
    | cons c cs => rfl
  have hmt : Viewer.isTruthy m = true := by
    cases m with
    | obj props => rfl
    | undefined => simp [getProp] at hsrc
    | null => simp [getProp] at hsrc
    | bool b => simp [getProp] at hsrc
    | num q => simp [getProp] at hsrc
    | str t => simp [getProp] at hsrc
    | arr items => simp [getProp] at hsrc
  simp only [Viewer.singleMediaEl, htype, hsrc, ht, hmt]
  rfl

/-- C17 as the specification states it fails: the file `shot#1.png` is an image
for the importer, but the viewer cuts the source at `#` and infers the iframe;
the file `mp4`, a name without a dot, is a video for the importer, but the
viewer reads the extension off the whole path and infers the iframe. -/
theorem viewer_inference_differs_from_importer :
    (mediaFromFile keepNonAscii { name := "shot#1.png".toList } .prints).type =
      "image".toList ∧
    Viewer.singleMediaEl keepNonAscii
        (mediaFromFile keepNonAscii { name := "shot#1.png".toList } .prints).toJSWithoutType =
      some (.iframe (.str "../assets/prints/shot#1.png".toList)) ∧
    Viewer.singleMediaEl keepNonAscii
        (mediaFromFile keepNonAscii { name := "shot#1.png".toList } .prints).toJSWithoutType ≠
      some (.image (.str "../assets/prints/shot#1.png".toList)) ∧
    (mediaFromFile keepNonAscii { name := "mp4".toList } .animation).type = "video".toList ∧
    Viewer.singleMediaEl keepNonAscii
        (mediaFromFile keepNonAscii { name := "mp4".toList } .animation).toJSWithoutType =
      some (.iframe (.str "../assets/animation/mp4".toList)) := by
  have h : Viewer.singleMediaEl keepNonAscii
        (mediaFromFile keepNonAscii { name := "shot#1.png".toList } .prints).toJSWithoutType =
      some (.iframe (.str "../assets/prints/shot#1.png".toList)) := rfl
  refine ⟨by decide, h, ?_, by decide, rfl⟩
  rw [h]
  intro e
  cases Option.some.inj e

theorem head_splitCharFrom (sep : Char) (acc s : Str) :
    (splitCharFrom sep acc s).head? =
      some (acc.reverse ++ s.takeWhile (fun c => decide (c ≠ sep))) := by
  induction s generalizing acc with
  | nil => simp [splitCharFrom]
  | cons c cs ih =>
    by_cases hc : c = sep
    · simp [splitCharFrom, hc]
    · simp only [splitCharFrom, if_neg hc]
      rw [ih (c :: acc)]
      simp [List.takeWhile_cons, hc]

theorem firstPiece_eq_takeWhile (sep : Char) (s : Str) :
    Viewer.firstPiece sep s = s.takeWhile (fun c => decide (c ≠ sep)) := by
  simp [Viewer.firstPiece, splitChar, head_splitCharFrom]

theorem takeWhile_hash_takeWhile_query (s : Str) :
    (s.takeWhile (fun c => decide (c ≠ '?'))).takeWhile (fun c => decide (c ≠ '#')) =
      cutAtQueryOrHash s := by
  unfold cutAtQueryOrHash
  induction s with
  | nil => rfl
  | cons c cs ih =>
    by_cases h1 : c = '?'
    · simp [List.takeWhile_cons, h1]
    · by_cases h2 : c = '#'
      · simp [List.takeWhile_cons, h2]
      · simp only [List.takeWhile_cons, h1, h2, ne_eq, not_false_eq_true, decide_True,
          and_self, if_true]
        rw [ih]

theorem cutAtQueryOrHash_assetPath (cat : Cat) (name : Str) :
    cutAtQueryOrHash (assetPath cat name) = assetPath cat (cutAtQueryOrHash name) := by
  have e : ∀ t : Str, assetPath cat t = ("../assets/".toList ++ cat.key ++ ['/']) ++ t := by
    intro t
    simp [assetPath]
  have hall : ∀ c ∈ "../assets/".toList ++ cat.key ++ ['/'],
      (fun c => decide (c ≠ '?' ∧ c ≠ '#')) c = true := by
    cases cat <;> decide
  rw [e name, e (cutAtQueryOrHash name)]
  unfold cutAtQueryOrHash
  rw [List.takeWhile_append_of_pos hall]

theorem cutAtQueryOrHash_of_not_mem (name : Str) (hq : '?' ∉ name) (hh : '#' ∉ name) :
    cutAtQueryOrHash name = name := by
  unfold cutAtQueryOrHash
  rw [List.takeWhile_eq_self_iff]
  intro c hc
  exact decide_eq_true ⟨fun e => hq (e ▸ hc), fun e => hh (e ▸ hc)⟩

theorem not_mem_cutAtQueryOrHash (c : Char) (name : Str) (h : c ∉ name) :
    c ∉ cutAtQueryOrHash name :=
  fun hm => h ((List.takeWhile_sublist _).subset hm)

theorem lastDotPiece_dot_cons (r : Str) (h : '.' ∉ r) : lastDotPiece ('.' :: r) = r := by
  show ((([] : Str).reverse :: splitCharFrom '.' [] r).getLast?).getD [] = r
  rw [splitCharFrom_of_not_mem '.' [] r h]
  rfl

theorem lastDotPiece_assetPath_of_no_dot (cat : Cat) (t : Str) (h : '.' ∉ t) :
    lastDotPiece (assetPath cat t) = "/assets/".toList ++ cat.key ++ '/' :: t := by
  have hk : '.' ∉ "/assets/".toList ++ cat.key ++ '/' :: t := by
    intro hm
    rcases List.mem_append.1 hm with hm | hm
    · revert hm
      cases cat <;> decide
    · rcases List.mem_cons.1 hm with hm | hm
      · revert hm; decide
      · exact h hm
  have e : assetPath cat t = ['.'] ++ '.' :: ("/assets/".toList ++ cat.key ++ '/' :: t) := by
    simp [assetPath]
  rw [e, lastDotPiece_append _ _ (List.mem_cons_self _ _)]
  exact lastDotPiece_dot_cons _ hk

theorem toLowerCase_slash_cons (U : LowerMap) (t : Str) :
    (toLowerCase U ('/' :: t)).head? = some '/' := by
  simp [toLowerCase, lowerFrom, asciiLower, isUpperAZ]

theorem kindOfExt_of_head_slash (e : Str) (h : e.head? = some '/') :
    kindOfExt e = "file".toList := by
  have hno : ∀ x ∈ ["mp4".toList, "webm".toList, "mov".toList, "png".toList, "jpg".toList,
      "jpeg".toList, "webp".toList, "gif".toList, "glb".toList, "gltf".toList, "stl".toList],
      x.head? ≠ some '/' := by decide
  have h1 : e ∉ ["mp4".toList, "webm".toList, "mov".toList] := fun hm =>
    hno e (by simp only [List.mem_cons] at hm ⊢; tauto) h
  have h2 : e ∉ ["png".toList, "jpg".toList, "jpeg".toList, "webp".toList, "gif".toList] :=
    fun hm => hno e (by simp only [List.mem_cons] at hm ⊢; tauto) h
  have h3 : e ∉ ["glb".toList, "gltf".toList, "stl".toList] := fun hm =>
    hno e (by simp only [List.mem_cons] at hm ⊢; tauto) h
  simp only [kindOfExt, if_neg h1, if_neg h2, if_neg h3]

/-- The viewer's extension lookup on the `src` of a file, by the name of the
file. -/
theorem kindOfExt_extFromSrc_assetPath (U : LowerMap) (cat : Cat) (name : Str) :
    kindOfExt (Viewer.extFromSrc U (assetPath cat name)) = kindOfCutName U name := by
  unfold Viewer.extFromSrc
  simp only
  rw [firstPiece_eq_takeWhile, firstPiece_eq_takeWhile, takeWhile_hash_takeWhile_query,
    cutAtQueryOrHash_assetPath]
  unfold kindOfCutName
  by_cases hdot : '.' ∈ cutAtQueryOrHash name
  · rw [if_pos hdot]
    have e : assetPath cat (cutAtQueryOrHash name) =
        ("../assets/".toList ++ cat.key ++ ['/']) ++ cutAtQueryOrHash name := by
      simp [assetPath]
    rw [e, lastDotPiece_append _ _ hdot]
  · rw [if_neg hdot, lastDotPiece_assetPath_of_no_dot cat _ hdot]
    apply kindOfExt_of_head_slash
    have : "/assets/".toList ++ cat.key ++ '/' :: cutAtQueryOrHash name =
        '/' :: ("assets/".toList ++ cat.key ++ '/' :: cutAtQueryOrHash name) := rfl
    rw [this]
    exact toLowerCase_slash_cons U _

theorem inference_eq_rendererOfKind (e : Str) (src : JSValue) :
    (if e ∈ ["mp4".toList, "webm".toList, "mov".toList] then some (Viewer.Renderer.video src)
      else if e ∈ ["png".toList, "jpg".toList, "jpeg".toList, "webp".toList, "gif".toList] then
        some (.image src)
      else if e ∈ ["glb".toList, "gltf".toList, "stl".toList] then some (.model src)
      else some (.iframe src)) = some (Viewer.rendererOfKind (kindOfExt e) src) := by
  unfold kindOfExt
  by_cases h1 : e ∈ ["mp4".toList, "webm".toList, "mov".toList]
  · rw [if_pos h1, if_pos h1]
    rfl
  · by_cases h2 : e ∈ ["png".toList, "jpg".toList, "jpeg".toList, "webp".toList, "gif".toList]
    · rw [if_neg h1, if_neg h1, if_pos h2, if_pos h2]
      rfl
    · by_cases h3 : e ∈ ["glb".toList, "gltf".toList, "stl".toList]
      · rw [if_neg h1, if_neg h1, if_neg h2, if_neg h2, if_pos h3, if_pos h3]
        rfl
      · rw [if_neg h1, if_neg h1, if_neg h2, if_neg h2, if_neg h3, if_neg h3]
        rfl

theorem kindOfExt_mem (e : Str) :
    kindOfExt e ∈ ["video".toList, "image".toList, "model".toList, "file".toList] := by
  unfold kindOfExt
  split_ifs <;> simp

theorem kindOfCutName_mem (U : LowerMap) (name : Str) :
    kindOfCutName U name ∈ ["video".toList, "image".toList, "model".toList, "file".toList] := by
  unfold kindOfCutName
  split_ifs
  · exact kindOfExt_mem _
  · simp

theorem rendererOfKind_inj (k1 k2 : Str) (src : JSValue)
    (h1 : k1 ∈ ["video".toList, "image".toList, "model".toList, "file".toList])
    (h2 : k2 ∈ ["video".toList, "image".toList, "model".toList, "file".toList])
    (h : Viewer.rendererOfKind k1 src = Viewer.rendererOfKind k2 src) : k1 = k2 := by
  have hv : Viewer.rendererOfKind "video".toList src = .video src := rfl
  have hi : Viewer.rendererOfKind "image".toList src = .image src := rfl
  have hm : Viewer.rendererOfKind "model".toList src = .model src := rfl
  have hf : Viewer.rendererOfKind "file".toList src = .iframe src := rfl
  simp only [List.mem_cons, List.mem_singleton, List.not_mem_nil, or_false] at h1 h2
  rcases h1 with rfl | rfl | rfl | rfl <;> rcases h2 with rfl | rfl | rfl | rfl <;>
    first
    | rfl
    | (rw [hv, hi] at h; cases h)
    | (rw [hv, hm] at h; cases h)
    | (rw [hv, hf] at h; cases h)
    | (rw [hi, hm] at h; cases h)
    | (rw [hi, hf] at h; cases h)
    | (rw [hm, hf] at h; cases h)

theorem mediaFromFile_type (U : LowerMap) (file : File) (cat : Cat) :
    (mediaFromFile U file cat).type = kindOfExt (toLowerCase U (lastDotPiece file.name)) := by
  unfold mediaFromFile kindOfExt
  simp only
  split_ifs <;> rfl

theorem mediaFromFile_src (U : LowerMap) (file : File) (cat : Cat) :
    (mediaFromFile U file cat).src = assetPath cat file.name := by
  unfold mediaFromFile
  simp only
  split_ifs <;> rfl

theorem getProp_toJSWithoutType (d : MediaDescriptor) :
    getProp d.toJSWithoutType "type".toList = .undefined ∧
    getProp d.toJSWithoutType "src".toList = .str d.src := by
  obtain ⟨type, src, label⟩ := d
  cases label <;> exact ⟨rfl, rfl⟩

/-- C17, amended: for every file name and every category, the viewer's
`singleMediaEl`, given the importer's descriptor of the file with the `type`
removed, selects the builder of the kind that the extension lists give to the
name cut before its first `?` or `#` (`kindOfCutName`: the iframe when the cut
name has no dot or its extension is in none of the lists), while the importer
assigns the kind the lists give to the text after the last dot of the whole
name.  So the viewer infers the kind the importer assigned, the iframe standing
for a file that is none of the three, exactly when the two kinds are the same:
for every name with a dot and without `?` and `#`; for a name without a dot
exactly when the importer classifies it as none of the three; for a name with
`?` or `#` whenever the cut name still has a dot and an extension of the same
kind. -/
theorem viewer_infers_importer_kind (U : LowerMap) (file : File) (cat : Cat) :
    (mediaFromFile U file cat).type = kindOfExt (toLowerCase U (lastDotPiece file.name)) ∧
    Viewer.singleMediaEl U (mediaFromFile U file cat).toJSWithoutType =
      some (Viewer.rendererOfKind (kindOfCutName U file.name)
        (.str (mediaFromFile U file cat).src)) ∧
    (Viewer.singleMediaEl U (mediaFromFile U file cat).toJSWithoutType =
        some (Viewer.rendererOfKind (mediaFromFile U file cat).type
          (.str (mediaFromFile U file cat).src)) ↔
      kindOfCutName U file.name = (mediaFromFile U file cat).type) ∧
    ('?' ∉ file.name → '#' ∉ file.name → '.' ∈ file.name →
      kindOfCutName U file.name = (mediaFromFile U file cat).type) ∧
    ('.' ∉ file.name →
      (kindOfCutName U file.name = (mediaFromFile U file cat).type ↔
        (mediaFromFile U file cat).type = "file".toList)) ∧
    ('.' ∈ cutAtQueryOrHash file.name →
      kindOfExt (toLowerCase U (lastDotPiece (cutAtQueryOrHash file.name))) =
        kindOfExt (toLowerCase U (lastDotPiece file.name)) →
      kindOfCutName U file.name = (mediaFromFile U file cat).type) := by
  have htype := mediaFromFile_type U file cat
  have hsrc := mediaFromFile_src U file cat
  have hne : (mediaFromFile U file cat).src ≠ [] := by
    rw [hsrc]
    simp [assetPath]
  have hsel : Viewer.singleMediaEl U (mediaFromFile U file cat).toJSWithoutType =
      some (Viewer.rendererOfKind (kindOfCutName U file.name)
        (.str (mediaFromFile U file cat).src)) := by
    rw [singleMediaEl_infer U _ _ (getProp_toJSWithoutType _).1 (getProp_toJSWithoutType _).2 hne,
      inference_eq_rendererOfKind, hsrc, kindOfExt_extFromSrc_assetPath]
  refine ⟨htype, hsel, ?_, ?_, ?_, ?_⟩
  · rw [hsel]
    constructor
    · intro h
      exact rendererOfKind_inj _ _ _ (kindOfCutName_mem U _)
        (htype ▸ kindOfExt_mem _) (Option.some.inj h)
    · intro h
      rw [h]
  · intro hq hh hdot
    rw [htype]
    unfold kindOfCutName
    rw [cutAtQueryOrHash_of_not_mem _ hq hh, if_pos hdot]
  · intro hdot
    have : kindOfCutName U file.name = "file".toList := by
      unfold kindOfCutName
      rw [if_neg (not_mem_cutAtQueryOrHash _ _ hdot)]
    rw [this]
    exact eq_comm
  · intro hdot hk
    rw [htype]
    unfold kindOfCutName
    rw [if_pos hdot, hk]

/-- Witness for C17: `clip.MP4` in `animation` is a video for the importer and for
the viewer's inference; `notes.pdf` and `README` are plain files for the
importer and go to the iframe in the viewer; `x.png#y.png` is an image for
both. -/
theorem viewer_infers_importer_kind_witness :
    Viewer.singleMediaEl keepNonAscii
        (mediaFromFile keepNonAscii { name := "clip.MP4".toList } .animation).toJSWithoutType =
      some (.video (.str "../assets/animation/clip.MP4".toList)) ∧
    Viewer.singleMediaEl keepNonAscii
        (mediaFromFile keepNonAscii { name := "notes.pdf".toList } .code).toJSWithoutType =
      some (.iframe (.str "../assets/code/notes.pdf".toList)) ∧
    (mediaFromFile keepNonAscii { name := "README".toList } .code).type = "file".toList ∧
    Viewer.singleMediaEl keepNonAscii
        (mediaFromFile keepNonAscii { name := "README".toList } .code).toJSWithoutType =
      some (.iframe (.str "../assets/code/README".toList)) ∧
    (mediaFromFile keepNonAscii { name := "x.png#y.png".toList } .prints).type =
      "image".toList ∧
    Viewer.singleMediaEl keepNonAscii
        (mediaFromFile keepNonAscii { name := "x.png#y.png".toList } .prints).toJSWithoutType =
      some (.image (.str "../assets/prints/x.png#y.png".toList)) :=
  ⟨(viewer_infers_importer_kind keepNonAscii { name := "clip.MP4".toList } .animation).2.1.trans
      rfl,
   (viewer_infers_importer_kind keepNonAscii { name := "notes.pdf".toList } .code).2.1.trans rfl,
   by decide,
   (viewer_infers_importer_kind keepNonAscii { name := "README".toList } .code).2.1.trans rfl,
   by decide,
   ((viewer_infers_importer_kind keepNonAscii { name := "x.png#y.png".toList } .prints).2.2.1.2
      (by decide)).trans rfl⟩

/-! ## The typed store and the store object -/

theorem toJS_eq_storeOf (st : State) :
    st.toJS = storeOf (st.animation.map Project.toJS) (st.cad.map Project.toJS)
      (st.prints.map Project.toJS) (st.code.map Project.toJS) := rfl

/-- The typed `addProjects` is `addProjects` on the store object. -/
theorem addProjects_toJS (st : State) (cat : Cat) (ps : List Project) :
    Store.addProjects st.toJS cat (ps.map Project.toJS) = some (addProjects st cat ps).toJS := by
  unfold Store.addProjects
  rw [toJS_eq_storeOf, modify_storeOf]
  cases cat <;> simp [addProjects, State.set, State.get, toJS_eq_storeOf]

/-! ## Termination of uniqueId -/

/-- C22: id collision resolution always finishes.  For every base, the empty one
included, and every category list, the loop of `uniqueId` ends within one more
test than the list has projects; with any bound at least that large it returns
the same id, the one `uniqueId` denotes, and whenever a bound suffices the id
returned is that one; the id is not the id of an existing project. -/
theorem uniqueId_terminates (st : State) (base : Str) (cat : Cat) :
    (∃ fuel r, uniqueIdFuel fuel st base cat = some r) ∧
    (∀ fuel, (st.get cat).length < fuel →
      uniqueIdFuel fuel st base cat = some (uniqueId st base cat)) ∧
    (∀ fuel r, uniqueIdFuel fuel st base cat = some r → r = uniqueId st base cat) ∧
    uniqueId st base cat ∉ (st.get cat).map (fun p => p.id) := by
  have hsome := uniqueIdFuel_eq_some st base cat
  refine ⟨⟨_, _, hsome ((st.get cat).length + 1) (Nat.lt_succ_self _)⟩, hsome,
    fun fuel r hr => ?_, (uniqueId_sound st base cat).1⟩
  have h1 : uniqueIdFuel (max fuel ((st.get cat).length + 1)) st base cat = some r :=
    uniqueIdLoop_mono _ base fuel _ 2 _ r hr (le_max_left _ _)
  have h2 := hsome (max fuel ((st.get cat).length + 1))
    (lt_of_lt_of_le (Nat.lt_succ_self _) (le_max_right _ _))
  rw [h1] at h2
  exact Option.some.inj h2

/-! ## Year and sequence number -/

theorem token_facts (text pre mid post : Str) (h : text = pre ++ mid ++ post)
    (hw : ∀ c ∈ mid, isWord c = true)
    (hpre : ∀ p, pre.getLast? = some p → isWord p = false)
    (hpost : ∀ q, post.head? = some q → isWord q = false) :
    (∀ k, pre.length ≤ k → k < pre.length + mid.length →
      ∃ c, text[k]? = some c ∧ isWord c = true) ∧
    (∀ c, 0 < pre.length → text[pre.length - 1]? = some c → isWord c = false) ∧
    (∀ c, text[pre.length + mid.length]? = some c → isWord c = false) := by
  subst h
  refine ⟨fun k h1 h2 => ?_, fun c h1 h2 => ?_, fun c h1 => ?_⟩
  · have hk : k - pre.length < mid.length := by omega
    refine ⟨mid[k - pre.length], ?_, hw _ (List.getElem_mem _)⟩
    rw [List.append_assoc, List.getElem?_append_right h1,
      List.getElem?_append_left hk, List.getElem?_eq_getElem hk]
  · apply hpre
    rw [List.append_assoc, List.getElem?_append_left (by omega)] at h2
    rw [List.getLast?_eq_getElem?]
    exact h2
  · apply hpost
    rw [List.getElem?_append_right (by simp)] at h1
    simp only [List.length_append, Nat.sub_self] at h1
    rw [List.head?_eq_getElem?]
    exact h1

theorem tokens_separated (text : Str) (i m j n : Nat) (hm : 1 ≤ m) (hn : 1 ≤ n) (hmn : m ≠ n)
    (a1 : ∀ k, i ≤ k → k < i + m → ∃ c, text[k]? = some c ∧ isWord c = true)
    (a2 : ∀ c, 0 < i → text[i - 1]? = some c → isWord c = false)
    (a3 : ∀ c, text[i + m]? = some c → isWord c = false)
    (b1 : ∀ k, j ≤ k → k < j + n → ∃ c, text[k]? = some c ∧ isWord c = true)
    (b2 : ∀ c, 0 < j → text[j - 1]? = some c → isWord c = false)
    (b3 : ∀ c, text[j + n]? = some c → isWord c = false) :
    j + n < i ∨ i + m < j := by
  have clash : ∀ (k : Nat) (c : Char), text[k]? = some c → isWord c = true →
      (∀ d : Char, text[k]? = some d → isWord d = false) → False := by
    intro k c h1 h2 h3
    rw [h3 c h1] at h2
    exact Bool.noConfusion h2
  by_contra hcon
  have hc1 : i ≤ j + n := by omega
  have hc2 : j ≤ i + m := by omega
  rcases Nat.lt_trichotomy j i with hlt | heq | hgt
  · by_cases hx : i < j + n
    · obtain ⟨c, hc, hcw⟩ := b1 (i - 1) (by omega) (by omega)
      exact clash _ c hc hcw (fun d hd => a2 d (by omega) hd)
    · have hi : i = j + n := by omega
      obtain ⟨c, hc, hcw⟩ := a1 i (le_refl _) (by omega)
      exact clash _ c hc hcw (fun d hd => b3 d (hi ▸ hd))
  · subst heq
    rcases Nat.lt_or_gt_of_ne hmn with h | h
    · obtain ⟨c, hc, hcw⟩ := b1 (j + m) (by omega) (by omega)
      exact clash _ c hc hcw (fun d hd => a3 d hd)
    · obtain ⟨c, hc, hcw⟩ := a1 (j + n) (by omega) (by omega)
      exact clash _ c hc hcw (fun d hd => b3 d hd)
  · by_cases hx : j < i + m
    · obtain ⟨c, hc, hcw⟩ := a1 (j - 1) (by omega) (by omega)
      exact clash _ c hc hcw (fun d hd => b2 d (by omega) hd)
    · have hj : j = i + m := by omega
      obtain ⟨c, hc, hcw⟩ := b1 j (le_refl _) (by omega)
      exact clash _ c hc hcw (fun d hd => a3 d (hj ▸ hd))

theorem year_seq_tokens_apart (text : Str) (i j : Nat) (y q : Str)
    (hy : YearTokenAt text i y) (hq : SeqTokenAt text j q) :
    (j + q.length < i ∨ i + 4 < j) ∧ ¬ SameDigitRun text i j := by
  obtain ⟨pre, post, a, b, c, d, ht, hl, rfl, hab, hc, hd, hp1, hp2⟩ := hy
  obtain ⟨pre2, post2, ht2, hl2, hn1, hn3, hdig, hq1, hq2⟩ := hq
  have hwy : ∀ x ∈ [a, b, c, d], isWord x = true := by
    intro x hx
    simp only [List.mem_cons, List.mem_singleton, List.not_mem_nil, or_false] at hx
    rcases hx with rfl | rfl | rfl | rfl
    · rcases hab with ⟨rfl, -⟩ | ⟨rfl, -⟩ <;> decide
    · rcases hab with ⟨-, rfl⟩ | ⟨-, rfl⟩ <;> decide
    · exact isWord_of_isDigit hc
    · exact isWord_of_isDigit hd
  obtain ⟨a1, a2, a3⟩ := token_facts text pre [a, b, c, d] post ht hwy hp1 hp2
  obtain ⟨b1, b2, b3⟩ := token_facts text pre2 q post2 ht2
    (fun x hx => isWord_of_isDigit (hdig x hx)) hq1 hq2
  rw [hl] at a1 a2 a3
  rw [hl2] at b1 b2 b3
  have hsep : j + q.length < i ∨ i + 4 < j :=
    tokens_separated text i 4 j q.length (by decide) hn1 (by omega) a1 a2 a3 b1 b2 b3
  refine ⟨hsep, fun hsame => ?_⟩
  have hdw : ∀ k, min i j ≤ k → k ≤ max i j → ∃ x, text[k]? = some x ∧ isWord x = true := by
    intro k h1 h2
    obtain ⟨x, hx, hxd⟩ := hsame k h1 h2
    exact ⟨x, hx, isWord_of_isDigit hxd⟩
  rcases hsep with h | h
  · obtain ⟨x, hx, hxw⟩ := hdw (i - 1) (by omega) (by omega)
    rw [a2 x (by omega) hx] at hxw
    exact Bool.noConfusion hxw
  · obtain ⟨x, hx, hxw⟩ := hdw (i + 4) (by omega) (by omega)
    rw [a3 x hx] at hxw
    exact Bool.noConfusion hxw

theorem any_isWord_false (o : Option Char) :
    (o.any isWord = false) ↔ ∀ p, o = some p → isWord p = false := by
  cases o <;> simp [Option.any]

theorem digitsThenBoundary_some (n : Nat) (s q : Str) (hn : 1 ≤ n)
    (h : digitsThenBoundary n s = some q) :
    s = q ++ s.drop n ∧ q.length = n ∧ (∀ c ∈ q, isDigit c = true) ∧
    (∀ r, (s.drop n).head? = some r → isWord r = false) := by
  unfold digitsThenBoundary at h
  simp only at h
  split_ifs at h with hc
  obtain ⟨h1, h2, h3⟩ := hc
  have hq : q = s.take n := (Option.some.inj h).symm
  subst hq
  refine ⟨(List.take_append_drop n s).symm, h1, fun c hc => List.all_eq_true.1 h2 c hc, ?_⟩
  rw [← any_isWord_false]
  have hne : s.take n ≠ [] := by
    intro e
    rw [e] at h1
    simp at h1
    omega
  obtain ⟨l, x, hl⟩ := (List.eq_nil_or_concat (s.take n)).resolve_left hne
  have hx : isDigit x = true := List.all_eq_true.1 h2 x (by rw [hl]; simp)
  have hlast : (s.take n).getLast? = some x := by rw [hl]; simp
  rw [hlast] at h3
  simp only [wordBoundary, Option.any, isWord_of_isDigit hx] at h3
  cases hq : Option.any isWord (s.drop n).head? with
  | false => rfl
  | true =>
    simp only [Option.any] at hq
    rw [hq] at h3
    simp at h3

theorem seqAt_some (prev : Option Char) (s q : Str) (h : seqAt prev s = some q) :
    ∃ post, s = q ++ post ∧ 1 ≤ q.length ∧ q.length ≤ 3 ∧ (∀ c ∈ q, isDigit c = true) ∧
      (∀ p, prev = some p → isWord p = false) ∧
      (∀ r, post.head? = some r → isWord r = false) := by
  unfold seqAt at h
  split_ifs at h with hb
  have key : ∃ n, 1 ≤ n ∧ n ≤ 3 ∧ digitsThenBoundary n s = some q := by
    cases h3 : digitsThenBoundary 3 s with
    | some q3 =>
      rw [h3] at h
      exact ⟨3, by decide, by decide, by rw [h3]; exact h⟩
    | none =>
      rw [h3] at h
      cases h2 : digitsThenBoundary 2 s with
      | some q2 =>
        simp only [Option.orElse, h2] at h
        exact ⟨2, by decide, by decide, by rw [h2]; exact h⟩
      | none =>
        simp only [Option.orElse, h2] at h
        exact ⟨1, by decide, by decide, h⟩
  obtain ⟨n, hn1, hn3, hd⟩ := key
  obtain ⟨e1, e2, e3, e4⟩ := digitsThenBoundary_some n s q hn1 hd
  refine ⟨s.drop n, e1, by omega, by omega, e3, ?_, e4⟩
  rw [← any_isWord_false]
  match q, e2, e1, e3 with
  | x :: qs, _, e1, e3 =>
    have hx : isDigit x = true := e3 x (List.mem_cons_self _ _)
    rw [e1] at hb
    simp only [List.cons_append, List.head?_cons, wordBoundary, Option.any,
      isWord_of_isDigit hx] at hb
    cases hq : Option.any isWord prev with
    | false => rfl
    | true =>
      simp only [Option.any] at hq
      rw [hq] at hb
      simp at hb
  | [], e2, _, _ => simp at e2; omega

theorem findSeqFrom_sound (pre s q : Str) (h : findSeqFrom pre.getLast? s = some q) :
    ∃ k, seqAt (pre ++ s.take k).getLast? (s.drop k) = some q := by
  induction s generalizing pre with
  | nil => simp [findSeqFrom] at h
  | cons c cs ih =>
    cases hy : seqAt pre.getLast? (c :: cs) with
    | some q0 =>
      simp only [findSeqFrom, hy] at h
      refine ⟨0, ?_⟩
      simpa [← Option.some.inj h] using hy
    | none =>
      have hpre : (pre ++ [c]).getLast? = some c := by simp
      have hrec : findSeqFrom pre.getLast? (c :: cs) = findSeqFrom (pre ++ [c]).getLast? cs := by
        simp only [findSeqFrom, hy, hpre]
      rw [hrec] at h
      obtain ⟨k, hk⟩ := ih (pre ++ [c]) h
      refine ⟨k + 1, ?_⟩
      simpa using hk

theorem matchSeq_seqToken (text q : Str) (h : matchSeq text = some q) :
    ∃ j, SeqTokenAt text j q := by
  obtain ⟨k, hk⟩ := findSeqFrom_sound [] text q h
  simp only [List.nil_append] at hk
  obtain ⟨post, e1, h1, h3, hd, hp, hpost⟩ := seqAt_some _ _ _ hk
  have hkl : k ≤ text.length := by
    by_contra hlt
    rw [List.drop_of_length_le (by omega)] at e1
    have := congrArg List.length e1
    simp at this
    omega
  refine ⟨k, text.take k, post, ?_, by simp [hkl], h1, h3, hd, hp, hpost⟩
  conv_lhs => rw [← List.take_append_drop k text, e1]
  simp

/-- C21 as the specification states it fails: there is no name with two or more
segments whose year and sequence number are matched at the same digit run of
the joined remaining segments.  A year is matched at a run of exactly four
digits between non-word characters, a sequence number at a run of one to three
digits between non-word characters. -/
theorem year_and_seq_share_no_run :
    ¬ ∃ (U : LowerMap) (name : Str) (i j : Nat), 2 ≤ (templateParts name).length ∧
      YearTokenAt (joinedRest name) i (parseTemplate U name).year ∧
      SeqTokenAt (joinedRest name) j (parseTemplate U name).seq ∧
      SameDigitRun (joinedRest name) i j := by
  rintro ⟨U, name, i, j, -, hy, hq, hsame⟩
  exact (year_seq_tokens_apart _ i j _ _ hy hq).2 hsame

/-- C21, amended: the year search and the sequence-number search never match the
same digit run.  For a name with two or more segments for which `parseTemplate`
returns a non-empty year and a non-empty sequence number, the year is a year
token and the sequence number a sequence-number token of the joined remaining
segments, at positions that are apart by at least one character and do not lie
in the same run of digits. -/
theorem year_and_seq_in_different_runs (U : LowerMap) (name p0 p1 : Str) (rest : List Str)
    (h : templateParts name = p0 :: p1 :: rest)
    (hy : (parseTemplate U name).year ≠ []) (hs : (parseTemplate U name).seq ≠ []) :
    joinedRest name = List.intercalate [' '] rest ∧
    ∃ i j, YearTokenAt (joinedRest name) i (parseTemplate U name).year ∧
      SeqTokenAt (joinedRest name) j (parseTemplate U name).seq ∧
      (j + (parseTemplate U name).seq.length < i ∨ i + 4 < j) ∧
      ¬ SameDigitRun (joinedRest name) i j := by
  have hj : joinedRest name = List.intercalate [' '] rest := by
    simp only [joinedRest, h, List.drop_succ_cons, List.drop_zero]
  have hyear : (parseTemplate U name).year =
      (matchYear (List.intercalate [' '] rest)).getD [] := by
    simp only [parseTemplate, h]
  have hseq : (parseTemplate U name).seq =
      (matchSeq (List.intercalate [' '] rest)).getD [] := by
    simp only [parseTemplate, h]
  refine ⟨hj, ?_⟩
  rw [hj]
  have hfy := matchYear_firstYearToken (List.intercalate [' '] rest)
  rw [← hyear] at hfy
  rcases hfy with ⟨i, hi, -⟩ | ⟨he, -⟩
  · cases hm : matchSeq (List.intercalate [' '] rest) with
    | none =>
      rw [hm] at hseq
      exact absurd hseq hs
    | some q =>
      rw [hm] at hseq
      obtain ⟨j, hjq⟩ := matchSeq_seqToken _ q hm
      have hq : q = (parseTemplate U name).seq := hseq.symm
      subst hq
      obtain ⟨a1, a2⟩ := year_seq_tokens_apart _ i j _ _ hi hjq
      exact ⟨i, j, hi, hjq, a1, a2⟩
  · exact absurd he hy

/-- Witness for C21: `x__y__t__2024__01` has the year `2024` and the sequence
number `01`, matched at different runs of the joined text `t 2024 01`. -/
theorem year_and_seq_in_different_runs_witness :
    (parseTemplate keepNonAscii "x__y__t__2024__01".toList).year = "2024".toList ∧
    (parseTemplate keepNonAscii "x__y__t__2024__01".toList).seq = "01".toList ∧
    joinedRest "x__y__t__2024__01".toList = "t 2024 01".toList ∧
    ∃ i j, YearTokenAt (joinedRest "x__y__t__2024__01".toList) i
        (parseTemplate keepNonAscii "x__y__t__2024__01".toList).year ∧
      SeqTokenAt (joinedRest "x__y__t__2024__01".toList) j
        (parseTemplate keepNonAscii "x__y__t__2024__01".toList).seq ∧
      (j + (parseTemplate keepNonAscii "x__y__t__2024__01".toList).seq.length < i ∨ i + 4 < j) ∧
      ¬ SameDigitRun (joinedRest "x__y__t__2024__01".toList) i j :=
  ⟨by decide, by decide, by decide,
   (year_and_seq_in_different_runs keepNonAscii "x__y__t__2024__01".toList "x".toList
      "y".toList ["t".toList, "2024".toList, "01".toList] (by decide) (by decide)
      (by decide)).2⟩

/-! ## The viewer's index -/

theorem prevIndex_range (n : Nat) (i : Int) (h0 : 0 ≤ i) (hn : i < n) :
    0 ≤ Viewer.prevIndex n i ∧ Viewer.prevIndex n i < n ∧
    Viewer.prevIndex n i = (if i = 0 then (n : Int) - 1 else i - 1) := by
  have hpos : (0 : Int) < n := by omega
  have hval : Viewer.prevIndex n i = (if i = 0 then (n : Int) - 1 else i - 1) := by
    unfold Viewer.prevIndex Viewer.jsMod
    rw [Int.tmod_eq_emod (by omega) (by omega)]
    split_ifs with hi
    · subst hi
      exact Int.emod_eq_of_lt (by omega) (by omega)
    · rw [Int.add_emod_self]
      exact Int.emod_eq_of_lt (by omega) (by omega)
  rw [hval]
  split_ifs with hi
  · exact ⟨by omega, by omega, rfl⟩
  · exact ⟨by omega, by omega, rfl⟩

theorem nextIndex_range (n : Nat) (i : Int) (h0 : 0 ≤ i) (hn : i < n) :
    0 ≤ Viewer.nextIndex n i ∧ Viewer.nextIndex n i < n ∧
    Viewer.nextIndex n i = (if i = (n : Int) - 1 then 0 else i + 1) := by
  have hpos : (0 : Int) < n := by omega
  have hval : Viewer.nextIndex n i = (if i = (n : Int) - 1 then 0 else i + 1) := by
    unfold Viewer.nextIndex Viewer.jsMod
    rw [Int.tmod_eq_emod (by omega) (by omega)]
    split_ifs with hi
    · have : i + 1 = (n : Int) := by omega
      rw [this]
      exact Int.emod_self
    · exact Int.emod_eq_of_lt (by omega) (by omega)
  rw [hval]
  split_ifs with hi
  · exact ⟨by omega, by omega, rfl⟩
  · exact ⟨by omega, by omega, rfl⟩

theorem step_range (n : Nat) (i : Int) (e : Viewer.NavEvent) (he : e.valid n)
    (h0 : 0 ≤ i) (hn : i < n) : 0 ≤ Viewer.step n i e ∧ Viewer.step n i e < n := by
  have hp := prevIndex_range n i h0 hn
  have hx := nextIndex_range n i h0 hn
  cases e with
  | prevClick => exact ⟨hp.1, hp.2.1⟩
  | nextClick => exact ⟨hx.1, hx.2.1⟩
  | carouselClick k =>
    have hk : k < n := he
    simp only [Viewer.step]
    omega
  | keydown key =>
    simp only [Viewer.step]
    by_cases hl : key = "ArrowLeft".toList
    · have hr : ¬ key = "ArrowRight".toList := by
        rw [hl]
        decide
      rw [if_pos hl, if_neg hr]
      exact ⟨hp.1, hp.2.1⟩
    · rw [if_neg hl]
      split_ifs
      · exact ⟨hx.1, hx.2.1⟩
      · exact ⟨h0, hn⟩
  | touchend dx =>
    cases dx with
    | none => exact ⟨h0, hn⟩
    | some d =>
      simp only [Viewer.step]
      split_ifs
      · exact ⟨h0, hn⟩
      · exact ⟨hp.1, hp.2.1⟩
      · exact ⟨hx.1, hx.2.1⟩

theorem run_range (n : Nat) (events : List Viewer.NavEvent) (i : Int)
    (hev : ∀ e ∈ events, e.valid n) (h0 : 0 ≤ i) (hn : i < n) :
    0 ≤ Viewer.run n i events ∧ Viewer.run n i events < n := by
  induction events generalizing i with
  | nil => exact ⟨h0, hn⟩
  | cons e es ih =>
    have hs := step_range n i e (hev e (List.mem_cons_self _ _)) h0 hn
    exact ih (Viewer.step n i e) (fun x hx => hev x (List.mem_cons_of_mem _ hx)) hs.1 hs.2

theorem findIndex_spec (pid : Option Str) (projects : List JSValue)
    (hobj : ∀ p ∈ projects, p ≠ .undefined ∧ p ≠ .null) :
    (Viewer.findIndex pid projects = some none ∧
      ∀ p ∈ projects, Viewer.idMatches pid p = false) ∨
    (∃ k, Viewer.findIndex pid projects = some (some k) ∧ k < projects.length ∧
      (∃ p, projects[k]? = some p ∧ Viewer.idMatches pid p = true) ∧
      ∀ j, j < k → ∀ p, projects[j]? = some p → Viewer.idMatches pid p = false) := by
  induction projects with
  | nil => exact Or.inl ⟨rfl, fun p hp => by simp at hp⟩
  | cons q qs ih =>
    have hq := hobj q (List.mem_cons_self _ _)
    have hdef : Viewer.findIndex pid (q :: qs) =
        if Viewer.idMatches pid q then some (some 0)
        else (Viewer.findIndex pid qs).map (fun r => r.map (fun k => k + 1)) := by
      cases q with
      | undefined => exact absurd rfl hq.1
      | null => exact absurd rfl hq.2
      | bool b => rfl
      | num x => rfl
      | str t => rfl
      | arr items => rfl
      | obj props => rfl
    rw [hdef]
    by_cases hm : Viewer.idMatches pid q = true
    · right
      refine ⟨0, by rw [if_pos hm], by simp, ⟨q, by simp, hm⟩, fun j hj => by omega⟩
    · have hm2 : Viewer.idMatches pid q = false := by simpa using hm
      rw [if_neg hm]
      rcases ih (fun p hp => hobj p (List.mem_cons_of_mem _ hp)) with ⟨h1, h2⟩ | ⟨k, h1, h2, ⟨p, h3, h4⟩, h5⟩
      · left
        refine ⟨by rw [h1]; rfl, fun p hp => ?_⟩
        rcases List.mem_cons.1 hp with rfl | hp
        · exact hm2
        · exact h2 p hp
      · right
        refine ⟨k + 1, by rw [h1]; rfl, by simpa using h2, ⟨p, by simpa using h3, h4⟩,
          fun j hj p2 hp2 => ?_⟩
        cases j with
        | zero =>
          have : q = p2 := by simpa using hp2
          exact this ▸ hm2
        | succ j => exact h5 j (by omega) p2 (by simpa using hp2)

/-- C23: the viewer's index never leaves the project list.  For a non-empty list
of project records and any value of the `p` parameter, the index starts at the
position of the first project whose id equals `p`, at 0 when there is none;
after any sequence of arrow clicks, carousel clicks, key presses and swipes it
is still a position of the list, so `projects[index]` is defined; previous
from 0 gives the last position, next from the last position gives 0, and next
after previous gives the position back. -/
theorem index_stays_in_list (projects : List JSValue) (pid : Option Str)
    (hne : projects ≠ []) (hobj : ∀ p ∈ projects, p ≠ .undefined ∧ p ≠ .null) :
    (∃ i0 : Nat, Viewer.initialIndex pid projects = some (i0 : Int) ∧ i0 < projects.length ∧
      (∀ j, j < i0 → ∀ p, projects[j]? = some p → Viewer.idMatches pid p = false) ∧
      ((∃ p, projects[i0]? = some p ∧ Viewer.idMatches pid p = true) ∨
       (i0 = 0 ∧ ∀ p ∈ projects, Viewer.idMatches pid p = false)) ∧
      ∀ events : List Viewer.NavEvent, (∀ e ∈ events, e.valid projects.length) →
        0 ≤ Viewer.run projects.length i0 events ∧
        Viewer.run projects.length i0 events < projects.length ∧
        ∃ p, projects[(Viewer.run projects.length i0 events).toNat]? = some p) ∧
    Viewer.prevIndex projects.length 0 = (projects.length : Int) - 1 ∧
    Viewer.nextIndex projects.length ((projects.length : Int) - 1) = 0 ∧
    (∀ i : Int, 0 ≤ i → i < projects.length →
      Viewer.nextIndex projects.length (Viewer.prevIndex projects.length i) = i) := by
  have hlen : 0 < projects.length := List.length_pos.2 hne
  have hrun : ∀ (i0 : Nat), i0 < projects.length → ∀ events : List Viewer.NavEvent,
      (∀ e ∈ events, e.valid projects.length) →
      0 ≤ Viewer.run projects.length i0 events ∧
      Viewer.run projects.length i0 events < projects.length ∧
      ∃ p, projects[(Viewer.run projects.length i0 events).toNat]? = some p := by
    intro i0 hi0 events hev
    obtain ⟨r1, r2⟩ := run_range projects.length events i0 hev (by omega) (by omega)
    have hlt : (Viewer.run projects.length i0 events).toNat < projects.length := by omega
    exact ⟨r1, r2, _, List.getElem?_eq_getElem hlt⟩
  refine ⟨?_, ?_, ?_, ?_⟩
  · rcases findIndex_spec pid projects hobj with ⟨h1, h2⟩ | ⟨k, h1, h2, h3, h4⟩
    · refine ⟨0, by simp [Viewer.initialIndex, h1], hlen, fun j hj => by omega,
        Or.inr ⟨rfl, h2⟩, hrun 0 hlen⟩
    · exact ⟨k, by simp [Viewer.initialIndex, h1], h2, h4, Or.inl h3, hrun k h2⟩
  · have := (prevIndex_range projects.length 0 (le_refl 0) (by omega)).2.2
    simpa using this
  · have := (nextIndex_range projects.length ((projects.length : Int) - 1)
      (by omega) (by omega)).2.2
    simpa using this
  · intro i h0 hn
    obtain ⟨p1, p2, p3⟩ := prevIndex_range projects.length i h0 hn
    have hx := (nextIndex_range projects.length _ p1 p2).2.2
    rw [hx, p3]
    split_ifs <;> omega

/-- Witness for C23: a list of three projects opened with `p=b`: the index starts
at 1, and previous, previous, next, a swipe to the left and a click on the
first carousel button leave it in the list. -/
theorem index_stays_in_list_witness :
    Viewer.initialIndex (some "b".toList)
      [.obj [("id".toList, .str "a".toList)], .obj [("id".toList, .str "b".toList)],
       .obj [("id".toList, .str "c".toList)]] = some 1 ∧
    Viewer.run 3 1 [.prevClick, .prevClick] = 2 ∧
    Viewer.run 3 1 [.prevClick, .prevClick, .nextClick, .touchend (some (-50)),
      .carouselClick 0] = 0 ∧
    Viewer.prevIndex 3 0 = 2 ∧ Viewer.nextIndex 3 2 = 0 := by
  have h := index_stays_in_list
    [.obj [("id".toList, .str "a".toList)], .obj [("id".toList, .str "b".toList)],
     .obj [("id".toList, .str "c".toList)]] (some "b".toList) (by simp)
    (by
      intro p hp
      simp only [List.mem_cons, List.mem_singleton, List.not_mem_nil, or_false] at hp
      rcases hp with rfl | rfl | rfl <;> exact ⟨by simp, by simp⟩)
  refine ⟨rfl, by decide, ?_, h.2.1, h.2.2.1⟩
  simp only [Viewer.run, List.foldl, Viewer.step]
  norm_num [Viewer.prevIndex, Viewer.nextIndex, Viewer.jsMod, abs_lt]

end Importer
